import Mathlib

/-!
# Verification of the hierarchical-segmentation core (IGNF/hierarchy_labellisation)

Shallow embedding of the Rust sources `plef.rs`, `graph.rs`, `hierarchy.rs`,
`lib.rs` (hierarchy cut) and `seed.rs` into Lean, together with proofs and
refutations of the specified properties.

Modelling conventions:
* `f64` values are modelled by exact rationals `ℚ`; the single value
  `f64::INFINITY` returned by `Plef::infimum` is modelled by `⊤ : WithTop ℚ`.
* `u32`/`u64`/`usize` quantities are modelled by `ℕ`; no wraparound occurs in
  any quantity considered here (the one truncating subtraction, the merged
  perimeter, is proved not to underflow).
* Panics (`unwrap` on an empty deque, `assert!`) are modelled by `Option` /
  `Except` results.
* Rust `for` loops become named recursive helpers (one per loop), mutation
  becomes explicit state passing.
* Rust's `BinaryHeap` pops a minimum-weight entry; ties are broken by an
  unspecified internal order, and the `HashMap` of neighbours iterates in an
  unspecified order.  The embedding determinises both (sorted insertion queue,
  FIFO among equal weights; association list in first-encounter order).  All
  concrete refutation instances below have pairwise distinct weights, so the
  determinisation cannot change their outcome.
-/

/-! ## PLEF algebra (`plef.rs`) -/

/-- One affine piece of a PLEF (`PlefPiece` in `plef.rs`). -/
structure PlefPiece where
  start_x : ℚ
  start_y : ℚ
  slope : ℚ
deriving DecidableEq, Repr

instance : Inhabited PlefPiece := ⟨⟨0, 0, 0⟩⟩

/-- `PlefPiece::eval`. -/
def PlefPiece.eval (p : PlefPiece) (x : ℚ) : ℚ :=
  p.start_y + p.slope * (x - p.start_x)

/-- A piecewise linear energy function (`Plef` in `plef.rs`); the deque of
pieces is a Lean list, front of the deque first. -/
structure Plef where
  pieces : List PlefPiece
deriving DecidableEq, Repr

/-- `Plef::init`. -/
def Plef.initP : Plef := ⟨[]⟩

/-- The merge loop of `Plef::sum`.  Both inputs are passed reversed (rightmost
piece first, as the Rust code iterates with `.rev()`), the fuel is the
remaining `max_pieces` budget, and the result comes out in natural order (the
Rust code pushes each emitted piece at the front of its deque, so the piece
emitted first ends up last). -/
def sumLoop : ℕ → List PlefPiece → List PlefPiece → List PlefPiece
  | 0, _, _ => []
  | _, [], _ => []
  | _, _, [] => []
  | c + 1, p :: is, q :: js =>
    let ns := p.slope + q.slope
    if q.start_x ≤ p.start_x then
      let nx := p.start_x
      let ny := p.start_y + q.eval nx
      (if p.start_x = q.start_x then sumLoop c is js
       else sumLoop c is (q :: js)) ++ [⟨nx, ny, ns⟩]
    else
      let nx := q.start_x
      let ny := q.start_y + p.eval nx
      sumLoop c (p :: is) js ++ [⟨nx, ny, ns⟩]

/-- The final fix-up of `Plef::sum`: extend the leftmost emitted piece back to
`start_x = 0`. -/
def extendFront : List PlefPiece → List PlefPiece
  | [] => []
  | p :: rest =>
    if 0 < p.start_x then
      ⟨0, p.start_y - p.slope * p.start_x, p.slope⟩ :: rest
    else p :: rest

/-- `Plef::sum`; the `max_pieces` argument defaults to 10 (every caller in the
sources passes `None`). -/
def Plef.sum (f g : Plef) (max_pieces : Option ℕ) : Plef :=
  if g.pieces = [] then f
  else if f.pieces = [] then g
  else ⟨extendFront (sumLoop (max_pieces.getD 10) f.pieces.reverse g.pieces.reverse)⟩

/-- The backward walk of `Plef::infimum`.  The list argument holds the
not-yet-inspected pieces, rightmost first; the rational argument is the
running value of the Rust variable `xi` (initially `0`, retained when the
loop pops past a piece). -/
def infLoop (other : PlefPiece) : List PlefPiece → ℚ → List PlefPiece × ℚ
  | [], xi => ([], xi)
  | p :: rest, _ =>
    let xi := (other.start_x * other.slope - p.start_x * p.slope
      - (other.start_y - p.start_y)) / (other.slope - p.slope)
    if p.start_x < xi then (p :: rest, xi) else infLoop other rest xi

/-- `Plef::infimum`.  Returns `none` exactly when `self.pieces.back().unwrap()`
panics (empty PLEF); otherwise the mutated PLEF together with the returned
scale, `⊤` standing for `f64::INFINITY`. -/
def Plef.infimum (f : Plef) (other : PlefPiece) : Option (Plef × WithTop ℚ) :=
  match f.pieces.reverse with
  | [] => none
  | last :: rest =>
    if other.slope = last.slope then
      let y := other.eval last.start_x
      if last.start_y < y then some (f, ⊤)
      else if y = last.start_y then some (f, (last.start_x : WithTop ℚ))
      else
        let r := infLoop other rest 0
        some (⟨(PlefPiece.mk r.2 (other.eval r.2) other.slope :: r.1).reverse⟩,
          (r.2 : WithTop ℚ))
    else
      let r := infLoop other (last :: rest) 0
      some (⟨(PlefPiece.mk r.2 (other.eval r.2) other.slope :: r.1).reverse⟩,
        (r.2 : WithTop ℚ))

/-! ## Region adjacency graph (`graph.rs`) -/

/-- `SuperpixelNode`; the per-channel vectors are lists of naturals. -/
structure SuperpixelNode where
  area : ℕ
  perimeter : ℕ
  values : List ℕ
  values_sq : List ℕ
  optimal_energy : Plef
deriving DecidableEq, Repr

/-- `SuperpixelNode::init`. -/
def SuperpixelNode.initN (channels : ℕ) : SuperpixelNode :=
  ⟨0, 0, List.replicate channels 0, List.replicate channels 0, Plef.initP⟩

instance : Inhabited SuperpixelNode := ⟨SuperpixelNode.initN 0⟩

/-- `SuperpixelEdge` together with its petgraph endpoints (`src`, `dst`). -/
structure SuperpixelEdge where
  src : ℕ
  dst : ℕ
  weight : WithTop ℚ
  length : ℕ
  active : Bool
deriving DecidableEq, Repr

instance : Inhabited SuperpixelEdge := ⟨⟨0, 0, 0, 0, false⟩⟩

/-- The region adjacency graph: node and edge payload arrays, index-stable,
as in the petgraph `UnGraph` used by the sources. -/
structure Graph where
  nodes : List SuperpixelNode
  edges : List SuperpixelEdge
deriving DecidableEq, Repr

/-- `data_fidelity` from `graph.rs`: `Σ_c (Σv²_c − (Σv_c)² / area)`, folded
exactly as the Rust `Zip::fold`.  This is the rational value of the fold; it
adopts ℚ's convention `x / 0 = 0` where `f64` would produce a non-finite
value, so it coincides with the Rust result only for `area ≠ 0` (or an empty
channel vector) — `data_fidelity_f64` below tracks exactly that difference,
and the C3 statements use it. -/
def data_fidelity (values values_sq : List ℕ) (area : ℕ) : ℚ :=
  (values_sq.zip values).foldl
    (fun acc vv => acc + (vv.1 : ℚ) - (vv.2 : ℚ) ^ 2 / (area : ℚ)) 0

/-- `data_fidelity` as the `f64` fold actually computes it, keeping track of
finiteness: `none` models a non-finite accumulator.  A channel term
introduces a non-finite value exactly when it divides by `area = 0`
(`0.0 / 0.0 = NaN`, `v² / 0.0 = +∞` whose subtraction gives `-∞`), and every
further `f64` addition or subtraction of the fold keeps the accumulator
non-finite; with `area ≠ 0` every step is exact rational arithmetic.  The
empty fold is `0.0` regardless of `area`, as in Rust. -/
def data_fidelity_f64 (values values_sq : List ℕ) (area : ℕ) : Option ℚ :=
  (values_sq.zip values).foldl
    (fun acc vv =>
      match acc with
      | none => none
      | some a =>
        if area = 0 then none
        else some (a + (vv.1 : ℚ) - (vv.2 : ℚ) ^ 2 / (area : ℚ)))
    (some 0)

/-- Componentwise sum of two per-channel vectors (`ndarray` `+`). -/
def addVec (a b : List ℕ) : List ℕ := List.zipWith (· + ·) a b

/-- `apparition_scale` from `graph.rs`; `none` models the panic of the
`unwrap` inside `Plef::infimum` when the summed energy is empty (which cannot
happen at the call sites, see the C10 theorem). -/
def apparition_scale (source target : SuperpixelNode) (edge_length : ℕ) :
    Option (WithTop ℚ) :=
  let e := source.optimal_energy.sum target.optimal_energy none
  let values := addVec source.values target.values
  let values_sq := addVec source.values_sq target.values_sq
  let a := source.area + target.area
  let df := data_fidelity values values_sq a
  let merge_perimeter := source.perimeter + target.perimeter - 2 * edge_length
  (e.infimum ⟨0, df, (merge_perimeter : ℚ)⟩).map Prod.snd

/-- petgraph `find_edge` on an undirected graph: index of the first edge
joining `i` and `j` in either orientation. -/
def findEdgeIdx (edges : List SuperpixelEdge) (i j : ℕ) : Option ℕ :=
  edges.findIdx? fun e => (e.src == i && e.dst == j) || (e.src == j && e.dst == i)

/-- Update the node at an index in place (`graph[i]` mutation). -/
def updNode (nodes : List SuperpixelNode) (i : ℕ)
    (f : SuperpixelNode → SuperpixelNode) : List SuperpixelNode :=
  nodes.set i (f (nodes.getD i default))

/-- The right/bottom-neighbour body of the pixel loop in `graph_from_labels`
(lines 112–135 of `graph.rs`): bump both perimeters, create the edge if
missing, bump its length. -/
def neighborStep (labels : List (List ℕ)) (i : ℕ) (y2 x2 : ℕ) (g : Graph) : Graph :=
  match (labels.get? y2).bind (fun row => row.get? x2) with
  | none => g
  | some j =>
    if j = i then g
    else
      let nodes := updNode (updNode g.nodes i
        (fun n => { n with perimeter := n.perimeter + 1 })) j
        (fun n => { n with perimeter := n.perimeter + 1 })
      let edges :=
        match findEdgeIdx g.edges i j with
        | some _ => g.edges
        | none => g.edges ++ [⟨i, j, 0, 0, true⟩]
      let edges2 :=
        match findEdgeIdx edges i j with
        | some k => edges.set k
            (let e := edges.getD k default; { e with length := e.length + 1 })
        | none => edges
      ⟨nodes, edges2⟩

/-- The per-pixel body of the label scan in `graph_from_labels` (lines
101–136): accumulate area / values / squared values, then visit the right and
bottom neighbours. -/
def pixelStep (img : List (List (List ℕ))) (labels : List (List ℕ))
    (g : Graph) (yxl : ℕ × ℕ × ℕ) : Graph :=
  let y := yxl.1
  let x := yxl.2.1
  let label := yxl.2.2
  let pixel := (img.getD y []).getD x []
  let g1 : Graph := { g with nodes := updNode g.nodes label (fun n =>
    { n with area := n.area + 1, values := addVec n.values pixel,
             values_sq := addVec n.values_sq (pixel.map fun v => v * v) }) }
  neighborStep labels label (y + 1) x (neighborStep labels label y (x + 1) g1)

/-- The outer pixel loop: scan the row-major `(y, x, label)` triples. -/
def pixelScan (img : List (List (List ℕ))) (labels : List (List ℕ)) :
    List (ℕ × ℕ × ℕ) → Graph → Graph
  | [], g => g
  | yxl :: rest, g => pixelScan img labels rest (pixelStep img labels g yxl)

/-- Bump the perimeter of the region owning one frame pixel. -/
def bumpPerim (nodes : List SuperpixelNode) (l : ℕ) : List SuperpixelNode :=
  updNode nodes l fun n => { n with perimeter := n.perimeter + 1 }

/-- The top/bottom-row frame loop of `graph_from_labels` (lines 139–142). -/
def frameCols (labels : List (List ℕ)) (height : ℕ) :
    List ℕ → List SuperpixelNode → List SuperpixelNode
  | [], ns => ns
  | x :: xs, ns => frameCols labels height xs
      (bumpPerim (bumpPerim ns ((labels.getD 0 []).getD x 0))
        ((labels.getD (height - 1) []).getD x 0))

/-- The left/right-column frame loop of `graph_from_labels` (lines 143–146). -/
def frameRows (labels : List (List ℕ)) (width : ℕ) :
    List ℕ → List SuperpixelNode → List SuperpixelNode
  | [], ns => ns
  | y :: ys, ns => frameRows labels width ys
      (bumpPerim (bumpPerim ns ((labels.getD y []).getD 0 0))
        ((labels.getD y []).getD (width - 1) 0))

/-- The image-frame contribution to perimeters (lines 138–146). -/
def framePerimeters (labels : List (List ℕ)) (height width : ℕ) (g : Graph) : Graph :=
  { g with nodes := (frameRows labels width (List.range height)
      (frameCols labels height (List.range width) g.nodes)) }

/-- Initialise each node's `optimal_energy` with its single-piece PLEF
(lines 148–154). -/
def initEnergies (g : Graph) : Graph :=
  { g with nodes := g.nodes.map fun n =>
      { n with optimal_energy :=
          ⟨[⟨0, data_fidelity n.values n.values_sq n.area, (n.perimeter : ℚ)⟩]⟩ } }

/-- Initialise each edge's weight with its apparition scale (lines 156–164).
The `getD 0` performs the unwrap: it is only reached with the two freshly
initialised single-piece energies, for which `apparition_scale` is `some`. -/
def initWeights (g : Graph) : Graph :=
  { g with edges := g.edges.map fun e =>
      { e with weight := (apparition_scale (g.nodes.getD e.src default)
          (g.nodes.getD e.dst default) e.length).getD 0 } }

/-- Row-major indexed label list, as produced by `labels.indexed_iter()`:
`(y, x, label)` triples. -/
def indexedLabels (labels : List (List ℕ)) : List (ℕ × ℕ × ℕ) :=
  (labels.enum.map fun yr => yr.2.enum.map fun xl => (yr.1, xl.1, xl.2)).flatten

/-- `graph_from_labels` from `graph.rs`.  The image is an H×W×C tensor of
bytes, the label map an H×W tensor; the caller guarantees matching shapes
(the Rust code panics otherwise, and panics on an empty label map where this
model returns a one-node graph). -/
def graph_from_labels (img : List (List (List ℕ))) (labels : List (List ℕ)) : Graph :=
  let height := img.length
  let width := (img.headD []).length
  let channels := ((img.headD []).headD []).length
  let num_vertex := labels.flatten.foldl max 0 + 1
  let g0 : Graph := ⟨List.replicate num_vertex (SuperpixelNode.initN channels), []⟩
  initWeights (initEnergies (framePerimeters labels height width
    (pixelScan img labels (indexedLabels labels) g0)))

/-! ## Binary partition tree (`hierarchy.rs`) -/

/-- `PartitionTree`. -/
structure PartitionTree where
  parents : List ℕ
  levels : List (WithTop ℚ)
deriving DecidableEq, Repr

/-- A record of one fusion, kept for stating the merge invariants: endpoints
`a`, `b`, the new node index `m`, the fused edge's length and the popped
weight. -/
structure MergeRec where
  a : ℕ
  b : ℕ
  m : ℕ
  len : ℕ
  weight : WithTop ℚ
deriving DecidableEq, Repr

/-- The panics that `binary_partition_tree` can raise: the heap-consistency
`assert!`, the parallel-active-edge `assert!`, and the `unwrap` of
`Plef::infimum` on an empty PLEF. -/
inductive BptPanic
  | heapAssert
  | activeAssert
  | emptyPlef
deriving DecidableEq, Repr

/-- The loop state of `binary_partition_tree`: the mutable graph, the
priority queue (kept sorted by ascending weight, FIFO among ties — a
determinisation of `BinaryHeap`), the two output arrays, and the merge log. -/
structure BptState where
  nodes : List SuperpixelNode
  edges : List SuperpixelEdge
  heap : List (ℕ × WithTop ℚ)
  parents : List ℕ
  levels : List (WithTop ℚ)
  log : List MergeRec
deriving DecidableEq, Repr

/-- Push an `(edge index, weight)` entry, keeping the queue sorted by
ascending weight. -/
def heapPush : List (ℕ × WithTop ℚ) → ℕ × WithTop ℚ → List (ℕ × WithTop ℚ)
  | [], e => [e]
  | x :: rest, e => if e.2 < x.2 then e :: x :: rest else x :: heapPush rest e

/-- Add one `(neighbour ↦ edge id)` binding to the association list that
models the `HashMap<NodeIndex, Vec<EdgeIndex>>` of neighbours. -/
def addNeighbor (acc : List (ℕ × List ℕ)) (nb eid : ℕ) : List (ℕ × List ℕ) :=
  match acc with
  | [] => [(nb, [eid])]
  | (k, v) :: rest =>
    if k = nb then (k, v ++ [eid]) :: rest else (k, v) :: addNeighbor rest nb eid

/-- One pass of the neighbour-gathering loop (lines 83–99 of `hierarchy.rs`)
for a single endpoint `node` (the other endpoint being `other`): scan the
indexed edge list, skip inactive edges, fail on an active parallel edge to
`other`, and record every other active incident edge under its opposite
endpoint.  (petgraph's `neighbors` + `find_edge` resolve to the incident edge
itself because the graph never holds two edges with the same endpoints.) -/
def gatherFrom (node other : ℕ) :
    List (ℕ × SuperpixelEdge) → List (ℕ × List ℕ) →
    Except BptPanic (List (ℕ × List ℕ))
  | [], acc => .ok acc
  | (eid, e) :: rest, acc =>
    if e.src = node ∨ e.dst = node then
      let nb := if e.src = node then e.dst else e.src
      if nb = other then
        if e.active then .error .activeAssert else gatherFrom node other rest acc
      else if e.active then gatherFrom node other rest (addNeighbor acc nb eid)
      else gatherFrom node other rest acc
    else gatherFrom node other rest acc

/-- Sum of the lengths of the edges with the given indices (the `length`
accumulation of the rewiring loop). -/
def edgesLenSum (edges : List SuperpixelEdge) : List ℕ → ℕ
  | [] => 0
  | eid :: rest => (edges.getD eid default).length + edgesLenSum edges rest

/-- Deactivate the edges with the given indices (the `active = false`
mutation of the rewiring loop). -/
def deactivateAll : List ℕ → List SuperpixelEdge → List SuperpixelEdge
  | [], es => es
  | eid :: rest, es =>
    deactivateAll rest (es.set eid { es.getD eid default with active := false })

/-- The neighbour-rewiring loop (lines 138–157): for each neighbour, sum the
lengths of its old edges, deactivate them, create one fresh active edge from
the merged node and push it on the queue. -/
def rewire (nodes : List SuperpixelNode) (m : ℕ) :
    List (ℕ × List ℕ) → List SuperpixelEdge → List (ℕ × WithTop ℚ) →
    Except BptPanic (List SuperpixelEdge × List (ℕ × WithTop ℚ))
  | [], edges, heap => .ok (edges, heap)
  | (nb, eids) :: rest, edges, heap =>
    let length := edgesLenSum edges eids
    let edges1 := deactivateAll eids edges
    match apparition_scale (nodes.getD m default) (nodes.getD nb default) length with
    | none => .error .emptyPlef
    | some weight =>
      rewire nodes m rest (edges1 ++ [⟨m, nb, weight, length, true⟩])
        (heapPush heap (edges1.length, weight))

/-- The main loop of `binary_partition_tree`, fuel-indexed (the Rust loop
terminates because every fusion strictly decreases the number of active
edges; exhausted fuel returns the state reached so far, and every theorem
below quantifies over the fuel). -/
def bptLoop : ℕ → BptState → Except BptPanic BptState
  | 0, s => .ok s
  | fuel + 1, s =>
    match s.heap with
    | [] => .ok s
    | (eid, w) :: heapRest =>
      let e := s.edges.getD eid default
      if e.active = false then bptLoop fuel { s with heap := heapRest }
      else if e.weight ≠ w then .error .heapAssert
      else
        let edges1 := s.edges.set eid { e with active := false }
        let a := e.src
        let b := e.dst
        match (gatherFrom a b edges1.enum []).bind (gatherFrom b a edges1.enum) with
        | .error p => .error p
        | .ok neighbors =>
          let node_a := s.nodes.getD a default
          let node_b := s.nodes.getD b default
          let area := node_a.area + node_b.area
          let perimeter := node_a.perimeter + node_b.perimeter - 2 * e.length
          let values := addVec node_a.values node_b.values
          let values_sq := addVec node_a.values_sq node_b.values_sq
          let df := data_fidelity values values_sq area
          match (node_a.optimal_energy.sum node_b.optimal_energy none).infimum
              ⟨0, df, (perimeter : ℚ)⟩ with
          | none => .error .emptyPlef
          | some (plef, _) =>
            let m := s.nodes.length
            let newNode : SuperpixelNode := ⟨area, perimeter, values, values_sq, plef⟩
            match rewire (s.nodes ++ [newNode]) m neighbors edges1 heapRest with
            | .error p => .error p
            | .ok (edges2, heap2) =>
              bptLoop fuel
                ⟨s.nodes ++ [newNode], edges2, heap2,
                  ((s.parents.set a m).set b m) ++ [m], s.levels ++ [w],
                  s.log ++ [⟨a, b, m, e.length, w⟩]⟩

/-- The initial-heap loop: push one entry per edge, in edge order. -/
def initHeapGo : List (ℕ × SuperpixelEdge) → List (ℕ × WithTop ℚ) →
    List (ℕ × WithTop ℚ)
  | [], h => h
  | ie :: rest, h => initHeapGo rest (heapPush h (ie.1, ie.2.weight))

/-- The initial priority queue of `binary_partition_tree`. -/
def initHeap (edges : List SuperpixelEdge) : List (ℕ × WithTop ℚ) :=
  initHeapGo edges.enum []

/-- The initial loop state: leaves are their own parents at level 0. -/
def initBptState (g : Graph) : BptState :=
  ⟨g.nodes, g.edges, initHeap g.edges, List.range g.nodes.length,
    List.replicate g.nodes.length 0, []⟩

/-- A fuel budget large enough for every run that terminates (every fusion
consumes an active edge, every pop consumes a queue entry, and the queue
never holds more entries than edges ever created). -/
def bptFuel (g : Graph) : ℕ :=
  (g.edges.length + 1) * (g.edges.length + 1) * (g.edges.length + 1) + g.edges.length + 1

/-- `binary_partition_tree` (returning the full final state; the Rust
function returns its `parents`/`levels` projection). -/
def binary_partition_tree (g : Graph) : Except BptPanic BptState :=
  bptLoop (bptFuel g) (initBptState g)

/-! ## Hierarchy and cut (`lib.rs`) -/

/-- The `Hierarchy` struct of `lib.rs`. -/
structure Hierarchy where
  labels : List ℕ
  parents : List ℕ
  levels : List (WithTop ℚ)
  max_level : WithTop ℚ
deriving DecidableEq, Repr

/-- `build_hierarchy_wasm` after SLIC: assemble the `Hierarchy` from the
label map and the partition tree.  SLIC itself (`slic.rs`) is not among the
sources; the label map is taken as an input. -/
def build_hierarchy_from_labels (img : List (List (List ℕ)))
    (labels : List (List ℕ)) : Except BptPanic Hierarchy :=
  (binary_partition_tree (graph_from_labels img labels)).map fun t =>
    ⟨labels.flatten, t.parents, t.levels, t.levels.foldl max 0⟩

/-- Remove a key from the rewrite association list (`HashMap::remove`). -/
def removeKey (rw : List (ℕ × List ℕ)) (i : ℕ) : List (ℕ × List ℕ) :=
  rw.filter fun kv => kv.1 ≠ i

/-- `entry(parent).or_insert_with(Vec::new)` followed by pushing the new
members at the end of the family. -/
def upsertFamily (rw : List (ℕ × List ℕ)) (parent : ℕ) (members : List ℕ) :
    List (ℕ × List ℕ) :=
  match rw with
  | [] => [(parent, members)]
  | (k, v) :: rest =>
    if k = parent then (k, v ++ members) :: rest
    else (k, v) :: upsertFamily rest parent members

/-- The rewrite-collection loop of `cut_hierarchy_wasm` (lines 142–156 of
`lib.rs`), with its early `break` on the first level `≥ level`. -/
def cutLoop (parents : List ℕ) (level : ℚ) :
    List (ℕ × WithTop ℚ) → List (ℕ × List ℕ) → List (ℕ × List ℕ)
  | [], rw => rw
  | (i, l) :: rest, rw =>
    if (level : WithTop ℚ) ≤ l then rw
    else
      let parent := parents.getD i 0
      let children := (rw.lookup i).getD []
      cutLoop parents level rest
        (upsertFamily (removeKey rw i) parent (i :: children))

/-- Point the mapping of every member of one family at its parent. -/
def setAllTo (parent : ℕ) : List ℕ → List ℕ → List ℕ
  | [], mp => mp
  | c :: cs, mp => setAllTo parent cs (mp.set c parent)

/-- Fold all rewrite families into `label_mappings` (lines 158–163). -/
def applyRewritesGo : List (ℕ × List ℕ) → List ℕ → List ℕ
  | [], mp => mp
  | kv :: rest, mp => applyRewritesGo rest (setAllTo kv.1 kv.2 mp)

/-- Build `label_mappings` from the rewrite families. -/
def applyRewrites (n : ℕ) (rw : List (ℕ × List ℕ)) : List ℕ :=
  applyRewritesGo rw (List.range n)

/-- `cut_hierarchy_wasm`. -/
def cut_hierarchy (h : Hierarchy) (level : ℚ) : List ℕ :=
  let rw := cutLoop h.parents level h.levels.enum []
  let mappings := applyRewrites h.parents.length rw
  h.labels.map fun l => mappings.getD l 0

/-! ## Seed initialisation (`seed.rs`) -/

/-- A SLIC seed (`Superpixel` of the `simple_clustering` interface):
per-channel data and pixel coordinates. -/
structure Superpixel where
  data : List ℕ
  x : ℕ
  y : ℕ
deriving DecidableEq, Repr

/-- `div_ceil` from `slic_helpers.rs` (the Rust code panics on a zero
divisor; `ℕ` division returns 0 there, and every use has a positive
divisor). -/
def divCeil (a b : ℕ) : ℕ :=
  a / b + if 0 < a % b ∧ 0 < b then 1 else 0

/-- The `while x_seeds * y_seeds > k` shrinking loop of `init_seeds`;
fuel-indexed (the sum of the two counters strictly decreases). -/
def shrinkSeeds : ℕ → ℕ → ℕ → ℕ → ℕ × ℕ
  | 0, x, y, _ => (x, y)
  | fuel + 1, x, y, k => if k < x * y then shrinkSeeds fuel (x - 1) (y - 1) k else (x, y)

/-- The grid dimensions `(x_seeds, y_seeds)` computed by `init_seeds`
(lines 23–47 of `seed.rs`). -/
def seedGridDims (s k width height : ℕ) : ℕ × ℕ :=
  let x0 := divCeil width s
  let y0 := divCeil height s
  let x1 := if width < s * x0 then x0 - 1 else x0
  let y1 := if height < s * y0 then y0 - 1 else y0
  let xy := shrinkSeeds (x1 + y1) x1 y1 k
  (if xy.1 = 0 then 1 else xy.1, if xy.2 = 0 then 1 else xy.2)

/-- `num_traits::ToPrimitive::to_u32` on an `f64`, idealised over `ℚ`:
truncate toward zero, `none` when the truncation is negative (`-0.0`
converts to `0`). -/
def toU32 (q : ℚ) : Option ℕ :=
  if 0 ≤ q then some ⌊q⌋.toNat else if -1 < q then some 0 else none

/-- The inner (column) loop of `init_seeds`: place one seed per `xdx`,
skipping positions outside the image. -/
def seedColsGo (image : List (List (List ℕ))) (s half_s width height channels : ℕ)
    (x_correction : ℚ) (y : ℕ) :
    List ℕ → List Superpixel → Option (List Superpixel)
  | [], seeds => some seeds
  | xdx :: xs, seeds =>
    (toU32 ((xdx : ℚ) * x_correction)).bind fun x_correct =>
      let x := xdx * s + half_s + x_correct
      let i := y * width + x
      seedColsGo image s half_s width height channels x_correction y xs
        (if x < width ∧ y < height ∧ i < width * height * channels then
          seeds ++ [⟨(image.getD y []).getD x [], x, y⟩]
        else seeds)

/-- The outer (row) loop of `init_seeds`. -/
def seedRowsGo (image : List (List (List ℕ))) (s half_s width height channels : ℕ)
    (x_correction y_correction : ℚ) (x_seeds : ℕ) :
    List ℕ → List Superpixel → Option (List Superpixel)
  | [], seeds => some seeds
  | ydx :: ys, seeds =>
    (toU32 ((ydx : ℚ) * y_correction)).bind fun y_correct =>
      let y := ydx * s + half_s + y_correct
      (seedColsGo image s half_s width height channels x_correction y
        (List.range x_seeds) seeds).bind
        (seedRowsGo image s half_s width height channels x_correction y_correction
          x_seeds ys)

/-- `init_seeds` from `seed.rs` (f64 spread corrections idealised as exact
rationals; the saturating `u32` arithmetic never saturates for realistic
image sizes and is modelled by plain `ℕ` arithmetic).  `none` models the
`Err` returns of the correction conversions. -/
def init_seeds (s k : ℕ) (image : List (List (List ℕ))) : Option (List Superpixel) :=
  let width := (image.headD []).length
  let height := image.length
  let channels := ((image.headD []).headD []).length
  let half_s := divCeil s 2
  let dims := seedGridDims s k width height
  let x_seeds := dims.1
  let y_seeds := dims.2
  let x_correction : ℚ := ((width : ℚ) - (x_seeds : ℚ) * (s : ℚ)) / (x_seeds : ℚ)
  let y_correction : ℚ := ((height : ℚ) - (y_seeds : ℚ) * (s : ℚ)) / (y_seeds : ℚ)
  seedRowsGo image s half_s width height channels x_correction y_correction
    x_seeds (List.range y_seeds) []

/-! ## General evaluation helpers -/

theorem enumFrom_nil' {α : Type} (n : ℕ) : List.enumFrom n ([] : List α) = [] := rfl

theorem enumFrom_cons' {α : Type} (n : ℕ) (a : α) (l : List α) :
    List.enumFrom n (a :: l) = (n, a) :: List.enumFrom (n + 1) l := rfl

theorem enum_eq' {α : Type} (l : List α) : l.enum = List.enumFrom 0 l := rfl

/-- `Plef::sum` on two visibly non-empty PLEFs goes straight to the merge
loop. -/
theorem sum_cons_eq (p : PlefPiece) (ps : List PlefPiece) (q : PlefPiece)
    (qs : List PlefPiece) (mp : Option ℕ) :
    Plef.sum ⟨p :: ps⟩ ⟨q :: qs⟩ mp =
      ⟨extendFront (sumLoop (mp.getD 10) (p :: ps).reverse (q :: qs).reverse)⟩ := by
  simp [Plef.sum]

/-- The tree-building loop stops as soon as the queue is empty. -/
theorem bptLoop_nil (fuel : ℕ) (s : BptState) (h : s.heap = []) :
    bptLoop fuel s = .ok s := by
  cases fuel <;> simp [bptLoop, h]

/-! ## The concrete run refuting the merge-level monotonicity of C2
(label map `[[1,2],[2,1],[0,2]]`, single-channel 3×2 image
`[[2],[1]],[[3],[0]],[[1],[3]]`; all edge weights throughout the run are
pairwise distinct, so the heap/hash determinisation cannot affect it). -/

def cexLabels : List (List ℕ) := [[1, 2], [2, 1], [0, 2]]

def cexImg : List (List (List ℕ)) := [[[2], [1]], [[3], [0]], [[1], [3]]]

def cexGF : Graph :=
  ⟨[⟨1, 4, [1], [1], ⟨[]⟩⟩, ⟨2, 8, [2], [4], ⟨[]⟩⟩, ⟨3, 12, [7], [19], ⟨[]⟩⟩],
   [⟨1, 2, 0, 5, true⟩, ⟨2, 0, 0, 2, true⟩]⟩

def cexGE : Graph :=
  ⟨[⟨1, 4, [1], [1], ⟨[⟨0, 0, 4⟩]⟩⟩, ⟨2, 8, [2], [4], ⟨[⟨0, 2, 8⟩]⟩⟩,
    ⟨3, 12, [7], [19], ⟨[⟨0, 8/3, 12⟩]⟩⟩],
   [⟨1, 2, 0, 5, true⟩, ⟨2, 0, 0, 2, true⟩]⟩

def cexGW : Graph :=
  ⟨[⟨1, 4, [1], [1], ⟨[⟨0, 0, 4⟩]⟩⟩, ⟨2, 8, [2], [4], ⟨[⟨0, 2, 8⟩]⟩⟩,
    ⟨3, 12, [7], [19], ⟨[⟨0, 8/3, 12⟩]⟩⟩],
   [⟨1, 2, ((16/75 : ℚ) : WithTop ℚ), 5, true⟩,
    ⟨2, 0, ((1/3 : ℚ) : WithTop ℚ), 2, true⟩]⟩

theorem cex_phase1 :
    pixelScan cexImg cexLabels (indexedLabels cexLabels)
        ⟨List.replicate 3 (SuperpixelNode.initN 1), []⟩ =
      ⟨[⟨1, 2, [1], [1], ⟨[]⟩⟩, ⟨2, 5, [2], [4], ⟨[]⟩⟩, ⟨3, 7, [7], [19], ⟨[]⟩⟩],
       [⟨1, 2, 0, 5, true⟩, ⟨2, 0, 0, 2, true⟩]⟩ := by
  decide

theorem cex_phase2 :
    framePerimeters cexLabels 3 2
      ⟨[⟨1, 2, [1], [1], ⟨[]⟩⟩, ⟨2, 5, [2], [4], ⟨[]⟩⟩, ⟨3, 7, [7], [19], ⟨[]⟩⟩],
       [⟨1, 2, 0, 5, true⟩, ⟨2, 0, 0, 2, true⟩]⟩ = cexGF := by
  decide

theorem cex_phase3 : initEnergies cexGF = cexGE := by
  norm_num [initEnergies, cexGF, cexGE, data_fidelity]

theorem cex_phase4 : initWeights cexGE = cexGW := by
  norm_num [initWeights, cexGE, cexGW, apparition_scale, data_fidelity, addVec,
    sum_cons_eq, sumLoop, extendFront, Plef.infimum, infLoop, PlefPiece.eval]

theorem cex_graph : graph_from_labels cexImg cexLabels = cexGW := by
  show initWeights (initEnergies (framePerimeters cexLabels 3 2
    (pixelScan cexImg cexLabels (indexedLabels cexLabels)
      ⟨List.replicate 3 (SuperpixelNode.initN 1), []⟩))) = cexGW
  rw [cex_phase1, cex_phase2, cex_phase3, cex_phase4]

def cexS0 : BptState :=
  ⟨cexGW.nodes, cexGW.edges,
   [(0, ((16/75 : ℚ) : WithTop ℚ)), (1, ((1/3 : ℚ) : WithTop ℚ))],
   [0, 1, 2], [0, 0, 0], []⟩

theorem cex_S0 : initBptState cexGW = cexS0 := by
  have hr : List.range 3 = [0, 1, 2] := by decide
  have hrep : List.replicate 3 (0 : WithTop ℚ) = [0, 0, 0] := by decide
  norm_num [initBptState, cexS0, cexGW, initHeap, initHeapGo, heapPush, hr, hrep,
    enumFrom_nil', enumFrom_cons', enum_eq']

def cexPL3 : Plef := ⟨[⟨0, 14/3, 20⟩, ⟨16/75, 134/15, 10⟩]⟩

def cexPL4 : Plef := ⟨[⟨0, 14/3, 24⟩, ⟨4/21, 194/21, 10⟩]⟩

def cexS1 : BptState :=
  ⟨cexGW.nodes ++ [⟨5, 10, [9], [23], cexPL3⟩],
   [⟨1, 2, ((16/75 : ℚ) : WithTop ℚ), 5, false⟩,
    ⟨2, 0, ((1/3 : ℚ) : WithTop ℚ), 2, false⟩,
    ⟨3, 0, ((4/21 : ℚ) : WithTop ℚ), 2, true⟩],
   [(2, ((4/21 : ℚ) : WithTop ℚ)), (1, ((1/3 : ℚ) : WithTop ℚ))],
   [0, 3, 3, 3], [0, 0, 0, ((16/75 : ℚ) : WithTop ℚ)],
   [⟨1, 2, 3, 5, ((16/75 : ℚ) : WithTop ℚ)⟩]⟩

def cexS2 : BptState :=
  ⟨cexGW.nodes ++ [⟨5, 10, [9], [23], cexPL3⟩] ++ [⟨6, 10, [10], [24], cexPL4⟩],
   [⟨1, 2, ((16/75 : ℚ) : WithTop ℚ), 5, false⟩,
    ⟨2, 0, ((1/3 : ℚ) : WithTop ℚ), 2, false⟩,
    ⟨3, 0, ((4/21 : ℚ) : WithTop ℚ), 2, false⟩],
   [(1, ((1/3 : ℚ) : WithTop ℚ))],
   [4, 3, 3, 4, 4],
   [0, 0, 0, ((16/75 : ℚ) : WithTop ℚ), ((4/21 : ℚ) : WithTop ℚ)],
   [⟨1, 2, 3, 5, ((16/75 : ℚ) : WithTop ℚ)⟩, ⟨3, 0, 4, 2, ((4/21 : ℚ) : WithTop ℚ)⟩]⟩

def cexS3 : BptState :=
  ⟨cexS2.nodes, cexS2.edges, [], cexS2.parents, cexS2.levels, cexS2.log⟩

theorem cex_step1 (fuel : ℕ) : bptLoop (fuel + 1) cexS0 = bptLoop fuel cexS1 := by
  norm_num [bptLoop, cexS0, cexS1, cexGW, cexPL3, gatherFrom, addNeighbor, rewire,
    sum_cons_eq, edgesLenSum, deactivateAll, heapPush, apparition_scale,
    data_fidelity, addVec, sumLoop, extendFront, Plef.infimum, infLoop,
    PlefPiece.eval, enumFrom_nil', enumFrom_cons', enum_eq', Except.bind]

theorem cex_step2 (fuel : ℕ) : bptLoop (fuel + 1) cexS1 = bptLoop fuel cexS2 := by
  norm_num [bptLoop, cexS1, cexS2, cexGW, cexPL3, cexPL4, gatherFrom, addNeighbor,
    rewire, sum_cons_eq, edgesLenSum, deactivateAll, heapPush, apparition_scale,
    data_fidelity, addVec, sumLoop, extendFront, Plef.infimum, infLoop,
    PlefPiece.eval, enumFrom_nil', enumFrom_cons', enum_eq', Except.bind]

theorem cex_step3 (fuel : ℕ) : bptLoop (fuel + 1) cexS2 = bptLoop fuel cexS3 := by
  norm_num [bptLoop, cexS2, cexS3, cexGW, cexPL3, cexPL4]

theorem cex_run :
    binary_partition_tree (graph_from_labels cexImg cexLabels) = .ok cexS3 := by
  rw [binary_partition_tree, cex_graph, cex_S0]
  have hfuel : bptFuel cexGW = 30 := by decide
  rw [hfuel]
  calc bptLoop 30 cexS0 = bptLoop 29 cexS1 := cex_step1 29
    _ = bptLoop 28 cexS2 := cex_step2 28
    _ = bptLoop 27 cexS3 := cex_step3 27
    _ = .ok cexS3 := bptLoop_nil 27 cexS3 rfl

/-! ## The 3×3 unit-test instance of `graph.rs` (C7, also the witness instance
for C3): labels `[[0,0,1],[0,0,1],[2,2,2]]`, image pixel values
`(y·3+x)·3 + c`. -/

def labels3 : List (List ℕ) := [[0, 0, 1], [0, 0, 1], [2, 2, 2]]

def img3 : List (List (List ℕ)) :=
  [[[0, 1, 2], [3, 4, 5], [6, 7, 8]],
   [[9, 10, 11], [12, 13, 14], [15, 16, 17]],
   [[18, 19, 20], [21, 22, 23], [24, 25, 26]]]

def g3F : Graph :=
  ⟨[⟨4, 8, [24, 28, 32], [234, 286, 346], ⟨[]⟩⟩,
    ⟨2, 6, [21, 23, 25], [261, 305, 353], ⟨[]⟩⟩,
    ⟨3, 8, [63, 66, 69], [1341, 1470, 1605], ⟨[]⟩⟩],
   [⟨0, 1, 0, 2, true⟩, ⟨0, 2, 0, 2, true⟩, ⟨1, 2, 0, 1, true⟩]⟩

def g3E : Graph :=
  ⟨[⟨4, 8, [24, 28, 32], [234, 286, 346], ⟨[⟨0, 270, 8⟩]⟩⟩,
    ⟨2, 6, [21, 23, 25], [261, 305, 353], ⟨[⟨0, 243/2, 6⟩]⟩⟩,
    ⟨3, 8, [63, 66, 69], [1341, 1470, 1605], ⟨[⟨0, 54, 8⟩]⟩⟩],
   [⟨0, 1, 0, 2, true⟩, ⟨0, 2, 0, 2, true⟩, ⟨1, 2, 0, 1, true⟩]⟩

def g3W : Graph :=
  ⟨[⟨4, 8, [24, 28, 32], [234, 286, 346], ⟨[⟨0, 270, 8⟩]⟩⟩,
    ⟨2, 6, [21, 23, 25], [261, 305, 353], ⟨[⟨0, 243/2, 6⟩]⟩⟩,
    ⟨3, 8, [63, 66, 69], [1341, 1470, 1605], ⟨[⟨0, 54, 8⟩]⟩⟩],
   [⟨0, 1, ((81/4 : ℚ) : WithTop ℚ), 2, true⟩,
    ⟨0, 2, ((2025/7 : ℚ) : WithTop ℚ), 2, true⟩,
    ⟨1, 2, ((3969/20 : ℚ) : WithTop ℚ), 1, true⟩]⟩

theorem g3_phase1 :
    pixelScan img3 labels3 (indexedLabels labels3)
        ⟨List.replicate 3 (SuperpixelNode.initN 3), []⟩ =
      ⟨[⟨4, 4, [24, 28, 32], [234, 286, 346], ⟨[]⟩⟩,
        ⟨2, 3, [21, 23, 25], [261, 305, 353], ⟨[]⟩⟩,
        ⟨3, 3, [63, 66, 69], [1341, 1470, 1605], ⟨[]⟩⟩],
       [⟨0, 1, 0, 2, true⟩, ⟨0, 2, 0, 2, true⟩, ⟨1, 2, 0, 1, true⟩]⟩ := by
  decide

theorem g3_phase2 :
    framePerimeters labels3 3 3
      ⟨[⟨4, 4, [24, 28, 32], [234, 286, 346], ⟨[]⟩⟩,
        ⟨2, 3, [21, 23, 25], [261, 305, 353], ⟨[]⟩⟩,
        ⟨3, 3, [63, 66, 69], [1341, 1470, 1605], ⟨[]⟩⟩],
       [⟨0, 1, 0, 2, true⟩, ⟨0, 2, 0, 2, true⟩, ⟨1, 2, 0, 1, true⟩]⟩ = g3F := by
  decide

theorem g3_phase3 : initEnergies g3F = g3E := by
  norm_num [initEnergies, g3F, g3E, data_fidelity]

theorem g3_phase4 : initWeights g3E = g3W := by
  norm_num [initWeights, g3E, g3W, apparition_scale, data_fidelity, addVec,
    sum_cons_eq, sumLoop, extendFront, Plef.infimum, infLoop, PlefPiece.eval]

theorem g3_graph : graph_from_labels img3 labels3 = g3W := by
  show initWeights (initEnergies (framePerimeters labels3 3 3
    (pixelScan img3 labels3 (indexedLabels labels3)
      ⟨List.replicate 3 (SuperpixelNode.initN 3), []⟩))) = g3W
  rw [g3_phase1, g3_phase2, g3_phase3, g3_phase4]

/-- The repo test's `find_edge(i, j)` followed by reading the edge's
`length`. -/
def edgeLen (g : Graph) (i j : ℕ) : Option ℕ :=
  (findEdgeIdx g.edges i j).map fun k => (g.edges.getD k default).length

/-! ## PLEF semantics: evaluation and invariants -/

/-- Evaluate a piece list as a function: the affine piece whose domain
contains `x` (the first piece's affine extension left of the overall domain,
`0` for an empty list). -/
def evalP : List PlefPiece → ℚ → ℚ
  | [], _ => 0
  | [p], x => p.eval x
  | p :: q :: rest, x => if x < q.start_x then p.eval x else evalP (q :: rest) x

/-- The PLEF invariants stated by the specification: `start_x` strictly
increasing, leading `start_x = 0`, slopes non-increasing, continuity at the
piece boundaries. -/
def PlefInv (ps : List PlefPiece) : Prop :=
  List.Chain' (fun p q => p.start_x < q.start_x) ps ∧
  (ps.headD ⟨0, 0, 0⟩).start_x = 0 ∧
  List.Chain' (fun p q => q.slope ≤ p.slope) ps ∧
  List.Chain' (fun p q => q.start_y = p.eval q.start_x) ps

/-! ## Claim theorems: concrete refutations and the C7 scenario -/

/-- C1 counterexample: for `f = {(0, 0, 0)}` (the constant 0) and the affine
piece `P = (0, −1, 5)` — steeper than `f`'s last slope — `infimum` returns
`{(0,0,0), (1/5, 0, 5)}`, which evaluates to `0` at `λ = 0`, whereas the
pointwise minimum `min(f, P)` evaluates to `−1` there; the returned
ξ = 1/5 is also not the smallest λ at which `P` is optimal (`P` is optimal
only on `[1/5, ∞)` in the `min`, yet the mutated `f` is not `min(f, P)`).
So `infimum` does not compute `min(f, P)` for every affine piece. -/
theorem spec_c1_counterexample :
    Plef.infimum ⟨[⟨0, 0, 0⟩]⟩ ⟨0, -1, 5⟩ =
      some (⟨[⟨0, 0, 0⟩, ⟨1/5, 0, 5⟩]⟩, ((1/5 : ℚ) : WithTop ℚ)) ∧
    evalP [⟨0, 0, 0⟩, ⟨1/5, 0, 5⟩] 0 = 0 ∧
    min (evalP [⟨0, 0, 0⟩] 0) (PlefPiece.eval ⟨0, -1, 5⟩ 0) = -1 := by
  refine ⟨?_, ?_, ?_⟩ <;>
    norm_num [Plef.infimum, infLoop, PlefPiece.eval, evalP]

/-- C6 counterexample: `f = {(0, 10, 1)}` satisfies every PLEF invariant and
`P = (0, 0, 0)` has slope `0 ≤ 1`, yet `infimum` rewrites `f` into
`{(−10, 0, 0)}`, whose leading piece has `start_x = −10 ≠ 0`: the invariants
are not preserved. -/
theorem spec_c6_counterexample :
    Plef.infimum ⟨[⟨0, 10, 1⟩]⟩ ⟨0, 0, 0⟩ =
      some (⟨[⟨-10, 0, 0⟩]⟩, ((-10 : ℚ) : WithTop ℚ)) ∧
    PlefInv [⟨0, 10, 1⟩] ∧ (0 : ℚ) ≤ 1 ∧ ¬ PlefInv [⟨-10, 0, 0⟩] := by
  refine ⟨?_, ?_, by norm_num, ?_⟩
  · norm_num [Plef.infimum, infLoop, PlefPiece.eval]
  · refine ⟨by simp, rfl, by simp, by simp⟩
  · rintro ⟨-, h, -, -⟩
    norm_num at h

/-- C2 counterexample: on the 3×2 single-channel image
`[[2],[1]],[[3],[0]],[[1],[3]]` with labels `[[1,2],[2,1],[0,2]]` (three
superpixels, all edge weights throughout the run pairwise distinct), the
built tree has `parents = [4,3,3,4,4]` and
`levels = [0,0,0, 16/75, 4/21]`: merge node 3 (level 16/75) is a child of
merge node 4 (level 4/21 < 16/75), so `levels[m] ≥ levels[a]` fails, and the
merge levels in creation order `[16/75, 4/21]` are strictly decreasing, so
sorting them is not the identity. -/
theorem spec_c2_counterexample :
    (binary_partition_tree (graph_from_labels cexImg cexLabels)).map
        (fun s => (s.parents, s.levels)) =
      .ok ([4, 3, 3, 4, 4],
        [0, 0, 0, ((16/75 : ℚ) : WithTop ℚ), ((4/21 : ℚ) : WithTop ℚ)]) ∧
    ((4/21 : ℚ) : WithTop ℚ) < ((16/75 : ℚ) : WithTop ℚ) := by
  constructor
  · rw [cex_run]; rfl
  · exact_mod_cast (by norm_num : (4/21 : ℚ) < 16/75)

/-- C7: on the 3×3 label map `[[0,0,1],[0,0,1],[2,2,2]]` over the 3×3×3
image with pixel values `(y·3+x)·3 + c`, `graph_from_labels` returns exactly
3 nodes and 3 edges with `area = [4,2,3]`, `perimeter = [8,6,8]`,
`values = [[24,28,32],[21,23,25],[63,66,69]]`, `length(0,1) = 2`,
`length(0,2) = 2` and `length(1,2) = 1`. -/
theorem spec_c7_graph_test :
    (graph_from_labels img3 labels3).nodes.length = 3 ∧
    (graph_from_labels img3 labels3).edges.length = 3 ∧
    (graph_from_labels img3 labels3).nodes.map SuperpixelNode.area = [4, 2, 3] ∧
    (graph_from_labels img3 labels3).nodes.map SuperpixelNode.perimeter =
      [8, 6, 8] ∧
    (graph_from_labels img3 labels3).nodes.map SuperpixelNode.values =
      [[24, 28, 32], [21, 23, 25], [63, 66, 69]] ∧
    edgeLen (graph_from_labels img3 labels3) 0 1 = some 2 ∧
    edgeLen (graph_from_labels img3 labels3) 0 2 = some 2 ∧
    edgeLen (graph_from_labels img3 labels3) 1 2 = some 1 := by
  rw [g3_graph]
  refine ⟨rfl, rfl, rfl, rfl, rfl, ?_, ?_, ?_⟩ <;> rfl

/-! ## C5: commutativity of `Plef::sum` -/

theorem sumLoop_comm (c : ℕ) : ∀ i j : List PlefPiece, sumLoop c i j = sumLoop c j i := by
  induction c with
  | zero => intro i j; cases i <;> cases j <;> rfl
  | succ c ih =>
    intro i j
    match i, j with
    | [], [] => rfl
    | [], q :: js => rfl
    | p :: is, [] => rfl
    | p :: is, q :: js =>
      simp only [sumLoop]
      rcases lt_trichotomy p.start_x q.start_x with h | h | h
      · rw [if_neg (not_le.mpr h), if_pos h.le, if_neg (ne_of_gt h)]
        rw [ih (p :: is) js, add_comm p.slope q.slope]
      · rw [if_pos h.ge, if_pos h.le, if_pos h, if_pos h.symm]
        rw [ih is js]
        congr 1
        simp only [PlefPiece.eval, h, List.cons.injEq, PlefPiece.mk.injEq, and_true,
          true_and]
        refine ⟨by ring, add_comm p.slope q.slope⟩
      · rw [if_pos h.le, if_neg (ne_of_gt h), if_neg (not_le.mpr h)]
        rw [ih is (q :: js), add_comm p.slope q.slope]

theorem plef_sum_comm (f g : Plef) (mp : Option ℕ) : f.sum g mp = g.sum f mp := by
  cases f with
  | mk fp =>
    cases g with
    | mk gp =>
      match fp, gp with
      | [], [] => rfl
      | [], q :: qs => rfl
      | p :: ps, [] => rfl
      | p :: ps, q :: qs => simp [Plef.sum, sumLoop_comm]

/-- C5: `Plef::sum` is commutative — `f.sum(g, None)` and `g.sum(f, None)`
are equal piece by piece (also when pieces of the two summands share a
`start_x`), so applying `infimum` with any affine piece `P` to either sum
returns the same scale and leaves the same pieces. -/
theorem spec_c5_sum_commutative :
    ∀ (f g : Plef) (P : PlefPiece),
      f.sum g none = g.sum f none ∧
      (f.sum g none).infimum P = (g.sum f none).infimum P := by
  intro f g P
  have h := plef_sum_comm f g none
  exact ⟨h, by rw [h]⟩

/-! ## C8: the heap-consistency assertion never fails -/

theorem mem_heapPush {h : List (ℕ × WithTop ℚ)} {e x : ℕ × WithTop ℚ} :
    x ∈ heapPush h e ↔ x = e ∨ x ∈ h := by
  induction h with
  | nil => simp [heapPush]
  | cons y ys ih =>
    simp only [heapPush]
    split
    · simp [List.mem_cons]
    · simp only [List.mem_cons, ih]
      tauto

/-- Every queue entry indexes a live edge and carries that edge's weight. -/
def HeapInv (edges : List SuperpixelEdge) (heap : List (ℕ × WithTop ℚ)) : Prop :=
  ∀ x ∈ heap, x.1 < edges.length ∧ (edges.getD x.1 default).weight = x.2

theorem weight_getD_set_inactive (es : List SuperpixelEdge) (k i : ℕ) :
    ((es.set k { es.getD k default with active := false }).getD i default).weight =
      (es.getD i default).weight := by
  rcases eq_or_ne k i with rfl | hne
  · rcases lt_or_ge k es.length with hk | hk
    · rw [List.getD_eq_getElem?_getD, List.getElem?_set_self hk,
        List.getD_eq_getElem?_getD, List.getElem?_eq_getElem hk]
      rfl
    · rw [List.set_eq_of_length_le hk]
  · rw [List.getD_eq_getElem?_getD, List.getElem?_set_ne hne,
      ← List.getD_eq_getElem?_getD]

theorem deactivateAll_length (eids : List ℕ) (es : List SuperpixelEdge) :
    (deactivateAll eids es).length = es.length := by
  induction eids generalizing es with
  | nil => rfl
  | cons eid rest ih => simp [deactivateAll, ih, List.length_set]

theorem deactivateAll_weight (eids : List ℕ) (es : List SuperpixelEdge) (i : ℕ) :
    ((deactivateAll eids es).getD i default).weight = (es.getD i default).weight := by
  induction eids generalizing es with
  | nil => rfl
  | cons eid rest ih =>
    rw [deactivateAll, ih, weight_getD_set_inactive]

theorem gatherFrom_error {node other : ℕ} :
    ∀ {l : List (ℕ × SuperpixelEdge)} {acc : List (ℕ × List ℕ)} {p : BptPanic},
      gatherFrom node other l acc = .error p → p = .activeAssert := by
  intro l
  induction l with
  | nil => intro acc p h; simp [gatherFrom] at h
  | cons ie rest ih =>
    intro acc p h
    obtain ⟨eid, e⟩ := ie
    simp only [gatherFrom] at h
    repeat' split at h
    all_goals first
      | exact (Except.error.inj h).symm
      | exact ih h

theorem gather2_error {a b : ℕ} {l : List (ℕ × SuperpixelEdge)} {p : BptPanic} :
    (gatherFrom a b l []).bind (gatherFrom b a l) = .error p → p = .activeAssert := by
  intro h
  cases hg : gatherFrom a b l [] with
  | error q =>
    rw [hg] at h
    simp only [Except.bind] at h
    cases h
    exact gatherFrom_error hg
  | ok acc =>
    rw [hg] at h
    simp only [Except.bind] at h
    exact gatherFrom_error h

theorem rewire_error {nodes : List SuperpixelNode} {m : ℕ} :
    ∀ {neighbors : List (ℕ × List ℕ)} {edges : List SuperpixelEdge}
      {heap : List (ℕ × WithTop ℚ)} {p : BptPanic},
      rewire nodes m neighbors edges heap = .error p → p = .emptyPlef := by
  intro neighbors
  induction neighbors with
  | nil => intro edges heap p h; simp [rewire] at h
  | cons nbe rest ih =>
    intro edges heap p h
    obtain ⟨nb, eids⟩ := nbe
    simp only [rewire] at h
    split at h
    · cases h; rfl
    · exact ih h

theorem rewire_heapInv {nodes : List SuperpixelNode} {m : ℕ} :
    ∀ {neighbors : List (ℕ × List ℕ)} {edges edges2 : List SuperpixelEdge}
      {heap heap2 : List (ℕ × WithTop ℚ)},
      rewire nodes m neighbors edges heap = .ok (edges2, heap2) →
      HeapInv edges heap → HeapInv edges2 heap2 := by
  intro neighbors
  induction neighbors with
  | nil =>
    intro edges edges2 heap heap2 hok hinv
    simp only [rewire] at hok
    cases hok
    exact hinv
  | cons nbe rest ih =>
    intro edges edges2 heap heap2 hok hinv
    obtain ⟨nb, eids⟩ := nbe
    simp only [rewire] at hok
    split at hok
    · cases hok
    · rename_i w happ
      refine ih hok ?_
      intro x hx
      rw [mem_heapPush] at hx
      rcases hx with rfl | hx
      · constructor
        · simp
        · rw [List.getD_eq_getElem?_getD]
          rw [List.getElem?_append_right (le_refl _)]
          simp
      · obtain ⟨hlt, heq⟩ := hinv x hx
        have hlt1 : x.1 < (deactivateAll eids edges).length := by
          rw [deactivateAll_length]; exact hlt
        constructor
        · simp only [List.length_append, List.length_cons, List.length_nil]
          omega
        · rw [List.getD_eq_getElem?_getD, List.getElem?_append_left hlt1,
            ← List.getD_eq_getElem?_getD, deactivateAll_weight]
          exact heq

theorem heapInv_set_inactive {edges : List SuperpixelEdge}
    {heap : List (ℕ × WithTop ℚ)} (k : ℕ) (hinv : HeapInv edges heap) :
    HeapInv (edges.set k { edges.getD k default with active := false }) heap := by
  intro x hx
  obtain ⟨hlt, heq⟩ := hinv x hx
  refine ⟨by simpa using hlt, ?_⟩
  rw [weight_getD_set_inactive]
  exact heq

theorem bptLoop_no_heapAssert :
    ∀ (fuel : ℕ) (s : BptState), HeapInv s.edges s.heap →
      bptLoop fuel s ≠ .error .heapAssert := by
  intro fuel
  induction fuel with
  | zero => intro s _ h; simp [bptLoop] at h
  | succ fuel ih =>
    intro s hinv h
    rw [bptLoop] at h
    cases hh : s.heap with
    | nil => rw [hh] at h; simp at h
    | cons top heapRest =>
      obtain ⟨eid, w⟩ := top
      rw [hh] at h
      dsimp only at h
      have hw := hinv (eid, w) (hh ▸ List.mem_cons_self _ _)
      by_cases hact : (s.edges.getD eid default).active = false
      · rw [if_pos hact] at h
        exact ih { s with heap := heapRest }
          (fun x hx => hinv x (hh ▸ List.mem_cons_of_mem _ hx)) h
      · rw [if_neg hact] at h
        rw [if_neg (not_not_intro hw.2)] at h
        split at h
        · rename_i p hg
          cases h
          exact absurd (gather2_error hg) (by simp)
        · split at h
          · simp at h
          · split at h
            · rename_i p hr
              cases h
              exact absurd (rewire_error hr) (by simp)
            · rename_i edges2 heap2 hr
              refine ih _ ?_ h
              exact rewire_heapInv hr
                (heapInv_set_inactive eid
                  (fun x hx => hinv x (hh ▸ List.mem_cons_of_mem _ hx)))

/-- C8: the heap-consistency `assert!` in `binary_partition_tree` never
fires: every queue entry carries the weight its edge was created with, and
edge weights are never mutated after the entry holding them is pushed — so
for every input graph and any number of loop iterations the loop never
reaches the `heapAssert` panic. -/
theorem spec_c8_heap_consistency (g : Graph) (fuel : ℕ) :
    bptLoop fuel (initBptState g) ≠ .error .heapAssert := by
  apply bptLoop_no_heapAssert
  intro x hx
  dsimp only [initBptState] at hx
  dsimp only [initBptState]
  rw [initHeap] at hx
  -- entries of the initial queue come from the enumerated edge list
  suffices hgen : ∀ (l : List (ℕ × SuperpixelEdge)) (acc : List (ℕ × WithTop ℚ)),
      (∀ ie ∈ l, ie.1 < g.edges.length ∧ g.edges.getD ie.1 default = ie.2) →
      (∀ x ∈ acc, x.1 < g.edges.length ∧ (g.edges.getD x.1 default).weight = x.2) →
      ∀ x ∈ initHeapGo l acc,
        x.1 < g.edges.length ∧ (g.edges.getD x.1 default).weight = x.2 by
    refine hgen g.edges.enum [] ?_ (by simp) x hx
    intro ie hie
    have h1 : g.edges[ie.1]? = some ie.2 := by
      obtain ⟨i, e⟩ := ie
      rw [List.mem_iff_getElem?] at hie
      obtain ⟨j, hj⟩ := hie
      rw [List.getElem?_enum] at hj
      cases hl : g.edges[j]? with
      | none => rw [hl] at hj; simp at hj
      | some b =>
        rw [hl] at hj
        simp only [Option.map_some', Option.some.injEq, Prod.mk.injEq] at hj
        obtain ⟨h1, h2⟩ := hj
        subst h1
        rw [hl, h2]
    constructor
    · exact (List.getElem?_eq_some.mp h1).1
    · rw [List.getD_eq_getElem?_getD, h1]
      rfl
  intro l
  induction l with
  | nil =>
    intro acc hl hacc x hx
    exact hacc x hx
  | cons ie rest ihl =>
    intro acc hl hacc x hx
    rw [initHeapGo] at hx
    refine ihl _ (fun y hy => hl y (List.mem_cons_of_mem _ hy)) ?_ x hx
    intro y hy
    rw [mem_heapPush] at hy
    rcases hy with rfl | hy
    · obtain ⟨h1, h2⟩ := hl ie (List.mem_cons_self _ _)
      exact ⟨h1, by rw [h2]⟩
    · exact hacc y hy

/-! ## Well-formedness of the built graph -/

theorem foldl_max_le_iff (l : List ℕ) (b c : ℕ) :
    l.foldl max b ≤ c ↔ b ≤ c ∧ ∀ a ∈ l, a ≤ c := by
  induction l generalizing b with
  | nil => simp
  | cons x xs ih =>
    simp only [List.foldl_cons, ih, List.mem_cons, max_le_iff]
    constructor
    · rintro ⟨⟨h1, h2⟩, h3⟩
      exact ⟨h1, fun a ha => ha.elim (fun h => h ▸ h2) (h3 a)⟩
    · rintro ⟨h1, h2⟩
      exact ⟨⟨h1, h2 x (Or.inl rfl)⟩, fun a ha => h2 a (Or.inr ha)⟩

theorem mem_le_foldl_max (l : List ℕ) (b : ℕ) : ∀ a ∈ l, a ≤ l.foldl max b := by
  have := (foldl_max_le_iff l b (l.foldl max b)).mp le_rfl
  exact this.2

theorem get?_mem_flatten {labels : List (List ℕ)} {y2 x2 j : ℕ}
    (h : (labels.get? y2).bind (fun row => row.get? x2) = some j) :
    j ∈ labels.flatten := by
  cases hy : labels.get? y2 with
  | none => rw [hy] at h; simp at h
  | some row =>
    rw [hy] at h
    have h2 : row.get? x2 = some j := h
    have hy2 : labels.get? y2 = some row := hy
    rw [List.get?_eq_getElem?] at h2 hy2
    exact List.mem_flatten.mpr ⟨row, List.getElem?_mem hy2, List.getElem?_mem h2⟩

theorem findEdgeIdx_spec {es : List SuperpixelEdge} {i j k : ℕ}
    (h : findEdgeIdx es i j = some k) :
    ∃ e, es[k]? = some e ∧ ((e.src = i ∧ e.dst = j) ∨ (e.src = j ∧ e.dst = i)) := by
  rw [findEdgeIdx, List.findIdx?_eq_some_iff_findIdx_eq] at h
  obtain ⟨hk, hfi⟩ := h
  refine ⟨es[k], List.getElem?_eq_getElem hk, ?_⟩
  have h2 : es[List.findIdx (fun e =>
      (e.src == i && e.dst == j) || (e.src == j && e.dst == i)) es]? =
      some es[k] := by
    rw [hfi]
    exact List.getElem?_eq_getElem hk
  have hp := List.findIdx_of_getElem?_eq_some h2
  simpa using hp

/-- Edge well-formedness during graph construction: endpoints in range,
length at least 1. -/
def EdgesWF (N : ℕ) (edges : List SuperpixelEdge) : Prop :=
  ∀ e ∈ edges, e.src < N ∧ e.dst < N ∧ 1 ≤ e.length

theorem findEdgeIdx_append_of_none {es : List SuperpixelEdge} {i j : ℕ}
    (h : findEdgeIdx es i j = none) (e0 : SuperpixelEdge)
    (hp : ((e0.src == i && e0.dst == j) || (e0.src == j && e0.dst == i)) = true) :
    findEdgeIdx (es ++ [e0]) i j = some es.length := by
  rw [findEdgeIdx, List.findIdx?_eq_some_iff_getElem]
  rw [findEdgeIdx, List.findIdx?_eq_none_iff] at h
  have hlen : es.length < (es ++ [e0]).length := by simp
  refine ⟨hlen, ?_, ?_⟩
  · have : (es ++ [e0])[es.length] = e0 := by
      rw [List.getElem_append_right (le_refl _)]
      simp
    rw [this]
    exact hp
  · intro m hm
    have hm' : m < es.length := hm
    rw [List.getElem_append_left hm']
    simp only [Bool.not_eq_true]
    have := h es[m] (es.getElem_mem hm')
    exact this

theorem updNode_length (nodes : List SuperpixelNode) (i : ℕ)
    (f : SuperpixelNode → SuperpixelNode) :
    (updNode nodes i f).length = nodes.length := by
  simp [updNode]

theorem neighborStep_nodes_length (labels : List (List ℕ)) (i y2 x2 : ℕ) (g : Graph) :
    (neighborStep labels i y2 x2 g).nodes.length = g.nodes.length := by
  rw [neighborStep]
  split
  · rfl
  · split
    · rfl
    · simp [updNode_length]

theorem neighborStep_edgesWF {labels : List (List ℕ)} {N i y2 x2 : ℕ} {g : Graph}
    (hN : ∀ a ∈ labels.flatten, a < N) (hi : i < N)
    (hwf : EdgesWF N g.edges) : EdgesWF N (neighborStep labels i y2 x2 g).edges := by
  rw [neighborStep]
  split
  · exact hwf
  · rename_i j hj
    have hjN : j < N := hN j (get?_mem_flatten hj)
    split
    · exact hwf
    · rename_i hne
      dsimp only
      cases hfind : findEdgeIdx g.edges i j with
      | some k =>
        simp only [hfind]
        obtain ⟨e, hek, hpe⟩ := findEdgeIdx_spec hfind
        have hkl : k < g.edges.length := (List.getElem?_eq_some.mp hek).1
        have hgetD : g.edges.getD k default = e := by
          rw [List.getD_eq_getElem?_getD, hek]; rfl
        intro x hx
        rcases List.mem_or_eq_of_mem_set hx with hx' | rfl
        · exact hwf x hx'
        · have he := hwf e (List.getElem?_mem hek)
          rw [hgetD]
          refine ⟨he.1, he.2.1, ?_⟩
          dsimp only
          omega
      | none =>
        have happ := findEdgeIdx_append_of_none hfind ⟨i, j, 0, 0, true⟩ (by simp)
        simp only [hfind, happ]
        intro x hx
        have hgetD : (g.edges ++ [(⟨i, j, 0, 0, true⟩ : SuperpixelEdge)]).getD
            g.edges.length default = ⟨i, j, 0, 0, true⟩ := by
          rw [List.getD_eq_getElem?_getD, List.getElem?_append_right (le_refl _)]
          simp
        rw [hgetD] at hx
        rcases List.mem_or_eq_of_mem_set hx with hx' | rfl
        · rcases List.mem_append.mp hx' with hx'' | hx''
          · exact hwf x hx''
          · -- x is the freshly appended zero-length edge; but it sits at the
            -- position that `set` overwrote, so split on indices instead
            rcases List.mem_iff_getElem?.mp hx with ⟨idx, hidx⟩
            by_cases hil : idx = g.edges.length
            · subst hil
              rw [List.getElem?_set_self (by simp)] at hidx
              cases hidx
              exact ⟨hi, hjN, le_refl 1⟩
            · rw [List.getElem?_set_ne (fun hh => hil hh.symm)] at hidx
              have hbound : idx < g.edges.length + 1 := by
                have := (List.getElem?_eq_some.mp hidx).1
                simpa using this
              have hlt : idx < g.edges.length := by omega
              rw [List.getElem?_append_left hlt] at hidx
              exact hwf x (List.getElem?_mem hidx)
        · exact ⟨hi, hjN, le_refl 1⟩

theorem enum_getElem? {α : Type} {l : List α} {i : ℕ} {a : α}
    (h : (i, a) ∈ l.enum) : l[i]? = some a := by
  rw [List.mem_iff_getElem?] at h
  obtain ⟨j, hj⟩ := h
  rw [List.getElem?_enum] at hj
  cases hl : l[j]? with
  | none => rw [hl] at hj; simp at hj
  | some b =>
    rw [hl] at hj
    simp only [Option.map_some', Option.some.injEq, Prod.mk.injEq] at hj
    obtain ⟨h1, h2⟩ := hj
    subst h1
    rw [hl, h2]

theorem indexedLabels_label_mem {labels : List (List ℕ)} {yxl : ℕ × ℕ × ℕ}
    (h : yxl ∈ indexedLabels labels) : yxl.2.2 ∈ labels.flatten := by
  rw [indexedLabels, List.mem_flatten] at h
  obtain ⟨inner, hinner, hmem⟩ := h
  rw [List.mem_map] at hinner
  obtain ⟨yr, hyr, rfl⟩ := hinner
  rw [List.mem_map] at hmem
  obtain ⟨xl, hxl, rfl⟩ := hmem
  have hrow : labels[yr.1]? = some yr.2 := by
    obtain ⟨y, row⟩ := yr
    exact enum_getElem? hyr
  have hval : yr.2[xl.1]? = some xl.2 := by
    obtain ⟨x, v⟩ := xl
    exact enum_getElem? hxl
  exact List.mem_flatten.mpr ⟨yr.2, List.getElem?_mem hrow, List.getElem?_mem hval⟩

theorem pixelStep_edgesWF {img : List (List (List ℕ))} {labels : List (List ℕ)}
    {N : ℕ} {g : Graph} {yxl : ℕ × ℕ × ℕ}
    (hN : ∀ a ∈ labels.flatten, a < N) (hl : yxl.2.2 < N)
    (hwf : EdgesWF N g.edges) : EdgesWF N (pixelStep img labels g yxl).edges := by
  rw [pixelStep]
  exact neighborStep_edgesWF hN hl (neighborStep_edgesWF hN hl hwf)

theorem pixelStep_nodes_length (img : List (List (List ℕ))) (labels : List (List ℕ))
    (g : Graph) (yxl : ℕ × ℕ × ℕ) :
    (pixelStep img labels g yxl).nodes.length = g.nodes.length := by
  rw [pixelStep]
  rw [neighborStep_nodes_length, neighborStep_nodes_length]
  simp [updNode_length]

theorem pixelScan_edgesWF {img : List (List (List ℕ))} {labels : List (List ℕ)}
    {N : ℕ} (hN : ∀ a ∈ labels.flatten, a < N) :
    ∀ (pxs : List (ℕ × ℕ × ℕ)) (g : Graph),
      (∀ yxl ∈ pxs, yxl.2.2 < N) → EdgesWF N g.edges →
      EdgesWF N (pixelScan img labels pxs g).edges := by
  intro pxs
  induction pxs with
  | nil => intro g _ hwf; exact hwf
  | cons yxl rest ih =>
    intro g hpx hwf
    rw [pixelScan]
    exact ih _ (fun z hz => hpx z (List.mem_cons_of_mem _ hz))
      (pixelStep_edgesWF hN (hpx yxl (List.mem_cons_self _ _)) hwf)

theorem pixelScan_nodes_length (img : List (List (List ℕ))) (labels : List (List ℕ)) :
    ∀ (pxs : List (ℕ × ℕ × ℕ)) (g : Graph),
      (pixelScan img labels pxs g).nodes.length = g.nodes.length := by
  intro pxs
  induction pxs with
  | nil => intro g; rfl
  | cons yxl rest ih =>
    intro g
    rw [pixelScan, ih, pixelStep_nodes_length]

theorem bumpPerim_length (ns : List SuperpixelNode) (l : ℕ) :
    (bumpPerim ns l).length = ns.length := by
  simp [bumpPerim, updNode_length]

theorem frameCols_length (labels : List (List ℕ)) (height : ℕ) :
    ∀ (xs : List ℕ) (ns : List SuperpixelNode),
      (frameCols labels height xs ns).length = ns.length := by
  intro xs
  induction xs with
  | nil => intro ns; rfl
  | cons x rest ih => intro ns; rw [frameCols, ih, bumpPerim_length, bumpPerim_length]

theorem frameRows_length (labels : List (List ℕ)) (width : ℕ) :
    ∀ (ys : List ℕ) (ns : List SuperpixelNode),
      (frameRows labels width ys ns).length = ns.length := by
  intro ys
  induction ys with
  | nil => intro ns; rfl
  | cons y rest ih => intro ns; rw [frameRows, ih, bumpPerim_length, bumpPerim_length]

theorem framePerimeters_edges (labels : List (List ℕ)) (height width : ℕ) (g : Graph) :
    (framePerimeters labels height width g).edges = g.edges := rfl

theorem framePerimeters_nodes_length (labels : List (List ℕ)) (height width : ℕ)
    (g : Graph) :
    (framePerimeters labels height width g).nodes.length = g.nodes.length := by
  rw [framePerimeters]
  rw [frameRows_length, frameCols_length]

theorem initEnergies_edges (g : Graph) : (initEnergies g).edges = g.edges := rfl

theorem initEnergies_nodes_length (g : Graph) :
    (initEnergies g).nodes.length = g.nodes.length := by
  simp [initEnergies]

theorem initWeights_nodes (g : Graph) : (initWeights g).nodes = g.nodes := rfl

theorem initWeights_edgesWF {N : ℕ} {g : Graph} (hwf : EdgesWF N g.edges) :
    EdgesWF N (initWeights g).edges := by
  intro e he
  rw [initWeights] at he
  simp only [List.mem_map] at he
  obtain ⟨e0, he0, rfl⟩ := he
  exact hwf e0 he0

theorem graph_from_labels_wf (img : List (List (List ℕ))) (labels : List (List ℕ)) :
    (graph_from_labels img labels).nodes.length = labels.flatten.foldl max 0 + 1 ∧
    EdgesWF (graph_from_labels img labels).nodes.length
      (graph_from_labels img labels).edges := by
  have hN : ∀ a ∈ labels.flatten, a < labels.flatten.foldl max 0 + 1 := by
    intro a ha
    have := mem_le_foldl_max labels.flatten 0 a ha
    omega
  have hlen : (graph_from_labels img labels).nodes.length =
      labels.flatten.foldl max 0 + 1 := by
    rw [graph_from_labels]
    rw [initWeights_nodes, initEnergies_nodes_length, framePerimeters_nodes_length,
      pixelScan_nodes_length]
    simp
  refine ⟨hlen, ?_⟩
  rw [hlen]
  apply initWeights_edgesWF
  rw [initEnergies_edges, framePerimeters_edges]
  apply pixelScan_edgesWF hN
  · intro yxl hyxl
    exact hN _ (indexedLabels_label_mem hyxl)
  · intro e he
    simp at he

/-! ## C10: non-emptiness of PLEFs at every `infimum` call site -/

theorem infimum_empty (P : PlefPiece) : Plef.infimum ⟨[]⟩ P = none := rfl

theorem infimum_some_ne_nil {f : Plef} {P : PlefPiece} {g : Plef} {xi : WithTop ℚ}
    (h : f.infimum P = some (g, xi)) : g.pieces ≠ [] := by
  rw [Plef.infimum] at h
  cases hrev : f.pieces.reverse with
  | nil => rw [hrev] at h; cases h
  | cons last rest =>
    rw [hrev] at h
    have hf : f.pieces ≠ [] := by
      intro hnil
      rw [hnil] at hrev
      simp at hrev
    dsimp only at h
    split_ifs at h with h1 h2 h3
    · cases h; exact hf
    · cases h; exact hf
    · cases h; simp
    · cases h; simp

theorem infimum_ne_nil {f : Plef} (P : PlefPiece) (hf : f.pieces ≠ []) :
    ∃ g xi, f.infimum P = some (g, xi) ∧ g.pieces ≠ [] := by
  cases hrev : f.pieces.reverse with
  | nil => exact absurd (List.reverse_eq_nil_iff.mp hrev) hf
  | cons last rest =>
    have : ∃ g xi, f.infimum P = some (g, xi) := by
      rw [Plef.infimum, hrev]
      dsimp only
      split_ifs <;> exact ⟨_, _, rfl⟩
    obtain ⟨g, xi, hg⟩ := this
    exact ⟨g, xi, hg, infimum_some_ne_nil hg⟩

theorem extendFront_ne_nil {l : List PlefPiece} (h : l ≠ []) : extendFront l ≠ [] := by
  cases l with
  | nil => exact absurd rfl h
  | cons p rest =>
    rw [extendFront]
    split_ifs <;> simp

theorem sumLoop_cons_ne_nil (c : ℕ) (p q : PlefPiece) (is js : List PlefPiece) :
    sumLoop (c + 1) (p :: is) (q :: js) ≠ [] := by
  simp only [sumLoop]
  split_ifs <;> simp

theorem sum_ne_nil {f g : Plef} {mp : Option ℕ} (hm : mp.getD 10 ≠ 0)
    (hf : f.pieces ≠ []) (hg : g.pieces ≠ []) : (f.sum g mp).pieces ≠ [] := by
  rw [Plef.sum, if_neg hg, if_neg hf]
  obtain ⟨p, is, hpi⟩ := List.exists_cons_of_ne_nil
    (fun hnil => hf (List.reverse_eq_nil_iff.mp hnil))
  obtain ⟨q, js, hqj⟩ := List.exists_cons_of_ne_nil
    (fun hnil => hg (List.reverse_eq_nil_iff.mp hnil))
  obtain ⟨c, hc⟩ := Nat.exists_eq_succ_of_ne_zero hm
  dsimp only
  rw [hpi, hqj, hc]
  exact extendFront_ne_nil (sumLoop_cons_ne_nil c p q is js)

theorem apparition_scale_some {s t : SuperpixelNode}
    (hs : s.optimal_energy.pieces ≠ []) (ht : t.optimal_energy.pieces ≠ [])
    (len : ℕ) : ∃ w, apparition_scale s t len = some w := by
  rw [apparition_scale]
  have hsum : (s.optimal_energy.sum t.optimal_energy none).pieces ≠ [] :=
    sum_ne_nil (by simp) hs ht
  obtain ⟨g, xi, hinf, -⟩ := infimum_ne_nil _ hsum
  exact ⟨xi, by rw [hinf]; rfl⟩

/-- Every node's optimal energy has at least one piece. -/
def NodesInv (nodes : List SuperpixelNode) : Prop :=
  ∀ n ∈ nodes, n.optimal_energy.pieces ≠ []

/-- Every edge's endpoints index an existing node. -/
def EndpointsLt (N : ℕ) (edges : List SuperpixelEdge) : Prop :=
  ∀ e ∈ edges, e.src < N ∧ e.dst < N

theorem getD_mem_of_lt {α : Type} [Inhabited α] {l : List α} {i : ℕ}
    (h : i < l.length) : l.getD i default ∈ l := by
  rw [List.getD_eq_getElem _ _ h]
  exact l.getElem_mem h

theorem addNeighbor_keys {P : ℕ → Prop} :
    ∀ {acc : List (ℕ × List ℕ)} {nb eid : ℕ},
      (∀ kv ∈ acc, P kv.1) → P nb → ∀ kv ∈ addNeighbor acc nb eid, P kv.1 := by
  intro acc
  induction acc with
  | nil =>
    intro nb eid _ hnb kv hkv
    rw [addNeighbor] at hkv
    rcases List.mem_singleton.mp hkv with rfl
    exact hnb
  | cons kv0 rest ih =>
    intro nb eid hacc hnb kv hkv
    obtain ⟨k0, v0⟩ := kv0
    rw [addNeighbor] at hkv
    split_ifs at hkv
    · rcases List.mem_cons.mp hkv with rfl | hkv'
      · exact hacc (k0, v0) (List.mem_cons_self _ _)
      · exact hacc kv (List.mem_cons_of_mem _ hkv')
    · rcases List.mem_cons.mp hkv with rfl | hkv'
      · exact hacc (k0, v0) (List.mem_cons_self _ _)
      · exact ih (fun y hy => hacc y (List.mem_cons_of_mem _ hy)) hnb kv hkv'

theorem gatherFrom_keys {P : ℕ → Prop} {node other : ℕ} :
    ∀ {l : List (ℕ × SuperpixelEdge)} {acc AL : List (ℕ × List ℕ)},
      gatherFrom node other l acc = .ok AL →
      (∀ kv ∈ acc, P kv.1) → (∀ ie ∈ l, P ie.2.src ∧ P ie.2.dst) →
      ∀ kv ∈ AL, P kv.1 := by
  intro l
  induction l with
  | nil =>
    intro acc AL hok hacc _
    rw [gatherFrom] at hok
    cases hok
    exact hacc
  | cons ie rest ih =>
    intro acc AL hok hacc hl
    obtain ⟨eid, e⟩ := ie
    have hsrc := (hl (eid, e) (List.mem_cons_self _ _)).1
    have hdst := (hl (eid, e) (List.mem_cons_self _ _)).2
    have hl' : ∀ ie ∈ rest, P ie.2.src ∧ P ie.2.dst :=
      fun z hz => hl z (List.mem_cons_of_mem _ hz)
    simp only [gatherFrom] at hok
    split_ifs at hok
    all_goals first
      | exact ih hok hacc hl'
      | exact ih hok (addNeighbor_keys hacc hdst) hl'
      | exact ih hok (addNeighbor_keys hacc hsrc) hl'

theorem mem_enum_snd {α : Type} {l : List α} {ie : ℕ × α} (h : ie ∈ l.enum) :
    ie.2 ∈ l := by
  obtain ⟨i, a⟩ := ie
  exact List.getElem?_mem (enum_getElem? h)

theorem endpointsLt_mono {N M : ℕ} {edges : List SuperpixelEdge}
    (h : EndpointsLt N edges) (hNM : N ≤ M) : EndpointsLt M edges :=
  fun e he => ⟨lt_of_lt_of_le (h e he).1 hNM, lt_of_lt_of_le (h e he).2 hNM⟩

theorem endpointsLt_set_inactive {N : ℕ} {es : List SuperpixelEdge} (k : ℕ)
    (h : EndpointsLt N es) :
    EndpointsLt N (es.set k { es.getD k default with active := false }) := by
  rcases lt_or_ge k es.length with hk | hk
  · intro e he
    rcases List.mem_or_eq_of_mem_set he with he' | rfl
    · exact h e he'
    · have hmem := h _ (getD_mem_of_lt hk)
      exact ⟨hmem.1, hmem.2⟩
  · rw [List.set_eq_of_length_le hk]
    exact h

theorem deactivateAll_endpointsLt {N : ℕ} :
    ∀ (eids : List ℕ) {es : List SuperpixelEdge},
      EndpointsLt N es → EndpointsLt N (deactivateAll eids es) := by
  intro eids
  induction eids with
  | nil => intro es h; exact h
  | cons eid rest ih =>
    intro es h
    rw [deactivateAll]
    exact ih (endpointsLt_set_inactive eid h)

theorem infimum_ne_none {f : Plef} (P : PlefPiece) (hf : f.pieces ≠ []) :
    f.infimum P ≠ none := by
  obtain ⟨g, xi, h, -⟩ := infimum_ne_nil P hf
  rw [h]
  simp

theorem rewire_ok {nodes : List SuperpixelNode} {m : ℕ}
    (hnodes : NodesInv nodes) (hm : m < nodes.length) :
    ∀ {neighbors : List (ℕ × List ℕ)},
      (∀ kv ∈ neighbors, kv.1 < nodes.length) →
      ∀ (edges : List SuperpixelEdge) (heap : List (ℕ × WithTop ℚ))
        {p : BptPanic}, rewire nodes m neighbors edges heap ≠ .error p := by
  intro neighbors
  induction neighbors with
  | nil => intro _ edges heap p h; simp [rewire] at h
  | cons nbe rest ih =>
    intro hkeys edges heap p
    obtain ⟨nb, eids⟩ := nbe
    have hnb : nb < nodes.length := hkeys (nb, eids) (List.mem_cons_self _ _)
    have hsm : (nodes.getD m default).optimal_energy.pieces ≠ [] :=
      hnodes _ (getD_mem_of_lt hm)
    have hsn : (nodes.getD nb default).optimal_energy.pieces ≠ [] :=
      hnodes _ (getD_mem_of_lt hnb)
    obtain ⟨w, hw⟩ := apparition_scale_some hsm hsn
      (edgesLenSum edges eids)
    simp only [rewire, hw]
    exact ih (fun kv hkv => hkeys kv (List.mem_cons_of_mem _ hkv)) _ _

theorem rewire_endpointsLt {nodes : List SuperpixelNode} {m N : ℕ} :
    ∀ {neighbors : List (ℕ × List ℕ)} {edges edges2 : List SuperpixelEdge}
      {heap heap2 : List (ℕ × WithTop ℚ)},
      rewire nodes m neighbors edges heap = .ok (edges2, heap2) →
      m < N → (∀ kv ∈ neighbors, kv.1 < N) → EndpointsLt N edges →
      EndpointsLt N edges2 := by
  intro neighbors
  induction neighbors with
  | nil =>
    intro edges edges2 heap heap2 hok _ _ he
    simp only [rewire] at hok
    cases hok
    exact he
  | cons nbe rest ih =>
    intro edges edges2 heap heap2 hok hm hkeys he
    obtain ⟨nb, eids⟩ := nbe
    simp only [rewire] at hok
    split at hok
    · cases hok
    · refine ih hok hm (fun kv hkv => hkeys kv (List.mem_cons_of_mem _ hkv)) ?_
      intro e hme
      rcases List.mem_append.mp hme with hme' | hme'
      · exact deactivateAll_endpointsLt eids he e hme'
      · rcases List.mem_singleton.mp hme' with rfl
        exact ⟨hm, hkeys (nb, eids) (List.mem_cons_self _ _)⟩

theorem bptLoop_no_emptyPlef :
    ∀ (fuel : ℕ) (s : BptState), NodesInv s.nodes →
      EndpointsLt s.nodes.length s.edges →
      bptLoop fuel s ≠ .error .emptyPlef := by
  intro fuel
  induction fuel with
  | zero => intro s _ _ h; simp [bptLoop] at h
  | succ fuel ih =>
    intro s hnodes hep h
    rw [bptLoop] at h
    cases hh : s.heap with
    | nil => rw [hh] at h; simp at h
    | cons top heapRest =>
      obtain ⟨eid, w⟩ := top
      rw [hh] at h
      dsimp only at h
      by_cases hact : (s.edges.getD eid default).active = false
      · rw [if_pos hact] at h
        exact ih { s with heap := heapRest } hnodes hep h
      · rw [if_neg hact] at h
        have heid : eid < s.edges.length := by
          by_contra hge
          rw [List.getD_eq_default _ _ (le_of_not_lt hge)] at hact
          exact hact rfl
        have hmeme : s.edges.getD eid default ∈ s.edges := getD_mem_of_lt heid
        have hsrc : (s.edges.getD eid default).src < s.nodes.length :=
          (hep _ hmeme).1
        have hdst : (s.edges.getD eid default).dst < s.nodes.length :=
          (hep _ hmeme).2
        have hep1 : EndpointsLt s.nodes.length
            (s.edges.set eid { s.edges.getD eid default with active := false }) :=
          endpointsLt_set_inactive eid hep
        split at h
        · simp at h
        · split at h
          · rename_i p hg
            cases h
            exact absurd (gather2_error hg) (by simp)
          · rename_i neighbors hg
            -- keys of the gathered neighbour map index existing nodes
            have henum : ∀ ie ∈ (s.edges.set eid
                { src := (s.edges.getD eid default).src,
                  dst := (s.edges.getD eid default).dst,
                  weight := (s.edges.getD eid default).weight,
                  length := (s.edges.getD eid default).length,
                  active := false }).enum,
                ie.2.src < s.nodes.length ∧ ie.2.dst < s.nodes.length := by
              intro ie hie
              exact hep1 _ (mem_enum_snd hie)
            have hkeys : ∀ kv ∈ neighbors, kv.1 < s.nodes.length := by
              cases hg1 : gatherFrom (s.edges.getD eid default).src
                  (s.edges.getD eid default).dst
                  (s.edges.set eid
                    { src := (s.edges.getD eid default).src,
                      dst := (s.edges.getD eid default).dst,
                      weight := (s.edges.getD eid default).weight,
                      length := (s.edges.getD eid default).length,
                      active := false }).enum [] with
              | error q => rw [hg1] at hg; simp [Except.bind] at hg
              | ok acc1 =>
                rw [hg1] at hg
                simp only [Except.bind] at hg
                exact @gatherFrom_keys (fun k => k < s.nodes.length) _ _ _ _ _ hg
                  (@gatherFrom_keys (fun k => k < s.nodes.length) _ _ _ _ _ hg1
                    (by simp) henum) henum
            -- the summed energy of the merged endpoints is non-empty
            have hna : (s.nodes.getD (s.edges.getD eid default).src
                default).optimal_energy.pieces ≠ [] :=
              hnodes _ (getD_mem_of_lt hsrc)
            have hnb : (s.nodes.getD (s.edges.getD eid default).dst
                default).optimal_energy.pieces ≠ [] :=
              hnodes _ (getD_mem_of_lt hdst)
            have hsum : ((s.nodes.getD (s.edges.getD eid default).src
                default).optimal_energy.sum
                (s.nodes.getD (s.edges.getD eid default).dst
                  default).optimal_energy none).pieces ≠ [] :=
              sum_ne_nil (by simp) hna hnb
            split at h
            · rename_i hnone
              exact absurd hnone (infimum_ne_none _ hsum)
            · rename_i plf xi hsome
              have hplf : plf.pieces ≠ [] := infimum_some_ne_nil hsome
              have hnodes1 : NodesInv (s.nodes ++
                  [⟨(s.nodes.getD (s.edges.getD eid default).src default).area +
                      (s.nodes.getD (s.edges.getD eid default).dst default).area,
                    (s.nodes.getD (s.edges.getD eid default).src
                        default).perimeter +
                      (s.nodes.getD (s.edges.getD eid default).dst
                        default).perimeter -
                      2 * (s.edges.getD eid default).length,
                    addVec (s.nodes.getD (s.edges.getD eid default).src
                        default).values
                      (s.nodes.getD (s.edges.getD eid default).dst
                        default).values,
                    addVec (s.nodes.getD (s.edges.getD eid default).src
                        default).values_sq
                      (s.nodes.getD (s.edges.getD eid default).dst
                        default).values_sq,
                    plf⟩]) := by
                intro n hn
                rcases List.mem_append.mp hn with hn' | hn'
                · exact hnodes n hn'
                · rcases List.mem_singleton.mp hn' with rfl
                  exact hplf
              split at h
              · rename_i p hr
                exact rewire_ok hnodes1 (by simp)
                  (fun kv hkv => by
                    have := hkeys kv hkv
                    simp only [List.length_append, List.length_cons,
                      List.length_nil]
                    omega) _ _ hr
              · rename_i edges2 heap2 hr
                refine ih _ hnodes1 ?_ h
                dsimp only
                refine rewire_endpointsLt hr (by simp) ?_ ?_
                · intro kv hkv
                  have := hkeys kv hkv
                  simp only [List.length_append, List.length_cons,
                    List.length_nil]
                  omega
                · refine endpointsLt_mono hep1 ?_
                  simp only [List.length_append, List.length_cons,
                    List.length_nil]
                  omega

theorem initEnergies_nodes_single (g : Graph) :
    ∀ n ∈ (initEnergies g).nodes, ∃ pc, n.optimal_energy = ⟨[pc]⟩ := by
  intro n hn
  rw [initEnergies] at hn
  simp only [List.mem_map] at hn
  obtain ⟨n0, -, rfl⟩ := hn
  exact ⟨_, rfl⟩

theorem graph_from_labels_nodes_single (img : List (List (List ℕ)))
    (labels : List (List ℕ)) :
    ∀ n ∈ (graph_from_labels img labels).nodes,
      ∃ pc, n.optimal_energy = ⟨[pc]⟩ := by
  intro n hn
  exact initEnergies_nodes_single _ n hn

theorem graph_from_labels_nodesInv (img : List (List (List ℕ)))
    (labels : List (List ℕ)) : NodesInv (graph_from_labels img labels).nodes := by
  intro n hn
  obtain ⟨pc, hpc⟩ := graph_from_labels_nodes_single img labels n hn
  rw [hpc]
  simp

/-- C10: `Plef::infimum` requires a non-empty PLEF.  On the empty PLEF it
panics (the `unwrap` of `back()`, modelled as `none`); on every PLEF with at
least one piece it returns a result that again has at least one piece; the
sum of two non-empty PLEFs (with the default piece bound) is non-empty;
`apparition_scale` succeeds on any two nodes with non-empty energies; after
`graph_from_labels` every node's `optimal_energy` is a single-piece PLEF;
and consequently the main loop of `binary_partition_tree` never reaches the
empty-PLEF panic, for any input image and label map and any number of
iterations. -/
theorem spec_c10_infimum_nonempty :
    (∀ P : PlefPiece, Plef.infimum ⟨[]⟩ P = none) ∧
    (∀ (f : Plef) (P : PlefPiece), f.pieces ≠ [] →
      ∃ g xi, f.infimum P = some (g, xi) ∧ g.pieces ≠ []) ∧
    (∀ f g : Plef, f.pieces ≠ [] → g.pieces ≠ [] → (f.sum g none).pieces ≠ []) ∧
    (∀ (s t : SuperpixelNode) (len : ℕ),
      s.optimal_energy.pieces ≠ [] → t.optimal_energy.pieces ≠ [] →
      ∃ w, apparition_scale s t len = some w) ∧
    (∀ (img : List (List (List ℕ))) (labels : List (List ℕ)),
      (∀ n ∈ (graph_from_labels img labels).nodes,
        ∃ pc, n.optimal_energy = ⟨[pc]⟩) ∧
      ∀ fuel, bptLoop fuel (initBptState (graph_from_labels img labels)) ≠
        .error .emptyPlef) := by
  refine ⟨infimum_empty, fun f P hf => infimum_ne_nil P hf,
    fun f g hf hg => sum_ne_nil (by simp) hf hg,
    fun s t len hs ht => apparition_scale_some hs ht len,
    fun img labels => ⟨graph_from_labels_nodes_single img labels, fun fuel => ?_⟩⟩
  apply bptLoop_no_emptyPlef
  · exact graph_from_labels_nodesInv img labels
  · exact fun e he => ⟨((graph_from_labels_wf img labels).2 e he).1,
      ((graph_from_labels_wf img labels).2 e he).2.1⟩

/-- Witness for C10 at concrete inputs: the empty PLEF, a singleton PLEF and
the 3×2 counterexample image/label map. -/
theorem spec_c10_witness :
    Plef.infimum ⟨[]⟩ ⟨0, 0, 0⟩ = none ∧
    ((⟨[⟨0, 3, 2⟩]⟩ : Plef).pieces ≠ [] ∧
      ∃ g xi, (⟨[⟨0, 3, 2⟩]⟩ : Plef).infimum ⟨0, 1, 1⟩ = some (g, xi) ∧
        g.pieces ≠ []) ∧
    bptLoop 30 (initBptState (graph_from_labels cexImg cexLabels)) ≠
      .error .emptyPlef := by
  refine ⟨spec_c10_infimum_nonempty.1 _, ⟨by decide, ?_⟩, ?_⟩
  · exact spec_c10_infimum_nonempty.2.1 _ _ (by decide)
  · exact (spec_c10_infimum_nonempty.2.2.2.2 cexImg cexLabels).2 30

/-! ## C4: cutting the hierarchy at scale 0 is the identity -/

theorem bptLoop_ok_inv (N : ℕ) :
    ∀ (fuel : ℕ) (s t : BptState), bptLoop fuel s = .ok t →
      s.levels.head? = some 0 → N ≤ s.parents.length →
      t.levels.head? = some 0 ∧ N ≤ t.parents.length := by
  intro fuel
  induction fuel with
  | zero =>
    intro s t hok hh hp
    rw [bptLoop] at hok
    cases hok
    exact ⟨hh, hp⟩
  | succ fuel ih =>
    intro s t hok hh hp
    rw [bptLoop] at hok
    split at hok
    · cases hok; exact ⟨hh, hp⟩
    · rename_i eid w heapRest
      dsimp only at hok
      split at hok
      · exact ih _ _ hok hh hp
      · split at hok
        · simp at hok
        · split at hok
          · simp at hok
          · split at hok
            · simp at hok
            · split at hok
              · simp at hok
              · refine ih _ _ hok ?_ ?_
                · dsimp only
                  rw [List.head?_append, hh]
                  rfl
                · dsimp only
                  simp only [List.length_append, List.length_set,
                    List.length_cons, List.length_nil]
                  omega

theorem cutLoop_break_head {parents : List ℕ} {levels : List (WithTop ℚ)}
    (hh : levels.head? = some 0) :
    cutLoop parents 0 levels.enum [] = [] := by
  cases levels with
  | nil => simp at hh
  | cons a tl =>
    obtain rfl : a = 0 := by simpa using hh
    have h0 : ((0 : ℚ) : WithTop ℚ) ≤ 0 := by norm_num
    rw [enum_eq', enumFrom_cons', cutLoop, if_pos h0]

theorem range_getD {n l : ℕ} (h : l < n) : (List.range n).getD l 0 = l := by
  rw [List.getD_eq_getElem _ _ (by simpa using h)]
  simp

theorem cut_zero_id (h : Hierarchy) (hh : h.levels.head? = some 0)
    (hl : ∀ l ∈ h.labels, l < h.parents.length) :
    cut_hierarchy h 0 = h.labels := by
  have hmap : ∀ l ∈ h.labels,
      (applyRewrites h.parents.length
        (cutLoop h.parents 0 h.levels.enum [])).getD l 0 = id l := by
    intro l hl'
    rw [cutLoop_break_head hh, applyRewrites, applyRewritesGo]
    exact range_getD (hl l hl')
  show h.labels.map (fun l =>
    (applyRewrites h.parents.length
      (cutLoop h.parents 0 h.levels.enum [])).getD l 0) = h.labels
  rw [List.map_congr_left hmap, List.map_id]

theorem replicate_head? (k : ℕ) (hk : k ≠ 0) :
    (List.replicate k (0 : WithTop ℚ)).head? = some 0 := by
  cases k with
  | zero => exact absurd rfl hk
  | succ k => rfl

/-- C4: cutting the built hierarchy at scale 0 reproduces the initial label
map pixel for pixel: whenever `build_hierarchy_from_labels` succeeds, the
first loop of `cut_hierarchy` breaks on its very first entry (node 0 sits at
level 0 ≥ 0), so no rewrite family is collected, the mappings stay the
identity, and the output equals the hierarchy's `labels` field, which itself
is the flattened input label map. -/
theorem spec_c4_cut_zero (img : List (List (List ℕ))) (labels : List (List ℕ))
    (h : Hierarchy) (hok : build_hierarchy_from_labels img labels = .ok h) :
    cut_hierarchy h 0 = h.labels ∧ h.labels = labels.flatten := by
  rw [build_hierarchy_from_labels] at hok
  cases hbpt : binary_partition_tree (graph_from_labels img labels) with
  | error p => rw [hbpt] at hok; cases hok
  | ok t =>
    rw [hbpt] at hok
    obtain rfl : (⟨labels.flatten, t.parents, t.levels,
        t.levels.foldl max 0⟩ : Hierarchy) = h := Except.ok.inj hok
    rw [binary_partition_tree] at hbpt
    have hn1 : (graph_from_labels img labels).nodes.length ≠ 0 := by
      rw [(graph_from_labels_wf img labels).1]
      omega
    have hinv := bptLoop_ok_inv (graph_from_labels img labels).nodes.length
      _ _ _ hbpt
      (by dsimp only [initBptState]; exact replicate_head? _ hn1)
      (by dsimp only [initBptState]; rw [List.length_range])
    refine ⟨cut_zero_id _ hinv.1 ?_, rfl⟩
    intro l hlmem
    have hle := mem_le_foldl_max labels.flatten 0 l hlmem
    have := (graph_from_labels_wf img labels).1
    dsimp only at hlmem ⊢
    omega

/-- Witness for C4 on the 1×1 image `[[[0]]]` with label map `[[0]]`. -/
theorem spec_c4_witness :
    build_hierarchy_from_labels [[[0]]] [[0]] = .ok ⟨[0], [0], [0], 0⟩ ∧
    cut_hierarchy ⟨[0], [0], [0], 0⟩ 0 = ([0] : List ℕ) :=
  ⟨rfl, (spec_c4_cut_zero [[[0]]] [[0]] ⟨[0], [0], [0], 0⟩ rfl).1⟩

/-! ## C3: structural invariants of `graph_from_labels` -/

/-- Total area of a node list. -/
def areaSum (nodes : List SuperpixelNode) : ℕ := (nodes.map fun n => n.area).sum

/-- The per-node statistics invariant: the channel vectors have the declared
width and, channelwise, `area`, `values` and `values_sq` are the length, sum
and sum of squares of one common list of pixel values. -/
def NodeStats (C : ℕ) (n : SuperpixelNode) : Prop :=
  n.values.length = C ∧ n.values_sq.length = C ∧
  ∀ c, ∃ l : List ℕ, n.area = l.length ∧ n.values.getD c 0 = l.sum ∧
    n.values_sq.getD c 0 = (l.map fun v => v * v).sum

theorem two_mul_le_sq_add_sq (a b : ℕ) : 2 * a * b ≤ a * a + b * b := by
  zify
  nlinarith [sq_nonneg ((a : ℤ) - (b : ℤ))]

theorem two_mul_sum_le (v : ℕ) :
    ∀ l : List ℕ, 2 * v * l.sum ≤ l.length * (v * v) + (l.map fun w => w * w).sum := by
  intro l
  induction l with
  | nil => simp
  | cons w ws ih =>
    simp only [List.sum_cons, List.length_cons, List.map_cons]
    have h1 := two_mul_le_sq_add_sq v w
    have h2 : 2 * v * (w + ws.sum) = 2 * v * w + 2 * v * ws.sum := by ring
    rw [h2]
    calc 2 * v * w + 2 * v * ws.sum
        ≤ (v * v + w * w) + (ws.length * (v * v) + (ws.map fun x => x * x).sum) :=
          Nat.add_le_add h1 ih
      _ = (ws.length + 1) * (v * v) + (w * w + (ws.map fun x => x * x).sum) := by
          ring

theorem sum_sq_le (l : List ℕ) :
    l.sum * l.sum ≤ l.length * (l.map fun v => v * v).sum := by
  induction l with
  | nil => simp
  | cons v ws ih =>
    simp only [List.sum_cons, List.length_cons, List.map_cons, List.sum_cons]
    have h2 := two_mul_sum_le v ws
    calc (v + ws.sum) * (v + ws.sum)
        = v * v + (2 * v * ws.sum + ws.sum * ws.sum) := by ring
      _ ≤ v * v + ((ws.length * (v * v) + (ws.map fun w => w * w).sum) +
            ws.length * (ws.map fun w => w * w).sum) := by
          exact Nat.add_le_add_left (Nat.add_le_add h2 ih) _
      _ ≤ (ws.length + 1) * (v * v + (ws.map fun w => w * w).sum) := by
          nlinarith [Nat.zero_le (ws.length * (v * v))]

theorem nodeStats_sq_le {C : ℕ} {n : SuperpixelNode} (h : NodeStats C n) (c : ℕ) :
    n.values.getD c 0 * n.values.getD c 0 ≤ n.area * n.values_sq.getD c 0 := by
  obtain ⟨-, -, hc⟩ := h
  obtain ⟨l, ha, hv, hs⟩ := hc c
  rw [ha, hv, hs]
  exact sum_sq_le l

theorem nodeStats_div_le {C : ℕ} {n : SuperpixelNode} (h : NodeStats C n) (c : ℕ) :
    (n.values.getD c 0 : ℚ) ^ 2 / (n.area : ℚ) ≤ (n.values_sq.getD c 0 : ℚ) := by
  have hnat := nodeStats_sq_le h c
  rcases Nat.eq_zero_or_pos n.area with hz | hp
  · rw [hz] at hnat ⊢
    have hv0 : n.values.getD c 0 = 0 := by
      simp only [Nat.zero_mul, Nat.le_zero] at hnat
      exact mul_self_eq_zero.mp hnat
    rw [hv0]
    simp
  · rw [div_le_iff₀ (by exact_mod_cast hp)]
    have : (n.values.getD c 0 : ℚ) ^ 2 = ((n.values.getD c 0 * n.values.getD c 0 : ℕ) : ℚ) := by
      push_cast
      ring
    rw [this]
    calc ((n.values.getD c 0 * n.values.getD c 0 : ℕ) : ℚ)
        ≤ ((n.area * n.values_sq.getD c 0 : ℕ) : ℚ) := by exact_mod_cast hnat
      _ = (n.values_sq.getD c 0 : ℚ) * (n.area : ℚ) := by push_cast; ring

theorem df_foldl_ge (d : ℚ) :
    ∀ l : List (ℕ × ℕ), (∀ vv ∈ l, ((vv.2 : ℚ)) ^ 2 / d ≤ (vv.1 : ℚ)) →
      ∀ acc : ℚ,
        acc ≤ l.foldl (fun acc vv => acc + (vv.1 : ℚ) - (vv.2 : ℚ) ^ 2 / d) acc := by
  intro l
  induction l with
  | nil => intro _ acc; exact le_refl acc
  | cons vv rest ih =>
    intro hl acc
    have h1 : acc ≤ acc + (vv.1 : ℚ) - (vv.2 : ℚ) ^ 2 / d := by
      have := hl vv (List.mem_cons_self _ _)
      linarith
    calc acc ≤ acc + (vv.1 : ℚ) - (vv.2 : ℚ) ^ 2 / d := h1
      _ ≤ _ := ih (fun x hx => hl x (List.mem_cons_of_mem _ hx)) _

theorem nodeStats_df_nonneg {C : ℕ} {n : SuperpixelNode} (h : NodeStats C n) :
    0 ≤ data_fidelity n.values n.values_sq n.area := by
  rw [data_fidelity]
  apply df_foldl_ge
  intro vv hvv
  rw [List.mem_iff_getElem] at hvv
  obtain ⟨i, hi, hvvi⟩ := hvv
  have hi1 : i < n.values_sq.length := by rw [List.length_zip] at hi; omega
  have hi2 : i < n.values.length := by rw [List.length_zip] at hi; omega
  rw [List.getElem_zip] at hvvi
  have h1 : vv.1 = n.values_sq.getD i 0 := by
    rw [← hvvi, List.getD_eq_getElem _ _ hi1]
  have h2 : vv.2 = n.values.getD i 0 := by
    rw [← hvvi, List.getD_eq_getElem _ _ hi2]
  rw [h1, h2]
  exact nodeStats_div_le h i

theorem nodeStats_updNode {C : ℕ} {nodes : List SuperpixelNode} {i : ℕ}
    {f : SuperpixelNode → SuperpixelNode}
    (hf : ∀ n, NodeStats C n → NodeStats C (f n))
    (h : ∀ n ∈ nodes, NodeStats C n) :
    ∀ n ∈ updNode nodes i f, NodeStats C n := by
  intro n hn
  rw [updNode] at hn
  rcases lt_or_ge i nodes.length with hi | hi
  · rcases List.mem_or_eq_of_mem_set hn with hn' | rfl
    · exact h n hn'
    · exact hf _ (h _ (getD_mem_of_lt hi))
  · rw [List.set_eq_of_length_le hi] at hn
    exact h n hn

theorem areaSum_updNode_eq :
    ∀ (nodes : List SuperpixelNode) (i : ℕ) (f : SuperpixelNode → SuperpixelNode),
      (∀ n, (f n).area = n.area) → areaSum (updNode nodes i f) = areaSum nodes := by
  intro nodes
  induction nodes with
  | nil => intro i f hf; rfl
  | cons n ns ih =>
    intro i f hf
    cases i with
    | zero =>
      show areaSum (f n :: ns) = areaSum (n :: ns)
      simp only [areaSum, List.map_cons, List.sum_cons, hf n]
    | succ i =>
      show areaSum (n :: updNode ns i f) = areaSum (n :: ns)
      simp only [areaSum, List.map_cons, List.sum_cons]
      have := ih i f hf
      simp only [areaSum] at this
      omega

theorem areaSum_updNode_succ :
    ∀ (nodes : List SuperpixelNode) (i : ℕ) (f : SuperpixelNode → SuperpixelNode),
      (∀ n, (f n).area = n.area + 1) → i < nodes.length →
      areaSum (updNode nodes i f) = areaSum nodes + 1 := by
  intro nodes
  induction nodes with
  | nil => intro i f _ hi; simp at hi
  | cons n ns ih =>
    intro i f hf hi
    cases i with
    | zero =>
      show areaSum (f n :: ns) = areaSum (n :: ns) + 1
      simp only [areaSum, List.map_cons, List.sum_cons, hf n]
      omega
    | succ i =>
      show areaSum (n :: updNode ns i f) = areaSum (n :: ns) + 1
      simp only [areaSum, List.map_cons, List.sum_cons]
      have := ih i f hf (by simpa using hi)
      simp only [areaSum] at this
      omega

theorem bumpPerim_stats {C : ℕ} {nodes : List SuperpixelNode} {l : ℕ}
    (h : ∀ n ∈ nodes, NodeStats C n) : ∀ n ∈ bumpPerim nodes l, NodeStats C n := by
  rw [bumpPerim]
  refine nodeStats_updNode ?_ h
  intro n hn
  exact ⟨hn.1, hn.2.1, hn.2.2⟩

theorem bumpPerim_area {nodes : List SuperpixelNode} {l : ℕ} :
    areaSum (bumpPerim nodes l) = areaSum nodes := by
  rw [bumpPerim]
  exact areaSum_updNode_eq _ _ _ fun n => rfl

theorem neighborStep_stats {C : ℕ} {labels : List (List ℕ)} {i y2 x2 : ℕ}
    {g : Graph} (h : ∀ n ∈ g.nodes, NodeStats C n) :
    ∀ n ∈ (neighborStep labels i y2 x2 g).nodes, NodeStats C n := by
  rw [neighborStep]
  split
  · exact h
  · split
    · exact h
    · dsimp only
      refine nodeStats_updNode (fun n hn => ⟨hn.1, hn.2.1, hn.2.2⟩) ?_
      exact nodeStats_updNode (fun n hn => ⟨hn.1, hn.2.1, hn.2.2⟩) h

theorem neighborStep_area {labels : List (List ℕ)} {i y2 x2 : ℕ} {g : Graph} :
    areaSum (neighborStep labels i y2 x2 g).nodes = areaSum g.nodes := by
  rw [neighborStep]
  split
  · rfl
  · split
    · rfl
    · dsimp only
      exact (areaSum_updNode_eq _ _
          (fun n => { n with perimeter := n.perimeter + 1 }) fun n => rfl).trans
        (areaSum_updNode_eq _ _
          (fun n => { n with perimeter := n.perimeter + 1 }) fun n => rfl)

theorem addVec_getD (a b : List ℕ) (c : ℕ) (h1 : c < a.length) (h2 : c < b.length) :
    (addVec a b).getD c 0 = a.getD c 0 + b.getD c 0 := by
  rw [List.getD_eq_getElem _ _ h1, List.getD_eq_getElem _ _ h2,
    List.getD_eq_getElem _ _
      (show c < (addVec a b).length by rw [addVec, List.length_zipWith]; omega)]
  exact List.getElem_zipWith

theorem map_sq_getD (p : List ℕ) (c : ℕ) (h : c < p.length) :
    (p.map fun v => v * v).getD c 0 = p.getD c 0 * p.getD c 0 := by
  rw [List.getD_eq_getElem _ _ h, List.getD_eq_getElem _ _ (by simpa using h)]
  exact List.getElem_map _

theorem nodeStats_accum {C : ℕ} {pixel : List ℕ} (hC : pixel.length = C)
    (n : SuperpixelNode) (hn : NodeStats C n) :
    NodeStats C
      { n with
          area := n.area + 1
          values := addVec n.values pixel
          values_sq := addVec n.values_sq (pixel.map fun v => v * v) } := by
  obtain ⟨hv, hs, hch⟩ := hn
  refine ⟨?_, ?_, ?_⟩
  · dsimp only
    rw [addVec, List.length_zipWith, hv, hC]; omega
  · dsimp only
    rw [addVec, List.length_zipWith, List.length_map, hs, hC]; omega
  · intro c
    obtain ⟨l, ha, hvl, hsl⟩ := hch c
    refine ⟨pixel.getD c 0 :: l, by simp [ha], ?_, ?_⟩
    · dsimp only
      by_cases hc : c < C
      · rw [addVec_getD _ _ _ (by omega) (by omega), List.sum_cons, hvl]
        omega
      · rw [List.getD_eq_default _ _
            (by rw [addVec, List.length_zipWith, hv, hC]; omega),
          List.sum_cons,
          List.getD_eq_default _ _ (by omega), ← hvl,
          List.getD_eq_default _ _ (by omega)]
    · dsimp only
      by_cases hc : c < C
      · rw [addVec_getD _ _ _ (by omega) (by rw [List.length_map]; omega),
          map_sq_getD _ _ (by omega), List.map_cons, List.sum_cons, hsl]
        omega
      · rw [List.getD_eq_default _ _
            (by rw [addVec, List.length_zipWith, List.length_map, hs, hC]; omega),
          List.map_cons, List.sum_cons,
          List.getD_eq_default _ _ (by omega), ← hsl,
          List.getD_eq_default _ _ (by omega)]

theorem pixelStep_stats {C : ℕ} {img : List (List (List ℕ))}
    {labels : List (List ℕ)} {g : Graph} {yxl : ℕ × ℕ × ℕ}
    (hpl : ((img.getD yxl.1 []).getD yxl.2.1 []).length = C)
    (h : ∀ n ∈ g.nodes, NodeStats C n) :
    ∀ n ∈ (pixelStep img labels g yxl).nodes, NodeStats C n := by
  rw [pixelStep]
  apply neighborStep_stats
  apply neighborStep_stats
  exact nodeStats_updNode (fun n hn => nodeStats_accum hpl n hn) h

theorem pixelStep_area {img : List (List (List ℕ))} {labels : List (List ℕ)}
    {g : Graph} {yxl : ℕ × ℕ × ℕ} (hl : yxl.2.2 < g.nodes.length) :
    areaSum (pixelStep img labels g yxl).nodes = areaSum g.nodes + 1 := by
  rw [pixelStep]
  rw [neighborStep_area, neighborStep_area]
  dsimp only
  refine areaSum_updNode_succ _ _ _ ?_ hl
  intro n
  rfl

theorem pixelScan_stats {C : ℕ} (img : List (List (List ℕ)))
    (labels : List (List ℕ)) :
    ∀ (pxs : List (ℕ × ℕ × ℕ)) (g : Graph),
      (∀ yxl ∈ pxs, yxl.2.2 < g.nodes.length ∧
        ((img.getD yxl.1 []).getD yxl.2.1 []).length = C) →
      (∀ n ∈ g.nodes, NodeStats C n) →
      (∀ n ∈ (pixelScan img labels pxs g).nodes, NodeStats C n) ∧
      areaSum (pixelScan img labels pxs g).nodes = areaSum g.nodes + pxs.length := by
  intro pxs
  induction pxs with
  | nil => intro g _ h; exact ⟨h, by simp [pixelScan]⟩
  | cons yxl rest ih =>
    intro g hb h
    rw [pixelScan]
    have hb1 := hb yxl (List.mem_cons_self _ _)
    have hlen := pixelStep_nodes_length img labels g yxl
    obtain ⟨ih1, ih2⟩ := ih (pixelStep img labels g yxl)
      (fun z hz => ⟨by rw [hlen]; exact (hb z (List.mem_cons_of_mem _ hz)).1,
        (hb z (List.mem_cons_of_mem _ hz)).2⟩)
      (pixelStep_stats hb1.2 h)
    refine ⟨ih1, ?_⟩
    rw [ih2, pixelStep_area hb1.1, List.length_cons]
    omega

theorem frameCols_stats {C : ℕ} {labels : List (List ℕ)} {height : ℕ} :
    ∀ (xs : List ℕ) {ns : List SuperpixelNode},
      (∀ n ∈ ns, NodeStats C n) →
      ∀ n ∈ frameCols labels height xs ns, NodeStats C n := by
  intro xs
  induction xs with
  | nil => intro ns h; exact h
  | cons x rest ih =>
    intro ns h
    rw [frameCols]
    exact ih (bumpPerim_stats (bumpPerim_stats h))

theorem frameCols_area {labels : List (List ℕ)} {height : ℕ} :
    ∀ (xs : List ℕ) (ns : List SuperpixelNode),
      areaSum (frameCols labels height xs ns) = areaSum ns := by
  intro xs
  induction xs with
  | nil => intro ns; rfl
  | cons x rest ih =>
    intro ns
    rw [frameCols, ih, bumpPerim_area, bumpPerim_area]

theorem frameRows_stats {C : ℕ} {labels : List (List ℕ)} {width : ℕ} :
    ∀ (ys : List ℕ) {ns : List SuperpixelNode},
      (∀ n ∈ ns, NodeStats C n) →
      ∀ n ∈ frameRows labels width ys ns, NodeStats C n := by
  intro ys
  induction ys with
  | nil => intro ns h; exact h
  | cons y rest ih =>
    intro ns h
    rw [frameRows]
    exact ih (bumpPerim_stats (bumpPerim_stats h))

theorem frameRows_area {labels : List (List ℕ)} {width : ℕ} :
    ∀ (ys : List ℕ) (ns : List SuperpixelNode),
      areaSum (frameRows labels width ys ns) = areaSum ns := by
  intro ys
  induction ys with
  | nil => intro ns; rfl
  | cons y rest ih =>
    intro ns
    rw [frameRows, ih, bumpPerim_area, bumpPerim_area]

theorem initEnergies_stats {C : ℕ} {g : Graph}
    (h : ∀ n ∈ g.nodes, NodeStats C n) :
    ∀ n ∈ (initEnergies g).nodes, NodeStats C n := by
  intro n hn
  rw [initEnergies] at hn
  simp only [List.mem_map] at hn
  obtain ⟨n0, hn0, rfl⟩ := hn
  obtain ⟨h1, h2, h3⟩ := h n0 hn0
  exact ⟨h1, h2, h3⟩

theorem initEnergies_area (g : Graph) :
    areaSum (initEnergies g).nodes = areaSum g.nodes := by
  rw [areaSum, initEnergies]
  dsimp only
  rw [List.map_map]
  rfl

theorem initN_stats (C : ℕ) : NodeStats C (SuperpixelNode.initN C) := by
  refine ⟨by simp [SuperpixelNode.initN], by simp [SuperpixelNode.initN], ?_⟩
  intro c
  refine ⟨[], rfl, ?_, ?_⟩
  · show (List.replicate C (0 : ℕ)).getD c 0 = 0
    rw [List.getD_eq_getElem?_getD]
    exact List.getElem?_getD_replicate_default_eq _ _ _
  · show (List.replicate C (0 : ℕ)).getD c 0 = 0
    rw [List.getD_eq_getElem?_getD]
    exact List.getElem?_getD_replicate_default_eq _ _ _

theorem replicate_initN_area (k C : ℕ) :
    areaSum (List.replicate k (SuperpixelNode.initN C)) = 0 := by
  induction k with
  | zero => rfl
  | succ k ih =>
    rw [List.replicate_succ, areaSum, List.map_cons, List.sum_cons]
    rw [areaSum] at ih
    rw [ih]
    rfl

theorem indexedLabels_length (labels : List (List ℕ)) :
    (indexedLabels labels).length = (labels.map List.length).sum := by
  rw [indexedLabels, List.length_flatten, List.map_map]
  have : (List.length ∘ fun yr : ℕ × List ℕ =>
      yr.2.enum.map fun xl => (yr.1, xl.1, xl.2)) =
      (List.length ∘ Prod.snd) := by
    funext yr
    simp
  rw [this, ← List.map_map, List.enum_map_snd]

theorem indexedLabels_coords {labels : List (List ℕ)} {yxl : ℕ × ℕ × ℕ}
    (h : yxl ∈ indexedLabels labels) :
    yxl.1 < labels.length ∧ yxl.2.1 < (labels.getD yxl.1 []).length := by
  rw [indexedLabels, List.mem_flatten] at h
  obtain ⟨inner, hinner, hmem⟩ := h
  rw [List.mem_map] at hinner
  obtain ⟨yr, hyr, rfl⟩ := hinner
  rw [List.mem_map] at hmem
  obtain ⟨xl, hxl, rfl⟩ := hmem
  have hrow : labels[yr.1]? = some yr.2 := by
    obtain ⟨y, row⟩ := yr
    exact enum_getElem? hyr
  have hval : yr.2[xl.1]? = some xl.2 := by
    obtain ⟨x, v⟩ := xl
    exact enum_getElem? hxl
  have h1 : yr.1 < labels.length := (List.getElem?_eq_some.mp hrow).1
  have h2 : xl.1 < yr.2.length := (List.getElem?_eq_some.mp hval).1
  refine ⟨h1, ?_⟩
  have : labels.getD yr.1 [] = yr.2 := by
    rw [List.getD_eq_getElem?_getD, hrow]
    rfl
  rw [this]
  exact h2

theorem framePerimeters_nodes (labels : List (List ℕ)) (height width : ℕ)
    (g : Graph) :
    (framePerimeters labels height width g).nodes =
      frameRows labels width (List.range height)
        (frameCols labels height (List.range width) g.nodes) := rfl

theorem data_fidelity_f64_go {area : ℕ} (ha : area ≠ 0) :
    ∀ (l : List (ℕ × ℕ)) (a : ℚ),
      l.foldl
        (fun acc vv =>
          match acc with
          | none => none
          | some a =>
            if area = 0 then none
            else some (a + (vv.1 : ℚ) - (vv.2 : ℚ) ^ 2 / (area : ℚ)))
        (some a) =
      some (l.foldl
        (fun acc vv => acc + (vv.1 : ℚ) - (vv.2 : ℚ) ^ 2 / (area : ℚ)) a) := by
  intro l
  induction l with
  | nil => intro a; rfl
  | cons p t ih =>
    intro a
    simp only [List.foldl_cons]
    rw [if_neg ha]
    exact ih _

/-- For a node of non-zero area the `f64` data fidelity is finite and is the
exact rational computed by `data_fidelity`. -/
theorem data_fidelity_f64_some {values values_sq : List ℕ} {area : ℕ}
    (ha : area ≠ 0) :
    data_fidelity_f64 values values_sq area =
      some (data_fidelity values values_sq area) := by
  rw [data_fidelity_f64, data_fidelity]
  exact data_fidelity_f64_go ha _ 0

/-- `graph_from_labels` on the gap label map `[[1]]` over a 1×1×1 image:
label `0` never occurs, so node 0 keeps `area = 0` with one zero channel. -/
def c3gapG : Graph :=
  ⟨[⟨0, 0, [0], [0], ⟨[⟨0, 0, 0⟩]⟩⟩, ⟨1, 4, [0], [0], ⟨[⟨0, 0, 4⟩]⟩⟩], []⟩

theorem c3gap_phase1 :
    pixelScan [[[0]]] [[1]] (indexedLabels [[1]])
        ⟨List.replicate 2 (SuperpixelNode.initN 1), []⟩ =
      ⟨[⟨0, 0, [0], [0], ⟨[]⟩⟩, ⟨1, 0, [0], [0], ⟨[]⟩⟩], []⟩ := by
  decide

theorem c3gap_phase2 :
    framePerimeters [[1]] 1 1
      ⟨[⟨0, 0, [0], [0], ⟨[]⟩⟩, ⟨1, 0, [0], [0], ⟨[]⟩⟩], []⟩ =
      ⟨[⟨0, 0, [0], [0], ⟨[]⟩⟩, ⟨1, 4, [0], [0], ⟨[]⟩⟩], []⟩ := by
  decide

theorem c3gap_graph : graph_from_labels [[[0]]] [[1]] = c3gapG := by
  show initWeights (initEnergies (framePerimeters [[1]] 1 1
    (pixelScan [[[0]]] [[1]] (indexedLabels [[1]])
      ⟨List.replicate 2 (SuperpixelNode.initN 1), []⟩))) = c3gapG
  rw [c3gap_phase1, c3gap_phase2]
  norm_num [initEnergies, initWeights, data_fidelity, c3gapG]

/-- C3 counterexample: the claim quantifies over every total label map, but
for the gap label map `[[1]]` over a 1×1×1 image, `graph_from_labels`
allocates `max + 1 = 2` nodes and node 0 is never touched: its `area` stays
`0`, so the Rust `data_fidelity` computes `0.0 − 0.0² / 0.0 = NaN`
(modelled `none`), which is not `≥ 0`, and the claimed channel bound
`values_sq_c ≥ values_c² / area` is a comparison against `NaN` as well.
Hence the unqualified claim is false for label maps that skip an index below
their maximum. -/
theorem spec_c3_counterexample :
    ∃ n ∈ (graph_from_labels [[[0]]] [[1]]).nodes,
      n.area = 0 ∧ data_fidelity_f64 n.values n.values_sq n.area = none := by
  refine ⟨⟨0, 0, [0], [0], ⟨[⟨0, 0, 0⟩]⟩⟩, ?_, rfl, rfl⟩
  rw [c3gap_graph]
  exact List.mem_cons_self _ _

/-- C3 (amended): after `graph_from_labels` on an H×W(×C) image with a label
map of the same shape, the node areas sum to H·W and every edge has length at
least 1; and every node of **non-zero** area satisfies the channelwise
Cauchy–Schwarz inequality `values_c² / area ≤ values_sq_c`, and its `f64`
data fidelity is a finite number — the exact rational `data_fidelity` — and
is non-negative.  The restriction to non-zero areas is necessary: for a label
map that skips an index below its maximum the untouched node has `area = 0`
and its `f64` data fidelity is `NaN` (see the counterexample). -/
theorem spec_c3_graph_invariants (img : List (List (List ℕ)))
    (labels : List (List ℕ))
    (hlh : labels.length = img.length)
    (hlw : ∀ row ∈ labels, row.length = (img.headD []).length)
    (hiw : ∀ row ∈ img, row.length = (img.headD []).length)
    (hic : ∀ row ∈ img, ∀ px ∈ row, px.length = ((img.headD []).headD []).length) :
    areaSum (graph_from_labels img labels).nodes =
      img.length * (img.headD []).length ∧
    (∀ e ∈ (graph_from_labels img labels).edges, 1 ≤ e.length) ∧
    ∀ n ∈ (graph_from_labels img labels).nodes, n.area ≠ 0 →
      (∀ c, (n.values.getD c 0 : ℚ) ^ 2 / (n.area : ℚ) ≤
        (n.values_sq.getD c 0 : ℚ)) ∧
      data_fidelity_f64 n.values n.values_sq n.area =
        some (data_fidelity n.values n.values_sq n.area) ∧
      0 ≤ data_fidelity n.values n.values_sq n.area := by
  set W := (img.headD []).length with hW
  set C := ((img.headD []).headD []).length with hC
  set g0 : Graph := ⟨List.replicate (labels.flatten.foldl max 0 + 1)
    (SuperpixelNode.initN C), []⟩ with hg0
  have hinit : ∀ n ∈ g0.nodes, NodeStats C n := by
    intro n hn
    rw [List.eq_of_mem_replicate hn]
    exact initN_stats C
  have hb : ∀ yxl ∈ indexedLabels labels, yxl.2.2 < g0.nodes.length ∧
      ((img.getD yxl.1 []).getD yxl.2.1 []).length = C := by
    intro yxl hyxl
    constructor
    · have h1 := mem_le_foldl_max labels.flatten 0 _
        (indexedLabels_label_mem hyxl)
      have h2 : g0.nodes.length = labels.flatten.foldl max 0 + 1 := by
        rw [hg0]
        exact List.length_replicate _ _
      omega
    · obtain ⟨hy, hx⟩ := indexedLabels_coords hyxl
      have hy' : yxl.1 < img.length := by omega
      have hrowmem : img.getD yxl.1 [] ∈ img := by
        rw [List.getD_eq_getElem _ _ hy']
        exact List.getElem_mem hy'
      have hrowlen : (img.getD yxl.1 []).length = W := hiw _ hrowmem
      have hlabrow : labels.getD yxl.1 [] ∈ labels := by
        rw [List.getD_eq_getElem _ _ (by omega)]
        exact List.getElem_mem (by omega)
      have hx' : yxl.2.1 < (img.getD yxl.1 []).length := by
        rw [hrowlen]
        rw [hlw _ hlabrow] at hx
        omega
      have hpxmem : (img.getD yxl.1 []).getD yxl.2.1 [] ∈ img.getD yxl.1 [] := by
        rw [List.getD_eq_getElem _ _ hx']
        exact List.getElem_mem hx'
      exact hic _ hrowmem _ hpxmem
  have hscan := pixelScan_stats img labels (indexedLabels labels) g0 hb hinit
  have hGnodes : (graph_from_labels img labels).nodes =
      (initEnergies (framePerimeters labels img.length W
        (pixelScan img labels (indexedLabels labels) g0))).nodes := rfl
  have hstats : ∀ n ∈ (graph_from_labels img labels).nodes, NodeStats C n := by
    rw [hGnodes]
    apply initEnergies_stats
    rw [framePerimeters_nodes]
    exact frameRows_stats _ (frameCols_stats _ hscan.1)
  refine ⟨?_, ?_, ?_⟩
  · rw [hGnodes, initEnergies_area, framePerimeters_nodes, frameRows_area,
      frameCols_area, hscan.2]
    have hz : areaSum g0.nodes = 0 := by
      rw [hg0]
      exact replicate_initN_area _ _
    rw [hz, indexedLabels_length]
    have hrep : labels.map List.length = List.replicate labels.length W := by
      rw [← List.map_const']
      exact List.map_congr_left fun row hrow => hlw row hrow
    rw [hrep, hlh, List.sum_replicate, smul_eq_mul]
    omega
  · exact fun e he => ((graph_from_labels_wf img labels).2 e he).2.2
  · intro n hn hna
    exact ⟨nodeStats_div_le (hstats n hn), data_fidelity_f64_some hna,
      nodeStats_df_nonneg (hstats n hn)⟩

/-- Witness for C3 on the repo's 3×3×3 unit-test instance, further
instantiated at its first node (area 4). -/
theorem spec_c3_witness :
    (labels3.length = img3.length ∧
      (∀ row ∈ labels3, row.length = (img3.headD []).length) ∧
      (∀ row ∈ img3, row.length = (img3.headD []).length) ∧
      (∀ row ∈ img3, ∀ px ∈ row,
        px.length = ((img3.headD []).headD []).length)) ∧
    (areaSum (graph_from_labels img3 labels3).nodes =
        img3.length * (img3.headD []).length ∧
      (∀ e ∈ (graph_from_labels img3 labels3).edges, 1 ≤ e.length) ∧
      ∀ n ∈ (graph_from_labels img3 labels3).nodes, n.area ≠ 0 →
        (∀ c, (n.values.getD c 0 : ℚ) ^ 2 / (n.area : ℚ) ≤
          (n.values_sq.getD c 0 : ℚ)) ∧
        data_fidelity_f64 n.values n.values_sq n.area =
          some (data_fidelity n.values n.values_sq n.area) ∧
        0 ≤ data_fidelity n.values n.values_sq n.area) ∧
    0 ≤ data_fidelity [24, 28, 32] [234, 286, 346] 4 := by
  have hmain := spec_c3_graph_invariants img3 labels3 (by decide) (by decide)
    (by decide) (by decide)
  refine ⟨⟨by decide, by decide, by decide, by decide⟩, hmain, ?_⟩
  have hmem : (⟨4, 8, [24, 28, 32], [234, 286, 346], ⟨[⟨0, 270, 8⟩]⟩⟩ :
      SuperpixelNode) ∈ (graph_from_labels img3 labels3).nodes := by
    rw [g3_graph]
    exact List.mem_cons_self _ _
  exact (hmain.2.2 _ hmem (by decide)).2.2

/-! ## C9: seed initialisation -/

/-- The 2×2×1 image with pixel values `y·2 + x`. -/
def seedImg : List (List (List ℕ)) := [[[0], [1]], [[2], [3]]]

theorem c9seed_eval : init_seeds 1 4 seedImg = some [⟨[3], 1, 1⟩] := by
  have hr2 : List.range 2 = [0, 1] := by decide
  norm_num [init_seeds, seedGridDims, divCeil, shrinkSeeds, seedRowsGo,
    seedColsGo, toU32, seedImg, hr2]

/-- A seed produced by the placement loops: in bounds, and at the grid
position of some `(xdx, ydx)` cell shifted by the truncated spread
corrections. -/
def SeedOK (su half_s width height x_seeds y_seeds : ℕ) (xc yc : ℚ)
    (sp : Superpixel) : Prop :=
  sp.x < width ∧ sp.y < height ∧
  (∃ xdx xcv, xdx < x_seeds ∧ toU32 ((xdx : ℚ) * xc) = some xcv ∧
    sp.x = xdx * su + half_s + xcv) ∧
  (∃ ydx ycv, ydx < y_seeds ∧ toU32 ((ydx : ℚ) * yc) = some ycv ∧
    sp.y = ydx * su + half_s + ycv)

theorem seedColsGo_ok {image : List (List (List ℕ))}
    {su half_s width height channels x_seeds y_seeds : ℕ} {xc yc : ℚ} {y : ℕ}
    (hy : ∃ ydx ycv, ydx < y_seeds ∧ toU32 ((ydx : ℚ) * yc) = some ycv ∧
      y = ydx * su + half_s + ycv) :
    ∀ {xs : List ℕ} {seeds out : List Superpixel},
      seedColsGo image su half_s width height channels xc y xs seeds = some out →
      (∀ x ∈ xs, x < x_seeds) →
      (∀ sp ∈ seeds, SeedOK su half_s width height x_seeds y_seeds xc yc sp) →
      ∀ sp ∈ out, SeedOK su half_s width height x_seeds y_seeds xc yc sp := by
  intro xs
  induction xs with
  | nil =>
    intro seeds out h _ hacc
    rw [seedColsGo] at h
    cases h
    exact hacc
  | cons xdx rest ih =>
    intro seeds out h hxs hacc
    rw [seedColsGo] at h
    cases htu : toU32 ((xdx : ℚ) * xc) with
    | none => rw [htu] at h; cases h
    | some xcv =>
      rw [htu] at h
      simp only [Option.bind] at h
      refine ih h (fun x hx => hxs x (List.mem_cons_of_mem _ hx)) ?_
      intro sp hsp
      split at hsp
      · rename_i hguard
        rcases List.mem_append.mp hsp with hsp' | hsp'
        · exact hacc sp hsp'
        · rcases List.mem_singleton.mp hsp' with rfl
          exact ⟨hguard.1, hguard.2.1,
            ⟨xdx, xcv, hxs xdx (List.mem_cons_self _ _), htu, rfl⟩, hy⟩
      · exact hacc sp hsp
 
theorem seedRowsGo_ok {image : List (List (List ℕ))}
    {su half_s width height channels x_seeds y_seeds : ℕ} {xc yc : ℚ} :
    ∀ {ys : List ℕ} {seeds out : List Superpixel},
      seedRowsGo image su half_s width height channels xc yc x_seeds ys seeds =
        some out →
      (∀ y ∈ ys, y < y_seeds) →
      (∀ sp ∈ seeds, SeedOK su half_s width height x_seeds y_seeds xc yc sp) →
      ∀ sp ∈ out, SeedOK su half_s width height x_seeds y_seeds xc yc sp := by
  intro ys
  induction ys with
  | nil =>
    intro seeds out h _ hacc
    rw [seedRowsGo] at h
    cases h
    exact hacc
  | cons ydx rest ih =>
    intro seeds out h hys hacc
    rw [seedRowsGo] at h
    cases htu : toU32 ((ydx : ℚ) * yc) with
    | none => rw [htu] at h; cases h
    | some ycv =>
      rw [htu] at h
      simp only [Option.bind] at h
      cases hcol : seedColsGo image su half_s width height channels xc
          (ydx * su + half_s + ycv) (List.range x_seeds) seeds with
      | none => rw [hcol] at h; cases h
      | some mid =>
        rw [hcol] at h
        refine ih h (fun z hz => hys z (List.mem_cons_of_mem _ hz)) ?_
        exact seedColsGo_ok
          ⟨ydx, ycv, hys ydx (List.mem_cons_self _ _), htu, rfl⟩ hcol
          (fun x hx => List.mem_range.mp hx) hacc

theorem seedColsGo_length {image : List (List (List ℕ))}
    {su half_s width height channels : ℕ} {xc : ℚ} {y : ℕ} :
    ∀ {xs : List ℕ} {seeds out : List Superpixel},
      seedColsGo image su half_s width height channels xc y xs seeds = some out →
      out.length ≤ seeds.length + xs.length := by
  intro xs
  induction xs with
  | nil =>
    intro seeds out h
    rw [seedColsGo] at h
    cases h
    simp
  | cons xdx rest ih =>
    intro seeds out h
    rw [seedColsGo] at h
    cases htu : toU32 ((xdx : ℚ) * xc) with
    | none => rw [htu] at h; cases h
    | some xcv =>
      rw [htu] at h
      simp only [Option.bind] at h
      have := ih h
      split at this
      · rw [List.length_append] at this
        simp only [List.length_cons, List.length_nil] at this ⊢
        omega
      · simp only [List.length_cons] at this ⊢
        omega

theorem seedRowsGo_length {image : List (List (List ℕ))}
    {su half_s width height channels x_seeds : ℕ} {xc yc : ℚ} :
    ∀ {ys : List ℕ} {seeds out : List Superpixel},
      seedRowsGo image su half_s width height channels xc yc x_seeds ys seeds =
        some out →
      out.length ≤ seeds.length + ys.length * x_seeds := by
  intro ys
  induction ys with
  | nil =>
    intro seeds out h
    rw [seedRowsGo] at h
    cases h
    simp
  | cons ydx rest ih =>
    intro seeds out h
    rw [seedRowsGo] at h
    cases htu : toU32 ((ydx : ℚ) * yc) with
    | none => rw [htu] at h; cases h
    | some ycv =>
      rw [htu] at h
      simp only [Option.bind] at h
      cases hcol : seedColsGo image su half_s width height channels xc
          (ydx * su + half_s + ycv) (List.range x_seeds) seeds with
      | none => rw [hcol] at h; cases h
      | some mid =>
        rw [hcol] at h
        have h1 := seedColsGo_length hcol
        rw [List.length_range] at h1
        have h2 := ih h
        simp only [List.length_cons]
        calc out.length ≤ mid.length + rest.length * x_seeds := h2
          _ ≤ (seeds.length + x_seeds) + rest.length * x_seeds :=
              Nat.add_le_add_right h1 _
          _ = seeds.length + (rest.length + 1) * x_seeds := by ring

/-- C9 (amended): `init_seeds` computes grid dimensions
`(x_seeds, y_seeds) = seedGridDims s k W H` and spread corrections
`xc = (W − x_seeds·s)/x_seeds`, `yc = (H − y_seeds·s)/y_seeds`; every seed it
returns lies strictly inside the image and sits at
`(xdx·s + ⌈s/2⌉ + trunc(xdx·xc), ydx·s + ⌈s/2⌉ + trunc(ydx·yc))` for some
grid cell `(xdx, ydx)` — but out-of-bounds grid positions are skipped, so at
most `x_seeds·y_seeds` seeds are produced, not always exactly that many (the
original count claim is refuted by `spec_c9_counterexample`). -/
theorem spec_c9_seed_placement (s k : ℕ) (image : List (List (List ℕ)))
    (seeds : List Superpixel)
    (hok : init_seeds s k image = some seeds) :
    seeds.length ≤
      (seedGridDims s k (image.headD []).length image.length).1 *
        (seedGridDims s k (image.headD []).length image.length).2 ∧
    ∀ sp ∈ seeds,
      SeedOK s (divCeil s 2) (image.headD []).length image.length
        (seedGridDims s k (image.headD []).length image.length).1
        (seedGridDims s k (image.headD []).length image.length).2
        ((((image.headD []).length : ℚ) -
            ((seedGridDims s k (image.headD []).length image.length).1 : ℚ) *
              (s : ℚ)) /
          ((seedGridDims s k (image.headD []).length image.length).1 : ℚ))
        (((image.length : ℚ) -
            ((seedGridDims s k (image.headD []).length image.length).2 : ℚ) *
              (s : ℚ)) /
          ((seedGridDims s k (image.headD []).length image.length).2 : ℚ)) sp := by
  rw [init_seeds] at hok
  constructor
  · have h1 := seedRowsGo_length hok
    rw [List.length_range, List.length_nil] at h1
    calc seeds.length ≤ 0 +
        (seedGridDims s k (image.headD []).length image.length).2 *
          (seedGridDims s k (image.headD []).length image.length).1 := h1
      _ = _ := by ring
  · exact seedRowsGo_ok hok (fun y hy => List.mem_range.mp hy) (by simp)

/-- Counterexample to C9's count claim: for the 2×2×1 image with `s = 1`,
`k = 4`, the grid is 2×2 (4 cells) but only the single in-bounds position
`(1, 1)` receives a seed. -/
theorem spec_c9_counterexample :
    seedGridDims 1 4 (seedImg.headD []).length seedImg.length = (2, 2) ∧
    init_seeds 1 4 seedImg = some [⟨[3], 1, 1⟩] ∧
    ([⟨[3], 1, 1⟩] : List Superpixel).length ≠ 2 * 2 := by
  refine ⟨?_, c9seed_eval, by decide⟩
  decide

/-- Witness for the amended C9 theorem at the same concrete instance. -/
theorem spec_c9_witness :
    init_seeds 1 4 seedImg = some [⟨[3], 1, 1⟩] ∧
    ([⟨[3], 1, 1⟩] : List Superpixel).length ≤
      (seedGridDims 1 4 (seedImg.headD []).length seedImg.length).1 *
        (seedGridDims 1 4 (seedImg.headD []).length seedImg.length).2 :=
  ⟨c9seed_eval,
    (spec_c9_seed_placement 1 4 seedImg [⟨[3], 1, 1⟩] c9seed_eval).1⟩

/-! ## C6: preservation of the PLEF invariants -/

/-- The three adjacent-piece relations of the PLEF invariant, bundled:
strictly increasing `start_x`, non-increasing slope, continuity. -/
def SRel (a b : PlefPiece) : Prop :=
  a.start_x < b.start_x ∧ b.slope ≤ a.slope ∧ b.start_y = a.eval b.start_x

/-- `SRel` read along a reversed piece list. -/
def RRel (a b : PlefPiece) : Prop :=
  b.start_x < a.start_x ∧ a.slope ≤ b.slope ∧ a.start_y = b.eval a.start_x

theorem chain'_sRel_iff (l : List PlefPiece) :
    List.Chain' SRel l ↔
      List.Chain' (fun p q => p.start_x < q.start_x) l ∧
      List.Chain' (fun p q => q.slope ≤ p.slope) l ∧
      List.Chain' (fun p q => q.start_y = p.eval q.start_x) l := by
  induction l with
  | nil => simp
  | cons a t ih =>
    cases t with
    | nil => simp
    | cons b t' =>
      rw [List.chain'_cons, List.chain'_cons, List.chain'_cons, List.chain'_cons,
        ih]
      unfold SRel
      tauto

theorem plefInv_iff (l : List PlefPiece) :
    PlefInv l ↔ List.Chain' SRel l ∧ (l.headD ⟨0, 0, 0⟩).start_x = 0 := by
  rw [PlefInv, chain'_sRel_iff]
  tauto

theorem chain'_rRel_reverse (l : List PlefPiece) :
    List.Chain' RRel l.reverse ↔ List.Chain' SRel l := by
  rw [List.chain'_reverse]
  constructor
  · intro h
    exact h.imp fun a b hr => ⟨hr.1, hr.2.1, hr.2.2⟩
  · intro h
    exact h.imp fun a b hr => ⟨hr.1, hr.2.1, hr.2.2⟩

theorem eval_self (p : PlefPiece) : p.eval p.start_x = p.start_y := by
  simp [PlefPiece.eval]

theorem sumLoop_zero_fuel (i j : List PlefPiece) : sumLoop 0 i j = [] := by
  cases i <;> cases j <;> rfl

theorem sumLoop_nil_left (c : ℕ) (j : List PlefPiece) : sumLoop c [] j = [] := by
  cases c <;> cases j <;> rfl

theorem sumLoop_nil_right (c : ℕ) (i : List PlefPiece) : sumLoop c i [] = [] := by
  cases c <;> cases i <;> rfl

theorem curB_eq_left (p q : PlefPiece) (hle : q.start_x ≤ p.start_x) :
    (⟨p.start_x, p.start_y + q.eval p.start_x, p.slope + q.slope⟩ : PlefPiece) =
      ⟨max p.start_x q.start_x,
        p.eval (max p.start_x q.start_x) + q.eval (max p.start_x q.start_x),
        p.slope + q.slope⟩ := by
  rw [max_eq_left hle, eval_self]

theorem curB_eq_right (p q : PlefPiece) (hlt : p.start_x < q.start_x) :
    (⟨q.start_x, q.start_y + p.eval q.start_x, p.slope + q.slope⟩ : PlefPiece) =
      ⟨max p.start_x q.start_x,
        p.eval (max p.start_x q.start_x) + q.eval (max p.start_x q.start_x),
        p.slope + q.slope⟩ := by
  rw [max_eq_right (le_of_lt hlt), eval_self, add_comm (p.eval q.start_x) q.start_y]

theorem sumLoop_cons_cons (c : ℕ) (p : PlefPiece) (is : List PlefPiece)
    (q : PlefPiece) (js : List PlefPiece) :
    sumLoop (c + 1) (p :: is) (q :: js) =
      if q.start_x ≤ p.start_x then
        (if p.start_x = q.start_x then sumLoop c is js
         else sumLoop c is (q :: js)) ++
          [⟨p.start_x, p.start_y + q.eval p.start_x, p.slope + q.slope⟩]
      else
        sumLoop c (p :: is) js ++
          [⟨q.start_x, q.start_y + p.eval q.start_x, p.slope + q.slope⟩] := by
  rw [sumLoop]

theorem sumLoop_spec :
    ∀ (c : ℕ) (p : PlefPiece) (is : List PlefPiece) (q : PlefPiece)
      (js : List PlefPiece),
      List.Chain' RRel (p :: is) → List.Chain' RRel (q :: js) →
      (∀ a ∈ p :: is, 0 ≤ a.start_x) → (∀ b ∈ q :: js, 0 ≤ b.start_x) →
      (∃ rec, sumLoop (c + 1) (p :: is) (q :: js) = rec ++
          [⟨max p.start_x q.start_x,
            p.eval (max p.start_x q.start_x) + q.eval (max p.start_x q.start_x),
            p.slope + q.slope⟩]) ∧
      List.Chain' SRel (sumLoop (c + 1) (p :: is) (q :: js)) ∧
      ∀ e ∈ sumLoop (c + 1) (p :: is) (q :: js),
        e.start_x ≤ max p.start_x q.start_x ∧ p.slope + q.slope ≤ e.slope ∧
        0 ≤ e.start_x := by
  intro c
  induction c with
  | zero =>
    intro p is q js hi hj h0i h0j
    rw [sumLoop_cons_cons]
    by_cases hle : q.start_x ≤ p.start_x
    · rw [if_pos hle]
      have hz : (if p.start_x = q.start_x then sumLoop 0 is js
          else sumLoop 0 is (q :: js)) = [] := by
        split_ifs <;> exact sumLoop_zero_fuel _ _
      rw [hz, List.nil_append]
      refine ⟨⟨[], by rw [List.nil_append, curB_eq_left p q hle]⟩,
        List.chain'_singleton _, ?_⟩
      intro e he
      rw [List.mem_singleton] at he
      subst he
      exact ⟨le_max_left _ _, le_refl _, h0i p (List.mem_cons_self _ _)⟩
    · rw [if_neg hle, sumLoop_zero_fuel, List.nil_append]
      refine ⟨⟨[], by rw [List.nil_append,
        curB_eq_right p q (lt_of_not_le hle)]⟩, List.chain'_singleton _, ?_⟩
      intro e he
      rw [List.mem_singleton] at he
      subst he
      exact ⟨le_max_right _ _, le_refl _, h0j q (List.mem_cons_self _ _)⟩
  | succ c ih =>
    intro p is q js hi hj h0i h0j
    rw [sumLoop_cons_cons]
    by_cases hle : q.start_x ≤ p.start_x
    · rw [if_pos hle]
      by_cases htie : p.start_x = q.start_x
      · rw [if_pos htie]
        rcases is with _ | ⟨p', is'⟩
        · rw [sumLoop_nil_left, List.nil_append]
          refine ⟨⟨[], by rw [List.nil_append, curB_eq_left p q hle]⟩,
            List.chain'_singleton _, ?_⟩
          intro e he
          rw [List.mem_singleton] at he
          subst he
          exact ⟨le_max_left _ _, le_refl _, h0i p (List.mem_cons_self _ _)⟩
        · rcases js with _ | ⟨q', js'⟩
          · rw [sumLoop_nil_right, List.nil_append]
            refine ⟨⟨[], by rw [List.nil_append, curB_eq_left p q hle]⟩,
              List.chain'_singleton _, ?_⟩
            intro e he
            rw [List.mem_singleton] at he
            subst he
            exact ⟨le_max_left _ _, le_refl _, h0i p (List.mem_cons_self _ _)⟩
          · obtain ⟨hPP, hi'⟩ := List.chain'_cons.mp hi
            obtain ⟨hQQ, hj'⟩ := List.chain'_cons.mp hj
            obtain ⟨⟨rec', heq'⟩, hchain', hbound'⟩ := ih p' is' q' js' hi' hj'
              (fun a ha => h0i a (List.mem_cons_of_mem _ ha))
              (fun b hb => h0j b (List.mem_cons_of_mem _ hb))
            have hxlt : max p'.start_x q'.start_x < p.start_x := by
              refine max_lt hPP.1 ?_
              rw [htie]
              exact hQQ.1
            have hslt : p.slope + q.slope ≤ p'.slope + q'.slope :=
              add_le_add hPP.2.1 hQQ.2.1
            have hlink : SRel
                ⟨max p'.start_x q'.start_x,
                  p'.eval (max p'.start_x q'.start_x) +
                    q'.eval (max p'.start_x q'.start_x),
                  p'.slope + q'.slope⟩
                ⟨p.start_x, p.start_y + q.eval p.start_x,
                  p.slope + q.slope⟩ := by
              refine ⟨hxlt, hslt, ?_⟩
              have hcontP := hPP.2.2
              have hcontQ := hQQ.2.2
              simp only [PlefPiece.eval] at hcontP hcontQ ⊢
              linear_combination hcontP + hcontQ + (q.slope - q'.slope) * htie
            refine ⟨⟨sumLoop (c + 1) (p' :: is') (q' :: js'),
              by rw [curB_eq_left p q hle]⟩, ?_, ?_⟩
            · rw [List.chain'_append]
              refine ⟨hchain', List.chain'_singleton _, ?_⟩
              intro x hx y hy
              rw [heq', List.getLast?_concat, Option.mem_some_iff] at hx
              rw [List.head?_cons, Option.mem_some_iff] at hy
              subst hx
              subst hy
              exact hlink
            · intro e he
              rcases List.mem_append.mp he with he' | he'
              · obtain ⟨hb1, hb2, hb3⟩ := hbound' e he'
                refine ⟨le_trans hb1 (le_trans (le_of_lt hxlt)
                  (le_max_left _ _)), le_trans hslt hb2, hb3⟩
              · rw [List.mem_singleton] at he'
                subst he'
                exact ⟨le_max_left _ _, le_refl _,
                  h0i p (List.mem_cons_self _ _)⟩
      · rw [if_neg htie]
        have hqlt : q.start_x < p.start_x := lt_of_le_of_ne hle
          (fun h => htie h.symm)
        rcases is with _ | ⟨p', is'⟩
        · rw [sumLoop_nil_left, List.nil_append]
          refine ⟨⟨[], by rw [List.nil_append, curB_eq_left p q hle]⟩,
            List.chain'_singleton _, ?_⟩
          intro e he
          rw [List.mem_singleton] at he
          subst he
          exact ⟨le_max_left _ _, le_refl _, h0i p (List.mem_cons_self _ _)⟩
        · obtain ⟨hPP, hi'⟩ := List.chain'_cons.mp hi
          obtain ⟨⟨rec', heq'⟩, hchain', hbound'⟩ := ih p' is' q js hi' hj
            (fun a ha => h0i a (List.mem_cons_of_mem _ ha)) h0j
          have hxlt : max p'.start_x q.start_x < p.start_x :=
            max_lt hPP.1 hqlt
          have hslt : p.slope + q.slope ≤ p'.slope + q.slope :=
            add_le_add_right hPP.2.1 _
          have hlink : SRel
              ⟨max p'.start_x q.start_x,
                p'.eval (max p'.start_x q.start_x) +
                  q.eval (max p'.start_x q.start_x),
                p'.slope + q.slope⟩
              ⟨p.start_x, p.start_y + q.eval p.start_x,
                p.slope + q.slope⟩ := by
            refine ⟨hxlt, hslt, ?_⟩
            have hcontP := hPP.2.2
            simp only [PlefPiece.eval] at hcontP ⊢
            linear_combination hcontP
          refine ⟨⟨sumLoop (c + 1) (p' :: is') (q :: js),
            by rw [curB_eq_left p q hle]⟩, ?_, ?_⟩
          · rw [List.chain'_append]
            refine ⟨hchain', List.chain'_singleton _, ?_⟩
            intro x hx y hy
            rw [heq', List.getLast?_concat, Option.mem_some_iff] at hx
            rw [List.head?_cons, Option.mem_some_iff] at hy
            subst hx
            subst hy
            exact hlink
          · intro e he
            rcases List.mem_append.mp he with he' | he'
            · obtain ⟨hb1, hb2, hb3⟩ := hbound' e he'
              refine ⟨le_trans hb1 (le_trans (le_of_lt hxlt)
                (le_max_left _ _)), le_trans hslt hb2, hb3⟩
            · rw [List.mem_singleton] at he'
              subst he'
              exact ⟨le_max_left _ _, le_refl _,
                h0i p (List.mem_cons_self _ _)⟩
    · rw [if_neg hle]
      have hplt : p.start_x < q.start_x := lt_of_not_le hle
      rcases js with _ | ⟨q', js'⟩
      · rw [sumLoop_nil_right, List.nil_append]
        refine ⟨⟨[], by rw [List.nil_append, curB_eq_right p q hplt]⟩,
          List.chain'_singleton _, ?_⟩
        intro e he
        rw [List.mem_singleton] at he
        subst he
        exact ⟨le_max_right _ _, le_refl _, h0j q (List.mem_cons_self _ _)⟩
      · obtain ⟨hQQ, hj'⟩ := List.chain'_cons.mp hj
        obtain ⟨⟨rec', heq'⟩, hchain', hbound'⟩ := ih p is q' js' hi hj'
          h0i (fun b hb => h0j b (List.mem_cons_of_mem _ hb))
        have hxlt : max p.start_x q'.start_x < q.start_x :=
          max_lt hplt hQQ.1
        have hslt : p.slope + q.slope ≤ p.slope + q'.slope :=
          add_le_add_left hQQ.2.1 _
        have hlink : SRel
            ⟨max p.start_x q'.start_x,
              p.eval (max p.start_x q'.start_x) +
                q'.eval (max p.start_x q'.start_x),
              p.slope + q'.slope⟩
            ⟨q.start_x, q.start_y + p.eval q.start_x,
              p.slope + q.slope⟩ := by
          refine ⟨hxlt, hslt, ?_⟩
          have hcontQ := hQQ.2.2
          simp only [PlefPiece.eval] at hcontQ ⊢
          linear_combination hcontQ
        refine ⟨⟨sumLoop (c + 1) (p :: is) (q' :: js'),
          by rw [curB_eq_right p q hplt]⟩, ?_, ?_⟩
        · rw [List.chain'_append]
          refine ⟨hchain', List.chain'_singleton _, ?_⟩
          intro x hx y hy
          rw [heq', List.getLast?_concat, Option.mem_some_iff] at hx
          rw [List.head?_cons, Option.mem_some_iff] at hy
          subst hx
          subst hy
          exact hlink
        · intro e he
          rcases List.mem_append.mp he with he' | he'
          · obtain ⟨hb1, hb2, hb3⟩ := hbound' e he'
            refine ⟨le_trans hb1 (le_trans (le_of_lt hxlt)
              (le_max_right _ _)), le_trans hslt hb2, hb3⟩
          · rw [List.mem_singleton] at he'
            subst he'
            exact ⟨le_max_right _ _, le_refl _,
              h0j q (List.mem_cons_self _ _)⟩

theorem plefInv_nonneg {l : List PlefPiece} (h : PlefInv l) :
    ∀ e ∈ l, 0 ≤ e.start_x := by
  obtain ⟨hlt, hhead, -, -⟩ := h
  cases l with
  | nil => intro e he; cases he
  | cons hd t =>
    have hhd : hd.start_x = 0 := hhead
    intro e he
    rcases List.mem_cons.mp he with rfl | he'
    · rw [hhd]
    · haveI : IsTrans PlefPiece (fun p q => p.start_x < q.start_x) :=
        ⟨fun a b c h1 h2 => lt_trans h1 h2⟩
      have hpw := List.chain'_iff_pairwise.mp hlt
      have := (List.pairwise_cons.mp hpw).1 e he'
      rw [hhd] at this
      exact le_of_lt this

theorem plefInv_nil : PlefInv [] := ⟨List.chain'_nil, rfl, List.chain'_nil, List.chain'_nil⟩

theorem extendFront_plefInv {l : List PlefPiece} (hc : List.Chain' SRel l)
    (h0 : ∀ e ∈ l, 0 ≤ e.start_x) (hne : l ≠ []) : PlefInv (extendFront l) := by
  cases l with
  | nil => exact absurd rfl hne
  | cons p rest =>
    rw [extendFront]
    by_cases hp : 0 < p.start_x
    · rw [if_pos hp]
      rw [plefInv_iff]
      refine ⟨?_, rfl⟩
      cases rest with
      | nil => exact List.chain'_singleton _
      | cons b rest' =>
        obtain ⟨hpb, hrest⟩ := List.chain'_cons.mp hc
        refine List.chain'_cons.mpr ⟨⟨lt_trans hp hpb.1, hpb.2.1, ?_⟩, hrest⟩
        have hy := hpb.2.2
        simp only [PlefPiece.eval] at hy ⊢
        linear_combination hy
    · rw [if_neg hp]
      rw [plefInv_iff]
      refine ⟨hc, ?_⟩
      exact le_antisymm (le_of_not_lt hp) (h0 p (List.mem_cons_self _ _))

/-- `Plef::sum` preserves the full PLEF invariant. -/
theorem sum_plefInv {f g : Plef} (hf : PlefInv f.pieces) (hg : PlefInv g.pieces)
    (mp : Option ℕ) : PlefInv ((f.sum g mp).pieces) := by
  rw [Plef.sum]
  by_cases hgn : g.pieces = []
  · rw [if_pos hgn]
    exact hf
  · rw [if_neg hgn]
    by_cases hfn : f.pieces = []
    · rw [if_pos hfn]
      exact hg
    · rw [if_neg hfn]
      obtain ⟨p, is, hpi⟩ := List.exists_cons_of_ne_nil
        (fun hnil => hfn (List.reverse_eq_nil_iff.mp hnil))
      obtain ⟨q, js, hqj⟩ := List.exists_cons_of_ne_nil
        (fun hnil => hgn (List.reverse_eq_nil_iff.mp hnil))
      cases hcf : mp.getD 10 with
      | zero =>
        rw [sumLoop_zero_fuel]
        exact plefInv_nil
      | succ cf =>
        rw [hpi, hqj]
        have hi : List.Chain' RRel (p :: is) := by
          rw [← hpi]
          exact (chain'_rRel_reverse _).mpr ((plefInv_iff _).mp hf).1
        have hj : List.Chain' RRel (q :: js) := by
          rw [← hqj]
          exact (chain'_rRel_reverse _).mpr ((plefInv_iff _).mp hg).1
        have h0i : ∀ a ∈ p :: is, 0 ≤ a.start_x := by
          rw [← hpi]
          intro a ha
          exact plefInv_nonneg hf a (List.mem_reverse.mp ha)
        have h0j : ∀ b ∈ q :: js, 0 ≤ b.start_x := by
          rw [← hqj]
          intro b hb
          exact plefInv_nonneg hg b (List.mem_reverse.mp hb)
        obtain ⟨⟨rec, heq⟩, hchain, hbound⟩ := sumLoop_spec cf p is q js hi hj h0i h0j
        refine extendFront_plefInv hchain ?_ ?_
        · intro e he
          exact (hbound e he).2.2
        · rw [heq]
          simp

theorem suffix_getLast? {l1 l2 : List PlefPiece} (h : l1 <:+ l2) (hne : l1 ≠ []) :
    l1.getLast? = l2.getLast? := by
  obtain ⟨t, rfl⟩ := h
  rw [List.getLast?_append]
  cases hl : l1.getLast? with
  | none => exact absurd (List.getLast?_eq_none_iff.mp hl) hne
  | some a => rfl

theorem infLoop_spec (other : PlefPiece) :
    ∀ (l : List PlefPiece) (xi0 : ℚ),
      (∃ m, (infLoop other l xi0).1 = l.drop m ∧
        ∀ p ∈ l.take m,
          (other.start_x * other.slope - p.start_x * p.slope -
            (other.start_y - p.start_y)) / (other.slope - p.slope) ≤
            p.start_x) ∧
      (∀ p rest', (infLoop other l xi0).1 = p :: rest' →
        p.start_x < (infLoop other l xi0).2 ∧
        (infLoop other l xi0).2 =
          (other.start_x * other.slope - p.start_x * p.slope -
            (other.start_y - p.start_y)) / (other.slope - p.slope)) ∧
      ((infLoop other l xi0).1 = [] →
        (l = [] ∧ (infLoop other l xi0).2 = xi0) ∨
        ∃ q, l.getLast? = some q ∧
          (infLoop other l xi0).2 =
            (other.start_x * other.slope - q.start_x * q.slope -
              (other.start_y - q.start_y)) / (other.slope - q.slope) ∧
          (infLoop other l xi0).2 ≤ q.start_x) := by
  intro l
  induction l with
  | nil =>
    intro xi0
    refine ⟨⟨0, rfl, by simp⟩, ?_, ?_⟩
    · intro p rest' h
      cases h
    · intro _
      exact Or.inl ⟨rfl, rfl⟩
  | cons p rest ih =>
    intro xi0
    rw [infLoop]
    by_cases hbr : p.start_x < (other.start_x * other.slope -
        p.start_x * p.slope - (other.start_y - p.start_y)) /
        (other.slope - p.slope)
    · rw [if_pos hbr]
      refine ⟨⟨0, rfl, by simp⟩, ?_, ?_⟩
      · intro p' rest'' h
        obtain ⟨rfl, rfl⟩ := List.cons.inj h
        exact ⟨hbr, rfl⟩
      · intro h
        cases h
    · rw [if_neg hbr]
      obtain ⟨⟨m, hm, hpop⟩, hbreak, hempty⟩ := ih ((other.start_x * other.slope -
        p.start_x * p.slope - (other.start_y - p.start_y)) /
        (other.slope - p.slope))
      refine ⟨⟨m + 1, hm, ?_⟩, hbreak, ?_⟩
      · intro p' hp'
        rw [List.take_succ_cons] at hp'
        rcases List.mem_cons.mp hp' with rfl | hp''
        · exact le_of_not_lt hbr
        · exact hpop p' hp''
      intro h
      rcases hempty h with ⟨rfl, hxi⟩ | ⟨q, hq, hxi, hle⟩
      · refine Or.inr ⟨p, rfl, hxi, ?_⟩
        rw [hxi]
        exact le_of_not_lt hbr
      · refine Or.inr ⟨q, ?_, hxi, hle⟩
        rw [List.getLast?_cons, hq]
        rfl

theorem head_start_x_zero {f : Plef} (hinv : PlefInv f.pieces) {q : PlefPiece}
    (hq : f.pieces.head? = some q) : q.start_x = 0 := by
  cases hp : f.pieces with
  | nil => rw [hp] at hq; cases hq
  | cons a tl =>
    rw [hp, List.head?_cons, Option.some.injEq] at hq
    have := hinv.2.1
    rw [hp] at this
    rw [← hq]
    exact this

theorem infLoop_push_plefInv {f : Plef} {other : PlefPiece}
    (hinv : PlefInv f.pieces)
    {L : List PlefPiece} (hsuf : L <:+ f.pieces.reverse)
    (hslt : ∀ p ∈ L, other.slope < p.slope)
    (h0 : ∀ q, f.pieces.head? = some q → q.start_y ≤ other.eval 0) :
    PlefInv ((PlefPiece.mk (infLoop other L 0).2
      (other.eval (infLoop other L 0).2) other.slope ::
        (infLoop other L 0).1).reverse) := by
  obtain ⟨⟨m, hm, -⟩, hbreak, hempty⟩ := infLoop_spec other L 0
  have hchainRev : List.Chain' RRel f.pieces.reverse :=
    (chain'_rRel_reverse _).mpr ((plefInv_iff _).mp hinv).1
  cases hr1 : (infLoop other L 0).1 with
  | nil =>
    have hxi0 : (infLoop other L 0).2 = 0 := by
      rcases hempty hr1 with ⟨hLnil, hxi⟩ | ⟨q, hqlast, hxi, hle⟩
      · exact hxi
      · have hLne : L ≠ [] := by
          rintro rfl
          cases hqlast
        have hqmem : q ∈ L := List.mem_of_getLast?_eq_some hqlast
        have hqslope := hslt q hqmem
        have hqhead : f.pieces.head? = some q := by
          rw [← List.getLast?_reverse, ← suffix_getLast? hsuf hLne]
          exact hqlast
        have hq0 := h0 q hqhead
        have hqx : q.start_x = 0 := head_start_x_zero hinv hqhead
        have hnum : other.start_x * other.slope - q.start_x * q.slope -
            (other.start_y - q.start_y) ≤ 0 := by
          rw [hqx]
          simp only [PlefPiece.eval] at hq0
          linarith
        have hden : other.slope - q.slope < 0 := by linarith
        have hxige : 0 ≤ (infLoop other L 0).2 := by
          rw [hxi]
          exact div_nonneg_iff.mpr (Or.inr ⟨hnum, le_of_lt hden⟩)
        have hxile : (infLoop other L 0).2 ≤ 0 := by
          have hle' := hle
          rw [hqx] at hle'
          exact hle'
        linarith
    rw [plefInv_iff]
    constructor
    · exact List.chain'_singleton _
    · rw [List.reverse_singleton]
      exact hxi0
  | cons p rest' =>
    obtain ⟨hpxi, hxieq⟩ := hbreak p rest' hr1
    have hr1suf : (p :: rest') <:+ L := by
      rw [← hr1, hm]
      exact List.drop_suffix m L
    have hpmem : p ∈ L := hr1suf.subset (List.mem_cons_self _ _)
    have hchainL : List.Chain' RRel (p :: rest') :=
      (hchainRev.suffix (hr1suf.trans hsuf))
    have hslope : other.slope < p.slope := hslt p hpmem
    have hne' : other.slope - p.slope ≠ 0 := sub_ne_zero.mpr (ne_of_lt hslope)
    have hxieq' : (infLoop other L 0).2 * (other.slope - p.slope) =
        other.start_x * other.slope - p.start_x * p.slope -
          (other.start_y - p.start_y) := by
      rw [hxieq]
      exact div_mul_cancel₀ _ hne'
    rw [List.reverse_cons]
    rw [plefInv_iff]
    constructor
    · rw [List.chain'_append]
      refine ⟨?_, List.chain'_singleton _, ?_⟩
      · have : List.Chain' RRel ((p :: rest').reverse.reverse) := by
          rw [List.reverse_reverse]
          exact hchainL
        exact (chain'_rRel_reverse _).mp this
      · intro x hx y hy
        rw [List.getLast?_reverse, List.head?_cons, Option.mem_some_iff] at hx
        rw [List.head?_cons, Option.mem_some_iff] at hy
        subst hx
        subst hy
        refine ⟨hpxi, le_of_lt hslope, ?_⟩
        simp only [PlefPiece.eval]
        simp only [PlefPiece.eval] at hxieq'
        linear_combination hxieq'
    · have hlastq : ∃ q, f.pieces.head? = some q := by
        cases hp : f.pieces with
        | nil =>
          exfalso
          have h1 := hr1suf.trans hsuf
          rw [hp] at h1
          cases List.suffix_nil.mp h1
        | cons a tl => exact ⟨a, rfl⟩
      obtain ⟨q, hqhead⟩ := hlastq
      have hlast : (p :: rest').getLast? = some q := by
        rw [suffix_getLast? (hr1suf.trans hsuf) (by simp), List.getLast?_reverse]
        exact hqhead
      have hqx : q.start_x = 0 := head_start_x_zero hinv hqhead
      rw [List.headD_eq_head?_getD, List.head?_append, List.head?_reverse, hlast]
      exact hqx

theorem infimum_plefInv {f : Plef} {other : PlefPiece} {g : Plef} {xi : WithTop ℚ}
    (hinv : PlefInv f.pieces)
    (hstrict : List.Chain' (fun p q => q.slope < p.slope) f.pieces)
    (hne : f.pieces ≠ [])
    (hsl : ∀ p ∈ f.pieces, other.slope ≤ p.slope)
    (h0 : ∀ q, f.pieces.head? = some q → q.start_y ≤ other.eval 0)
    (hres : f.infimum other = some (g, xi)) :
    PlefInv g.pieces := by
  obtain ⟨last, rest, hrev⟩ := List.exists_cons_of_ne_nil
    (fun hnil => hne (List.reverse_eq_nil_iff.mp hnil))
  have hlastmem : last ∈ f.pieces := by
    rw [← List.mem_reverse, hrev]
    exact List.mem_cons_self _ _
  have hasc : List.Chain' (fun a b : PlefPiece => a.slope < b.slope)
      f.pieces.reverse := by
    rw [List.chain'_reverse]
    exact hstrict
  haveI : IsTrans PlefPiece (fun a b : PlefPiece => a.slope < b.slope) :=
    ⟨fun a b c h1 h2 => lt_trans h1 h2⟩
  have hrestslope : ∀ p ∈ rest, last.slope < p.slope := by
    have hpw := List.chain'_iff_pairwise.mp hasc
    rw [hrev] at hpw
    exact (List.pairwise_cons.mp hpw).1
  have hrestmem : ∀ p ∈ rest, p ∈ f.pieces := by
    intro p hp
    rw [← List.mem_reverse, hrev]
    exact List.mem_cons_of_mem _ hp
  rw [Plef.infimum, hrev] at hres
  dsimp only at hres
  split_ifs at hres with heq h1 h2
  · rw [Option.some.injEq, Prod.mk.injEq] at hres
    rw [← hres.1]
    exact hinv
  · rw [Option.some.injEq, Prod.mk.injEq] at hres
    rw [← hres.1]
    exact hinv
  · rw [Option.some.injEq, Prod.mk.injEq] at hres
    rw [← hres.1]
    refine infLoop_push_plefInv hinv ?_ ?_ h0
    · rw [hrev]
      exact List.suffix_cons _ _
    · intro p hp
      rw [heq]
      exact hrestslope p hp
  · rw [Option.some.injEq, Prod.mk.injEq] at hres
    rw [← hres.1]
    refine infLoop_push_plefInv hinv ?_ ?_ h0
    · rw [hrev]
    · intro p hp
      rcases List.mem_cons.mp hp with rfl | hp'
      · exact lt_of_le_of_ne (hsl p hlastmem) heq
      · exact lt_of_le_of_lt (hsl last hlastmem) (hrestslope p hp')

/-- C6 (amended): `Plef::sum` of two PLEFs satisfying the invariants again
satisfies all four invariants (start_x strictly increasing, leading
start_x = 0, slopes non-increasing, continuity), for every `max_pieces`
bound.  `Plef::infimum` preserves the invariants under the strengthened
hypotheses that the slopes are strictly decreasing, the affine piece's slope
is at most every slope of the PLEF, and the affine piece does not lie
strictly below the PLEF at λ = 0 — without the last hypothesis the mutated
PLEF can acquire a negative leading `start_x` (see the counterexample). -/
theorem spec_c6_invariant_preservation :
    (∀ (f g : Plef) (mp : Option ℕ), PlefInv f.pieces → PlefInv g.pieces →
      PlefInv ((f.sum g mp).pieces)) ∧
    ∀ (f : Plef) (other : PlefPiece) (g : Plef) (xi : WithTop ℚ),
      PlefInv f.pieces →
      List.Chain' (fun p q => q.slope < p.slope) f.pieces →
      f.pieces ≠ [] →
      (∀ p ∈ f.pieces, other.slope ≤ p.slope) →
      (∀ q, f.pieces.head? = some q → q.start_y ≤ other.eval 0) →
      f.infimum other = some (g, xi) → PlefInv g.pieces :=
  ⟨fun _ _ mp hf hg => sum_plefInv hf hg mp,
    fun _ _ _ _ hinv hstrict hne hsl h0 hres =>
      infimum_plefInv hinv hstrict hne hsl h0 hres⟩

theorem c6inf_eval : (⟨[⟨0, 0, 1⟩]⟩ : Plef).infimum ⟨0, 1, 0⟩ =
    some (⟨[⟨0, 0, 1⟩, ⟨1, 1, 0⟩]⟩, ((1 : ℚ) : WithTop ℚ)) := by
  norm_num [Plef.infimum, infLoop, PlefPiece.eval]

/-- Witness for C6 at concrete single-piece inputs. -/
theorem spec_c6_witness :
    (PlefInv ([⟨0, 0, 2⟩] : List PlefPiece) ∧
      PlefInv ((Plef.sum ⟨[⟨0, 0, 2⟩]⟩ ⟨[⟨0, 1, 1⟩]⟩ none).pieces)) ∧
    (⟨[⟨0, 0, 1⟩]⟩ : Plef).infimum ⟨0, 1, 0⟩ =
      some (⟨[⟨0, 0, 1⟩, ⟨1, 1, 0⟩]⟩, ((1 : ℚ) : WithTop ℚ)) ∧
    PlefInv ([⟨0, 0, 1⟩, ⟨1, 1, 0⟩] : List PlefPiece) := by
  have hsingle : ∀ p : PlefPiece, p.start_x = 0 → PlefInv [p] := by
    intro p hp
    exact ⟨List.chain'_singleton _, hp, List.chain'_singleton _,
      List.chain'_singleton _⟩
  refine ⟨⟨hsingle _ rfl, spec_c6_invariant_preservation.1 ⟨[⟨0, 0, 2⟩]⟩
    ⟨[⟨0, 1, 1⟩]⟩ none (hsingle _ rfl) (hsingle _ rfl)⟩, c6inf_eval, ?_⟩
  exact spec_c6_invariant_preservation.2 ⟨[⟨0, 0, 1⟩]⟩ ⟨0, 1, 0⟩
    ⟨[⟨0, 0, 1⟩, ⟨1, 1, 0⟩]⟩ ((1 : ℚ) : WithTop ℚ) (hsingle _ rfl)
    (List.chain'_singleton _) (by simp)
    (by intro p hp; rcases List.mem_singleton.mp hp with rfl; norm_num)
    (by intro q hq; cases hq; norm_num [PlefPiece.eval]) c6inf_eval

/-! ## C2: the bookkeeping of each fusion -/

theorem getD_append_lt {α : Type} (l l2 : List α) (i : ℕ) (d : α)
    (h : i < l.length) : (l ++ l2).getD i d = l.getD i d := by
  rw [List.getD_eq_getElem?_getD, List.getElem?_append_left h,
    ← List.getD_eq_getElem?_getD]

theorem getD_append_len {α : Type} (l : List α) (x : α) (d : α) :
    (l ++ [x]).getD l.length d = x := by
  rw [List.getD_eq_getElem?_getD, List.getElem?_append_right (le_refl _)]
  simp

/-- The merge-log invariant: levels and nodes stay in step, and every logged
fusion's node carries exactly the merged area, the merged perimeter minus
twice the fused edge length, and the popped weight as its level. -/
def LogInv (s : BptState) : Prop :=
  s.levels.length = s.nodes.length ∧
  ∀ r ∈ s.log,
    r.a < s.nodes.length ∧ r.b < s.nodes.length ∧ r.m < s.nodes.length ∧
    (s.nodes.getD r.m default).area =
      (s.nodes.getD r.a default).area + (s.nodes.getD r.b default).area ∧
    (s.nodes.getD r.m default).perimeter =
      (s.nodes.getD r.a default).perimeter +
        (s.nodes.getD r.b default).perimeter - 2 * r.len ∧
    s.levels.getD r.m 0 = r.weight

theorem bptLoop_logInv :
    ∀ (fuel : ℕ) (s t : BptState), bptLoop fuel s = .ok t →
      EndpointsLt s.nodes.length s.edges → LogInv s → LogInv t := by
  intro fuel
  induction fuel with
  | zero =>
    intro s t hok _ hlog
    rw [bptLoop] at hok
    cases hok
    exact hlog
  | succ fuel ih =>
    intro s t hok hep hlog
    rw [bptLoop] at hok
    cases hh : s.heap with
    | nil => rw [hh] at hok; cases hok; exact hlog
    | cons top heapRest =>
      obtain ⟨eid, w⟩ := top
      rw [hh] at hok
      dsimp only at hok
      by_cases hact : (s.edges.getD eid default).active = false
      · rw [if_pos hact] at hok
        exact ih { s with heap := heapRest } t hok hep hlog
      · rw [if_neg hact] at hok
        have heid : eid < s.edges.length := by
          by_contra hge
          rw [List.getD_eq_default _ _ (le_of_not_lt hge)] at hact
          exact hact rfl
        have hmeme : s.edges.getD eid default ∈ s.edges := getD_mem_of_lt heid
        have hsrc : (s.edges.getD eid default).src < s.nodes.length :=
          (hep _ hmeme).1
        have hdst : (s.edges.getD eid default).dst < s.nodes.length :=
          (hep _ hmeme).2
        have hep1 : EndpointsLt s.nodes.length
            (s.edges.set eid { s.edges.getD eid default with active := false }) :=
          endpointsLt_set_inactive eid hep
        split at hok
        · simp at hok
        · split at hok
          · simp at hok
          · rename_i neighbors hg
            have henum : ∀ ie ∈ (s.edges.set eid
                { src := (s.edges.getD eid default).src,
                  dst := (s.edges.getD eid default).dst,
                  weight := (s.edges.getD eid default).weight,
                  length := (s.edges.getD eid default).length,
                  active := false }).enum,
                ie.2.src < s.nodes.length ∧ ie.2.dst < s.nodes.length := by
              intro ie hie
              exact hep1 _ (mem_enum_snd hie)
            have hkeys : ∀ kv ∈ neighbors, kv.1 < s.nodes.length := by
              cases hg1 : gatherFrom (s.edges.getD eid default).src
                  (s.edges.getD eid default).dst
                  (s.edges.set eid
                    { src := (s.edges.getD eid default).src,
                      dst := (s.edges.getD eid default).dst,
                      weight := (s.edges.getD eid default).weight,
                      length := (s.edges.getD eid default).length,
                      active := false }).enum [] with
              | error q => rw [hg1] at hg; simp [Except.bind] at hg
              | ok acc1 =>
                rw [hg1] at hg
                simp only [Except.bind] at hg
                exact @gatherFrom_keys (fun k => k < s.nodes.length) _ _ _ _ _ hg
                  (@gatherFrom_keys (fun k => k < s.nodes.length) _ _ _ _ _ hg1
                    (by simp) henum) henum
            split at hok
            · simp at hok
            · rename_i plf xi hsome
              split at hok
              · simp at hok
              · rename_i edges2 heap2 hr
                refine ih _ t hok ?_ ?_
                · dsimp only
                  refine rewire_endpointsLt hr (by simp) ?_ ?_
                  · intro kv hkv
                    have := hkeys kv hkv
                    simp only [List.length_append, List.length_cons,
                      List.length_nil]
                    omega
                  · refine endpointsLt_mono hep1 ?_
                    simp only [List.length_append, List.length_cons,
                      List.length_nil]
                    omega
                · constructor
                  · dsimp only
                    have h1 := hlog.1
                    simp only [List.length_append, List.length_cons,
                      List.length_nil]
                    omega
                  · intro r hr'
                    dsimp only at hr' ⊢
                    rcases List.mem_append.mp hr' with hold | hnew
                    · obtain ⟨ha, hb, hm, harea, hperim, hlvl⟩ :=
                        hlog.2 r hold
                      refine ⟨by simp only [List.length_append,
                          List.length_cons, List.length_nil]; omega,
                        by simp only [List.length_append, List.length_cons,
                          List.length_nil]; omega,
                        by simp only [List.length_append, List.length_cons,
                          List.length_nil]; omega, ?_, ?_, ?_⟩
                      · rw [getD_append_lt _ _ _ _ hm, getD_append_lt _ _ _ _ ha,
                          getD_append_lt _ _ _ _ hb]
                        exact harea
                      · rw [getD_append_lt _ _ _ _ hm, getD_append_lt _ _ _ _ ha,
                          getD_append_lt _ _ _ _ hb]
                        exact hperim
                      · rw [getD_append_lt _ _ _ _ (hlog.1 ▸ hm)]
                        exact hlvl
                    · rcases List.mem_singleton.mp hnew with rfl
                      refine ⟨by simp only [List.length_append, List.length_cons,
                          List.length_nil]; omega,
                        by simp only [List.length_append, List.length_cons,
                          List.length_nil]; omega,
                        by simp, ?_, ?_, ?_⟩
                      · rw [getD_append_len, getD_append_lt _ _ _ _ hsrc,
                          getD_append_lt _ _ _ _ hdst]
                      · rw [getD_append_len, getD_append_lt _ _ _ _ hsrc,
                          getD_append_lt _ _ _ _ hdst]
                      · rw [← hlog.1]
                        exact getD_append_len s.levels w 0

/-- C2 (amended): every fusion recorded by `binary_partition_tree` satisfies
the bookkeeping equations `area_m = area_a + area_b`,
`perimeter_m = perimeter_a + perimeter_b − 2·length` (truncated ℕ
subtraction, as in the code) and `levels[m] = the popped weight`.  The
monotonicity half of the original claim — `levels[m] ≥ levels[a]`, i.e. the
merge levels in pop order are non-decreasing — is false; see the
counterexample, where the second popped weight 4/21 is smaller than the
first, 16/75. -/
theorem spec_c2_merge_bookkeeping (img : List (List (List ℕ)))
    (labels : List (List ℕ)) (fuel : ℕ) (t : BptState)
    (hok : bptLoop fuel (initBptState (graph_from_labels img labels)) = .ok t) :
    ∀ r ∈ t.log,
      r.m < t.nodes.length ∧
      (t.nodes.getD r.m default).area =
        (t.nodes.getD r.a default).area + (t.nodes.getD r.b default).area ∧
      (t.nodes.getD r.m default).perimeter =
        (t.nodes.getD r.a default).perimeter +
          (t.nodes.getD r.b default).perimeter - 2 * r.len ∧
      t.levels.getD r.m 0 = r.weight := by
  have hinv := bptLoop_logInv fuel _ t hok
    (fun e he => ⟨((graph_from_labels_wf img labels).2 e he).1,
      ((graph_from_labels_wf img labels).2 e he).2.1⟩)
    ⟨by simp [initBptState], fun r hr => absurd hr (List.not_mem_nil r)⟩
  intro r hr
  obtain ⟨-, -, hm, h4, h5, h6⟩ := hinv.2 r hr
  exact ⟨hm, h4, h5, h6⟩

/-- Witness for the amended C2 theorem on the counterexample instance: the
first logged fusion of the 3×2 run. -/
theorem spec_c2_witness :
    binary_partition_tree (graph_from_labels cexImg cexLabels) = .ok cexS3 ∧
    ((⟨1, 2, 3, 5, ((16/75 : ℚ) : WithTop ℚ)⟩ : MergeRec) ∈ cexS3.log ∧
      3 < cexS3.nodes.length ∧
      (cexS3.nodes.getD 3 default).area =
        (cexS3.nodes.getD 1 default).area + (cexS3.nodes.getD 2 default).area ∧
      (cexS3.nodes.getD 3 default).perimeter =
        (cexS3.nodes.getD 1 default).perimeter +
          (cexS3.nodes.getD 2 default).perimeter - 2 * 5 ∧
      cexS3.levels.getD 3 0 = ((16/75 : ℚ) : WithTop ℚ)) := by
  have hmem : (⟨1, 2, 3, 5, ((16/75 : ℚ) : WithTop ℚ)⟩ : MergeRec) ∈
      cexS3.log := by
    rw [show cexS3.log = [⟨1, 2, 3, 5, ((16/75 : ℚ) : WithTop ℚ)⟩,
      ⟨3, 0, 4, 2, ((4/21 : ℚ) : WithTop ℚ)⟩] from rfl]
    exact List.mem_cons_self _ _
  refine ⟨cex_run, hmem, ?_⟩
  exact spec_c2_merge_bookkeeping cexImg cexLabels
    (bptFuel (graph_from_labels cexImg cexLabels)) cexS3 cex_run
    ⟨1, 2, 3, 5, ((16/75 : ℚ) : WithTop ℚ)⟩ hmem

/-! ## C1: pointwise-minimum characterisation of `infimum` -/

theorem evalP_cons_lt (q : PlefPiece) (rest : List PlefPiece) (x : ℚ)
    (h : ∀ r', rest.head? = some r' → x < r'.start_x) :
    evalP (q :: rest) x = q.eval x := by
  cases rest with
  | nil => rfl
  | cons r' rest' =>
    rw [evalP, if_pos (h r' rfl)]

theorem evalP_min {ps : List PlefPiece} (hc : List.Chain' SRel ps) :
    ∀ (x : ℚ) (r : PlefPiece), r ∈ ps → evalP ps x ≤ r.eval x := by
  induction ps with
  | nil => intro x r hr; cases hr
  | cons p rest ih =>
    intro x r hr
    cases rest with
    | nil =>
      rcases List.mem_singleton.mp hr with rfl
      exact le_refl _
    | cons q rest' =>
      obtain ⟨hpq, hrest⟩ := List.chain'_cons.mp hc
      have hline : ∀ y : ℚ, q.eval y - p.eval y =
          (p.slope - q.slope) * (q.start_x - y) := by
        intro y
        have hy := hpq.2.2
        simp only [PlefPiece.eval] at hy ⊢
        linear_combination hy
      by_cases hx : x < q.start_x
      · rw [evalP, if_pos hx]
        rcases List.mem_cons.mp hr with rfl | hr'
        · exact le_refl _
        · have h1 : p.eval x ≤ q.eval x := by
            have := hline x
            nlinarith [mul_nonneg (sub_nonneg.mpr hpq.2.1) (le_of_lt (sub_pos.mpr hx))]
          have h2 : evalP (q :: rest') x = q.eval x := by
            refine evalP_cons_lt q rest' x ?_
            intro r'' hr''
            cases rest' with
            | nil => cases hr''
            | cons s rest'' =>
              rw [List.head?_cons, Option.some.injEq] at hr''
              subst hr''
              exact lt_trans hx (List.chain'_cons.mp hrest).1.1
          calc p.eval x ≤ q.eval x := h1
            _ = evalP (q :: rest') x := h2.symm
            _ ≤ r.eval x := ih hrest x r hr'
      · rw [evalP, if_neg hx]
        rcases List.mem_cons.mp hr with rfl | hr'
        · have h1 : q.eval x ≤ r.eval x := by
            have := hline x
            nlinarith [mul_nonneg (sub_nonneg.mpr hpq.2.1)
              (sub_nonneg.mpr (le_of_not_lt hx))]
          calc evalP (q :: rest') x ≤ q.eval x :=
              ih hrest x q (List.mem_cons_self _ _)
            _ ≤ r.eval x := h1
        · exact ih hrest x r hr'

theorem evalP_attained :
    ∀ (ps : List PlefPiece), ps ≠ [] → ∀ x : ℚ,
      ∃ p ∈ ps, evalP ps x = p.eval x := by
  intro ps
  induction ps with
  | nil => intro h; exact absurd rfl h
  | cons p rest ih =>
    intro _ x
    cases rest with
    | nil => exact ⟨p, List.mem_cons_self _ _, rfl⟩
    | cons q rest' =>
      by_cases hx : x < q.start_x
      · rw [evalP, if_pos hx]
        exact ⟨p, List.mem_cons_self _ _, rfl⟩
      · rw [evalP, if_neg hx]
        obtain ⟨r, hrmem, hre⟩ := ih (by simp) x
        exact ⟨r, List.mem_cons_of_mem _ hrmem, hre⟩

theorem evalP_last {ps : List PlefPiece}
    (hc : List.Chain' (fun a b : PlefPiece => a.start_x < b.start_x) ps)
    {p : PlefPiece} (hlast : ps.getLast? = some p) {x : ℚ}
    (hx : p.start_x ≤ x) : evalP ps x = p.eval x := by
  induction ps with
  | nil => cases hlast
  | cons a rest ih =>
    cases rest with
    | nil =>
      rw [List.getLast?_singleton, Option.some.injEq] at hlast
      subst hlast
      rfl
    | cons b rest' =>
      obtain ⟨hab, hrest⟩ := List.chain'_cons.mp hc
      have hlast' : (b :: rest').getLast? = some p := by
        rw [List.getLast?_cons_cons] at hlast
        exact hlast
      have hpmem : p ∈ b :: rest' := List.mem_of_getLast?_eq_some hlast'
      have hbx : b.start_x ≤ p.start_x := by
        haveI : IsTrans PlefPiece (fun a b : PlefPiece =>
            a.start_x < b.start_x) := ⟨fun a b c h1 h2 => lt_trans h1 h2⟩
        rcases List.mem_cons.mp hpmem with rfl | hp'
        · exact le_refl _
        · have hpw := List.chain'_iff_pairwise.mp hrest
          exact le_of_lt ((List.pairwise_cons.mp hpw).1 p hp')
      rw [evalP, if_neg (not_lt.mpr (le_trans hbx hx))]
      exact ih hrest hlast'

theorem evalP_append_lt :
    ∀ (l1 l2 : List PlefPiece) (x : ℚ), l1 ≠ [] →
      (∀ r ∈ l2, x < r.start_x) →
      evalP (l1 ++ l2) x = evalP l1 x := by
  intro l1
  induction l1 with
  | nil => intro l2 x h; exact absurd rfl h
  | cons p rest ih =>
    intro l2 x _ hl2
    cases rest with
    | nil =>
      cases l2 with
      | nil => rfl
      | cons r l2' =>
        show evalP (p :: r :: l2') x = p.eval x
        rw [evalP, if_pos (hl2 r (List.mem_cons_self _ _))]
    | cons q rest' =>
      show evalP (p :: q :: (rest' ++ l2)) x = evalP (p :: q :: rest') x
      rw [evalP, evalP]
      by_cases hx : x < q.start_x
      · rw [if_pos hx, if_pos hx]
      · rw [if_neg hx, if_neg hx]
        exact ih l2 x (by simp) hl2

theorem chain_desc_ge :
    ∀ (l : List PlefPiece) (a : PlefPiece), List.Chain' RRel (a :: l) →
      ∀ x : ℚ, a.start_x ≤ x → ∀ p ∈ l, a.eval x ≤ p.eval x := by
  intro l
  induction l with
  | nil => intro a _ x _ p hp; cases hp
  | cons v l' ih =>
    intro a hc x hx p hp
    obtain ⟨hav, hrest⟩ := List.chain'_cons.mp hc
    have h1 : a.eval x ≤ v.eval x := by
      have hy := hav.2.2
      simp only [PlefPiece.eval] at hy ⊢
      nlinarith [mul_nonneg (sub_nonneg.mpr hav.2.1) (sub_nonneg.mpr hx)]
    rcases List.mem_cons.mp hp with rfl | hp'
    · exact h1
    · exact le_trans h1 (ih v hrest x (le_trans (le_of_lt hav.1) hx) p hp')

theorem chain_before_ge :
    ∀ (l1 : List PlefPiece) (a : PlefPiece) (l2 : List PlefPiece),
      List.Chain' RRel (l1 ++ a :: l2) →
      ∀ x : ℚ, (∀ d ∈ l1, x ≤ d.start_x) → ∀ p ∈ l1, a.eval x ≤ p.eval x := by
  intro l1
  induction l1 with
  | nil => intro a l2 _ x _ p hp; cases hp
  | cons d l1' ih =>
    intro a l2 hc x hxd p hp
    have hstep : ∀ u, (l1' ++ a :: l2).head? = some u →
        RRel d u ∧ List.Chain' RRel (l1' ++ a :: l2) := by
      intro u hu
      rw [List.cons_append] at hc
      obtain ⟨hdu, hrest⟩ := List.chain'_cons'.mp hc
      exact ⟨hdu u hu, hrest⟩
    cases hl1' : l1' with
    | nil =>
      have hu := hstep a (by rw [hl1']; rfl)
      have h1 : a.eval x ≤ d.eval x := by
        have hy := hu.1.2.2
        simp only [PlefPiece.eval] at hy ⊢
        nlinarith [mul_nonneg (sub_nonneg.mpr hu.1.2.1)
          (sub_nonneg.mpr (hxd d (List.mem_cons_self _ _)))]
      rcases List.mem_cons.mp hp with rfl | hp'
      · exact h1
      · rw [hl1'] at hp'; cases hp'
    | cons u l1'' =>
      have hu := hstep u (by rw [hl1']; rfl)
      have hchain' : List.Chain' RRel (l1' ++ a :: l2) := by
        rw [List.cons_append] at hc
        exact (List.chain'_cons'.mp hc).2
      have h2 : a.eval x ≤ u.eval x := by
        refine ih a l2 hchain' x ?_ u (by rw [hl1']; exact List.mem_cons_self _ _)
        intro d' hd'
        exact hxd d' (List.mem_cons_of_mem _ hd')
      have h1 : u.eval x ≤ d.eval x := by
        have hy := hu.1.2.2
        simp only [PlefPiece.eval] at hy ⊢
        nlinarith [mul_nonneg (sub_nonneg.mpr hu.1.2.1)
          (sub_nonneg.mpr (hxd d (List.mem_cons_self _ _)))]
      rcases List.mem_cons.mp hp with rfl | hp'
      · exact le_trans h2 h1
      · refine ih a l2 hchain' x ?_ p (by rw [hl1'] at hp' ⊢; exact hp')
        intro d' hd'
        exact hxd d' (List.mem_cons_of_mem _ hd')

/-- The crossing identity: for non-parallel lines, the difference of the two
affine pieces factors through the crossing abscissa computed by `infimum`. -/
theorem cross_identity (other p : PlefPiece) (hne : other.slope ≠ p.slope)
    (x : ℚ) :
    p.eval x - other.eval x = (p.slope - other.slope) *
      (x - (other.start_x * other.slope - p.start_x * p.slope -
        (other.start_y - p.start_y)) / (other.slope - p.slope)) := by
  have hd : other.slope - p.slope ≠ 0 := sub_ne_zero.mpr hne
  field_simp
  simp only [PlefPiece.eval]
  ring

theorem getLast_min_start :
    ∀ (l : List PlefPiece), List.Chain' RRel l →
      ∀ c, l.getLast? = some c → ∀ d ∈ l, c.start_x ≤ d.start_x := by
  intro l
  induction l with
  | nil => intro _ c hc; cases hc
  | cons a l' ih =>
    intro hc c hlast d hd
    cases l' with
    | nil =>
      rw [List.getLast?_singleton, Option.some.injEq] at hlast
      subst hlast
      rcases List.mem_singleton.mp hd with rfl
      exact le_refl _
    | cons u l'' =>
      obtain ⟨hau, hrest⟩ := List.chain'_cons.mp hc
      rw [List.getLast?_cons_cons] at hlast
      have hih := ih hrest c hlast
      rcases List.mem_cons.mp hd with rfl | hd'
      · exact le_trans (hih u (List.mem_cons_self _ _)) (le_of_lt hau.1)
      · exact hih d hd'

theorem infPush_min_break {other : PlefPiece} {L : List PlefPiece}
    (hchainL : List.Chain' RRel L)
    (hslt : ∀ p ∈ L, other.slope < p.slope)
    {b : PlefPiece} {rest' : List PlefPiece}
    (hr1 : (infLoop other L 0).1 = b :: rest') :
    ∃ l1, L = l1 ++ (b :: rest') ∧
      b.start_x < (infLoop other L 0).2 ∧
      (∀ d ∈ l1, (infLoop other L 0).2 ≤ d.start_x) ∧
      (∀ p ∈ L, other.eval (infLoop other L 0).2 ≤
        p.eval (infLoop other L 0).2) ∧
      other.eval (infLoop other L 0).2 = b.eval (infLoop other L 0).2 := by
  obtain ⟨⟨m, hm, hpop⟩, hbreak, -⟩ := infLoop_spec other L 0
  obtain ⟨hbxi, hxieq⟩ := hbreak b rest' hr1
  have hdrop : L.drop m = b :: rest' := hm.symm.trans hr1
  have hdecomp : L = L.take m ++ (b :: rest') := by
    rw [← hdrop, List.take_append_drop]
  have hbmem : b ∈ L := by
    rw [hdecomp]
    exact List.mem_append.mpr (Or.inr (List.mem_cons_self _ _))
  have hbslope : other.slope < b.slope := hslt b hbmem
  have hIb : ∀ x : ℚ, b.eval x - other.eval x =
      (b.slope - other.slope) * (x - (infLoop other L 0).2) := by
    intro x
    rw [hxieq]
    exact cross_identity other b (ne_of_lt hbslope) x
  have hPeqb : other.eval (infLoop other L 0).2 =
      b.eval (infLoop other L 0).2 := by
    have := hIb (infLoop other L 0).2
    have h2 : ((infLoop other L 0).2 - (infLoop other L 0).2 : ℚ) = 0 := by ring
    nlinarith [hIb (infLoop other L 0).2]
  have hchain2 : List.Chain' RRel (L.take m ++ (b :: rest')) := by
    rw [← hdecomp]
    exact hchainL
  have hstarts : ∀ d ∈ L.take m, (infLoop other L 0).2 ≤ d.start_x := by
    cases hl1 : (L.take m).getLast? with
    | none =>
      intro d hd
      rw [List.getLast?_eq_none_iff.mp hl1] at hd
      cases hd
    | some c =>
      have hcmem : c ∈ L.take m := List.mem_of_getLast?_eq_some hl1
      have hcL : c ∈ L := by
        rw [hdecomp]
        exact List.mem_append.mpr (Or.inl hcmem)
      have hcslope : other.slope < c.slope := hslt c hcL
      have hlink : RRel c b := by
        have := (List.chain'_append.mp hchain2).2.2
        exact this c (Option.mem_def.mpr hl1) b rfl
      have hpopc := hpop c hcmem
      have hIc := cross_identity other c (ne_of_lt hcslope) c.start_x
      -- P at c.start_x lies below c's line
      have h1 : other.eval c.start_x ≤ c.eval c.start_x := by
        nlinarith [mul_nonneg (sub_nonneg.mpr (le_of_lt hcslope))
          (sub_nonneg.mpr hpopc)]
      have h2 : c.eval c.start_x = b.eval c.start_x := by
        rw [eval_self]
        exact hlink.2.2
      -- hence ξ ≤ c.start_x
      have h3 : (infLoop other L 0).2 ≤ c.start_x := by
        have h4 := hIb c.start_x
        nlinarith [sub_pos.mpr hbslope]
      have hclast := getLast_min_start (L.take m) (hchainL.take m) c hl1
      intro d hd
      exact le_trans h3 (hclast d hd)
  refine ⟨L.take m, hdecomp, hbxi, hstarts, ?_, hPeqb⟩
  intro p hp
  rw [hdecomp] at hp
  rcases List.mem_append.mp hp with hp1 | hp2
  · rw [hPeqb]
    exact chain_before_ge (L.take m) b rest' hchain2 _ hstarts p hp1
  · rcases List.mem_cons.mp hp2 with rfl | hp3
    · rw [hPeqb]
    · rw [hPeqb]
      exact chain_desc_ge rest' b ((List.chain'_append.mp hchain2).2.1) _
        (le_of_lt hbxi) p hp3

theorem new_eval (c : ℚ) (other : PlefPiece) (x : ℚ) :
    (PlefPiece.mk c (other.eval c) other.slope).eval x = other.eval x := by
  simp only [PlefPiece.eval]
  ring

theorem cross_ge {other p : PlefPiece} (hs : other.slope < p.slope) {t : ℚ}
    (ht : (other.start_x * other.slope - p.start_x * p.slope -
      (other.start_y - p.start_y)) / (other.slope - p.slope) ≤ t) :
    other.eval t ≤ p.eval t := by
  have h := cross_identity other p (ne_of_lt hs) t
  nlinarith [mul_nonneg (sub_nonneg.mpr hs.le) (sub_nonneg.mpr ht)]

theorem parallel_diff {other p : PlefPiece} (hs : other.slope = p.slope)
    (x t : ℚ) : p.eval x - other.eval x = p.eval t - other.eval t := by
  simp only [PlefPiece.eval]
  rw [hs]
  ring

theorem evalP_attained_le :
    ∀ (ps : List PlefPiece), ps ≠ [] → ∀ x : ℚ,
      ∃ p ∈ ps, evalP ps x = p.eval x ∧ (p.start_x ≤ x ∨ ps.head? = some p) := by
  intro ps
  induction ps with
  | nil => intro h; exact absurd rfl h
  | cons p rest ih =>
    intro _ x
    cases rest with
    | nil => exact ⟨p, List.mem_cons_self _ _, rfl, Or.inr rfl⟩
    | cons q rest' =>
      by_cases hx : x < q.start_x
      · rw [evalP, if_pos hx]
        exact ⟨p, List.mem_cons_self _ _, rfl, Or.inr rfl⟩
      · rw [evalP, if_neg hx]
        obtain ⟨r, hrmem, hre, hrc⟩ := ih (by simp) x
        refine ⟨r, List.mem_cons_of_mem _ hrmem, hre, Or.inl ?_⟩
        rcases hrc with hle | hhead
        · exact hle
        · rw [List.head?_cons, Option.some.injEq] at hhead
          subst hhead
          exact le_of_not_lt hx

theorem infLoop_popall {other : PlefPiece} {L : List PlefPiece}
    (hr1 : (infLoop other L 0).1 = []) :
    ∀ p ∈ L, (other.start_x * other.slope - p.start_x * p.slope -
      (other.start_y - p.start_y)) / (other.slope - p.slope) ≤ p.start_x := by
  obtain ⟨⟨m, hm, hpop⟩, -, -⟩ := infLoop_spec other L 0
  have hdrop : L.drop m = [] := hm.symm.trans hr1
  have htake : L.take m = L :=
    List.take_of_length_le (List.drop_eq_nil_iff.mp hdrop)
  intro p hp
  exact hpop p (htake.symm ▸ hp)

theorem infLoop_xi_zero {f : Plef} {other : PlefPiece} (hinv : PlefInv f.pieces)
    {L : List PlefPiece} (hsuf : L <:+ f.pieces.reverse)
    (hslt : ∀ p ∈ L, other.slope < p.slope)
    (h0 : ∀ q, f.pieces.head? = some q → q.start_y ≤ other.eval 0)
    (hr1 : (infLoop other L 0).1 = []) :
    (infLoop other L 0).2 = 0 := by
  obtain ⟨-, -, hempty⟩ := infLoop_spec other L 0
  rcases hempty hr1 with ⟨hLnil, hxi⟩ | ⟨q, hqlast, hxi, hle⟩
  · exact hxi
  · have hLne : L ≠ [] := by
      rintro rfl
      cases hqlast
    have hqmem : q ∈ L := List.mem_of_getLast?_eq_some hqlast
    have hqslope := hslt q hqmem
    have hqhead : f.pieces.head? = some q := by
      rw [← List.getLast?_reverse, ← suffix_getLast? hsuf hLne]
      exact hqlast
    have hq0 := h0 q hqhead
    have hqx : q.start_x = 0 := head_start_x_zero hinv hqhead
    have hnum : other.start_x * other.slope - q.start_x * q.slope -
        (other.start_y - q.start_y) ≤ 0 := by
      rw [hqx]
      simp only [PlefPiece.eval] at hq0
      linarith
    have hden : other.slope - q.slope < 0 := by linarith
    have hxige : 0 ≤ (infLoop other L 0).2 := by
      rw [hxi]
      exact div_nonneg_iff.mpr (Or.inr ⟨hnum, le_of_lt hden⟩)
    have hxile : (infLoop other L 0).2 ≤ 0 := by
      rw [hqx] at hle
      exact hle
    linarith

theorem infPush_eval_break {other : PlefPiece} {L : List PlefPiece}
    (hchainL : List.Chain' RRel L)
    (hslt : ∀ p ∈ L, other.slope < p.slope)
    {b : PlefPiece} {rest' : List PlefPiece}
    (hr1 : (infLoop other L 0).1 = b :: rest') :
    (∀ x : ℚ, (infLoop other L 0).2 ≤ x →
      evalP ((PlefPiece.mk (infLoop other L 0).2
          (other.eval (infLoop other L 0).2) other.slope ::
            b :: rest').reverse) x = other.eval x ∧
      other.eval x ≤ evalP L.reverse x) ∧
    (∀ x : ℚ, x < (infLoop other L 0).2 →
      evalP ((PlefPiece.mk (infLoop other L 0).2
          (other.eval (infLoop other L 0).2) other.slope ::
            b :: rest').reverse) x = evalP L.reverse x ∧
      evalP L.reverse x < other.eval x) ∧
    evalP L.reverse (infLoop other L 0).2 ≤
      other.eval (infLoop other L 0).2 := by
  set ξ := (infLoop other L 0).2 with hξdef
  set nw := PlefPiece.mk ξ (other.eval ξ) other.slope with hnwdef
  obtain ⟨l1, hdecomp, hbxi, hstarts, hdom, hPeqb⟩ :=
    infPush_min_break hchainL hslt hr1
  have hbmem : b ∈ L := by
    rw [hdecomp]
    exact List.mem_append.mpr (Or.inr (List.mem_cons_self _ _))
  have hbs : other.slope < b.slope := hslt b hbmem
  have hchainBR : List.Chain' RRel (b :: rest') := by
    have h := hchainL
    rw [hdecomp] at h
    exact (List.chain'_append.mp h).2.1
  have hchainS : List.Chain' SRel ((b :: rest').reverse) := by
    have h2 : List.Chain' RRel (((b :: rest').reverse).reverse) := by
      rw [List.reverse_reverse]
      exact hchainBR
    exact (chain'_rRel_reverse _).mp h2
  have hLrevS : List.Chain' SRel L.reverse := by
    have h2 : List.Chain' RRel (L.reverse.reverse) := by
      rw [List.reverse_reverse]
      exact hchainL
    exact (chain'_rRel_reverse _).mp h2
  have hLrev : L.reverse = (b :: rest').reverse ++ l1.reverse := by
    rw [hdecomp, List.reverse_append]
  have hbrne : (b :: rest').reverse ≠ [] := by simp
  have hLne : L.reverse ≠ [] := by
    rw [hLrev]
    simp
  have hchainG : List.Chain' SRel ((b :: rest').reverse ++ [nw]) := by
    rw [List.chain'_append]
    refine ⟨hchainS, List.chain'_singleton _, ?_⟩
    intro u hu v hv
    rw [List.getLast?_reverse, List.head?_cons, Option.mem_some_iff] at hu
    rw [List.head?_cons, Option.mem_some_iff] at hv
    subst hu
    subst hv
    exact ⟨hbxi, hbs.le, hPeqb⟩
  have hatxi : evalP L.reverse ξ ≤ other.eval ξ := by
    calc evalP L.reverse ξ ≤ b.eval ξ :=
        evalP_min hLrevS _ b (List.mem_reverse.mpr hbmem)
      _ = other.eval ξ := hPeqb.symm
  refine ⟨?_, ?_, hatxi⟩
  · intro x hx
    rw [List.reverse_cons]
    constructor
    · have h1 := evalP_last ((chain'_sRel_iff _).mp hchainG).1
        (List.getLast?_concat ((b :: rest').reverse)) hx
      rw [h1, hnwdef]
      exact new_eval ξ other x
    · obtain ⟨r, hrmem, hre⟩ := evalP_attained L.reverse hLne x
      rw [hre]
      have hrL : r ∈ L := List.mem_reverse.mp hrmem
      have hrs := hslt r hrL
      have hdr := hdom r hrL
      simp only [PlefPiece.eval] at hdr ⊢
      nlinarith [mul_nonneg (sub_nonneg.mpr hrs.le) (sub_nonneg.mpr hx)]
  · intro x hx
    rw [List.reverse_cons]
    have h1 : evalP ((b :: rest').reverse ++ [nw]) x =
        evalP ((b :: rest').reverse) x := by
      refine evalP_append_lt _ _ _ hbrne ?_
      intro r hr
      rcases List.mem_singleton.mp hr with rfl
      exact hx
    have h2 : evalP L.reverse x = evalP ((b :: rest').reverse) x := by
      rw [hLrev]
      refine evalP_append_lt _ _ _ hbrne ?_
      intro r hr
      exact lt_of_lt_of_le hx (hstarts r (List.mem_reverse.mp hr))
    refine ⟨h1.trans h2.symm, ?_⟩
    rw [h2]
    have h3 : evalP ((b :: rest').reverse) x ≤ b.eval x :=
      evalP_min hchainS x b (by simp)
    have h4 : b.eval x < other.eval x := by
      simp only [PlefPiece.eval] at hPeqb ⊢
      nlinarith [mul_pos (sub_pos.mpr hbs) (sub_pos.mpr hx)]
    exact lt_of_le_of_lt h3 h4

theorem c1ex1_eval : (⟨[⟨0, 0, 5⟩, ⟨2, 10, 1⟩]⟩ : Plef).infimum ⟨0, 4, 0⟩ =
    some (⟨[⟨0, 0, 5⟩, ⟨4/5, 4, 0⟩]⟩, ((4/5 : ℚ) : WithTop ℚ)) := by
  norm_num [Plef.infimum, infLoop, PlefPiece.eval]

theorem c1ex2_eval : (⟨[⟨0, 0, 5⟩]⟩ : Plef).infimum ⟨0, 100, 5⟩ =
    some (⟨[⟨0, 0, 5⟩]⟩, (⊤ : WithTop ℚ)) := by
  norm_num [Plef.infimum, infLoop, PlefPiece.eval]

theorem evalP_lt_lastline {f : Plef} (hinv : PlefInv f.pieces)
    (hstrict : List.Chain' (fun p q : PlefPiece => q.slope < p.slope) f.pieces)
    {last : PlefPiece} {rest : List PlefPiece}
    (hrev : f.pieces.reverse = last :: rest)
    {x : ℚ} (hx0 : 0 ≤ x) (hx : x < last.start_x) :
    evalP f.pieces x < last.eval x := by
  have hpieces : f.pieces = rest.reverse ++ [last] := by
    rw [← List.reverse_reverse f.pieces, hrev, List.reverse_cons]
  cases hu : rest.reverse.getLast? with
  | none =>
    exfalso
    have hnil : rest.reverse = [] := List.getLast?_eq_none_iff.mp hu
    have hsingle : f.pieces = [last] := by
      rw [hpieces, hnil]
      rfl
    have hhead : f.pieces.head? = some last := by
      rw [hsingle]
      rfl
    have := head_start_x_zero hinv hhead
    linarith
  | some u =>
    have hl0ne : rest.reverse ≠ [] := by
      intro h
      rw [h] at hu
      cases hu
    have hSRel : List.Chain' SRel f.pieces := ((plefInv_iff _).mp hinv).1
    rw [hpieces] at hSRel
    obtain ⟨hchain0, -, hlink⟩ := List.chain'_append.mp hSRel
    have hul : SRel u last := hlink u (Option.mem_def.mpr hu) last rfl
    have hstrict' := hstrict
    rw [hpieces] at hstrict'
    have hslt : last.slope < u.slope :=
      (List.chain'_append.mp hstrict').2.2 u (Option.mem_def.mpr hu) last rfl
    have h1 : evalP f.pieces x = evalP rest.reverse x := by
      rw [hpieces]
      refine evalP_append_lt _ _ _ hl0ne ?_
      intro r hr
      rcases List.mem_singleton.mp hr with rfl
      exact hx
    have h2 : evalP rest.reverse x ≤ u.eval x :=
      evalP_min hchain0 x u (List.mem_of_getLast?_eq_some hu)
    have h3 : u.eval x < last.eval x := by
      have hcont := hul.2.2
      simp only [PlefPiece.eval] at hcont ⊢
      nlinarith [mul_pos (sub_pos.mpr hslt) (sub_pos.mpr hx)]
    rw [h1]
    linarith

theorem evalP_at_zero {f : Plef} (hinv : PlefInv f.pieces)
    {q : PlefPiece} (hq : f.pieces.head? = some q) :
    evalP f.pieces 0 = q.start_y := by
  cases hp : f.pieces with
  | nil => rw [hp] at hq; cases hq
  | cons hd tl =>
    rw [hp, List.head?_cons, Option.some.injEq] at hq
    subst hq
    have hchain := hinv.1
    have hhd0 := hinv.2.1
    rw [hp] at hchain hhd0
    have hhd0' : hd.start_x = 0 := hhd0
    have h1 : evalP (hd :: tl) 0 = hd.eval 0 := by
      refine evalP_cons_lt hd tl 0 ?_
      intro r' hr'
      cases tl with
      | nil => cases hr'
      | cons s tl' =>
        rw [List.head?_cons, Option.some.injEq] at hr'
        subst hr'
        have h2 := (List.chain'_cons.mp hchain).1
        linarith
    rw [h1]
    simp only [PlefPiece.eval]
    rw [hhd0']
    ring

/-- C1 (amended): the two worked examples of the specification hold exactly
(`f = {(0,0,5),(2,10,1)}`, `P = (0,4,0)` gives `ξ = 4/5` and
`{(0,0,5),(4/5,4,0)}`; `f = {(0,0,5)}`, `P = (0,100,5)` gives `+∞` and leaves
`f` unchanged).  In general, `Plef::infimum` computes the pointwise minimum
`min(f, P)` on `[0, ∞)` and the returned finite `ξ` is the smallest `λ ≥ 0`
at which `P` becomes optimal — the mutated PLEF equals `P`'s line from `ξ`
on, equals `f` on `[0, ξ]`, and `f` lies strictly below `P` on `[0, ξ)` —
but only under the hypotheses that `f` satisfies the PLEF invariants with
strictly decreasing slopes and that `P`'s slope is at most every slope of
`f` with `P(0)` at least `f(0)`; for an arbitrary affine `P` the claim is
false (see the counterexample: a steeper `P` lying below `f` at `0`). -/
theorem spec_c1_infimum_min :
    ((⟨[⟨0, 0, 5⟩, ⟨2, 10, 1⟩]⟩ : Plef).infimum ⟨0, 4, 0⟩ =
        some (⟨[⟨0, 0, 5⟩, ⟨4/5, 4, 0⟩]⟩, ((4/5 : ℚ) : WithTop ℚ)) ∧
      (⟨[⟨0, 0, 5⟩]⟩ : Plef).infimum ⟨0, 100, 5⟩ =
        some (⟨[⟨0, 0, 5⟩]⟩, (⊤ : WithTop ℚ))) ∧
    ∀ (f : Plef) (other : PlefPiece) (g : Plef) (xi : WithTop ℚ),
      PlefInv f.pieces →
      List.Chain' (fun p q : PlefPiece => q.slope < p.slope) f.pieces →
      f.pieces ≠ [] →
      other.start_x = 0 →
      (∀ p ∈ f.pieces, other.slope ≤ p.slope) →
      (∀ q, f.pieces.head? = some q → q.start_y ≤ other.eval 0) →
      f.infimum other = some (g, xi) →
      (∀ x : ℚ, 0 ≤ x →
        evalP g.pieces x = min (evalP f.pieces x) (other.eval x)) ∧
      ∀ xq : ℚ, xi = (xq : WithTop ℚ) →
        (∀ x : ℚ, xq ≤ x → evalP g.pieces x = other.eval x) ∧
        (∀ x : ℚ, 0 ≤ x → x ≤ xq → evalP g.pieces x = evalP f.pieces x) ∧
        (∀ x : ℚ, 0 ≤ x → x < xq → evalP f.pieces x < other.eval x) := by
  refine ⟨⟨c1ex1_eval, c1ex2_eval⟩, ?_⟩
  intro f other g xi hinv hstrict hne _hox hsl h0 hres
  obtain ⟨last, rest, hrev⟩ := List.exists_cons_of_ne_nil
    (fun hnil => hne (List.reverse_eq_nil_iff.mp hnil))
  have hlastmem : last ∈ f.pieces := by
    rw [← List.mem_reverse, hrev]
    exact List.mem_cons_self _ _
  have hpieces : f.pieces = rest.reverse ++ [last] := by
    rw [← List.reverse_reverse f.pieces, hrev, List.reverse_cons]
  have hSRel : List.Chain' SRel f.pieces := ((plefInv_iff _).mp hinv).1
  have hlastq : f.pieces.getLast? = some last := by
    rw [← List.head?_reverse, hrev]
    rfl
  have hchainRev : List.Chain' RRel f.pieces.reverse :=
    (chain'_rRel_reverse _).mpr hSRel
  have hchainRevL : List.Chain' RRel (last :: rest) := by
    rw [← hrev]
    exact hchainRev
  have hasc : List.Chain' (fun a b : PlefPiece => a.slope < b.slope)
      f.pieces.reverse := by
    rw [List.chain'_reverse]
    exact hstrict
  haveI : IsTrans PlefPiece (fun a b : PlefPiece => a.slope < b.slope) :=
    ⟨fun a b c h1 h2 => lt_trans h1 h2⟩
  have hrestslope : ∀ p ∈ rest, last.slope < p.slope := by
    have hpw := List.chain'_iff_pairwise.mp hasc
    rw [hrev] at hpw
    exact (List.pairwise_cons.mp hpw).1
  have hxdesc : ∀ p ∈ rest, p.start_x < last.start_x := by
    have hxchain : List.Chain' (fun a b : PlefPiece =>
        b.start_x < a.start_x) (last :: rest) :=
      hchainRevL.imp fun a b hr => hr.1
    haveI : IsTrans PlefPiece (fun a b : PlefPiece =>
        b.start_x < a.start_x) := ⟨fun a b c h1 h2 => lt_trans h2 h1⟩
    have hpw := List.chain'_iff_pairwise.mp hxchain
    exact (List.pairwise_cons.mp hpw).1
  rw [Plef.infimum, hrev] at hres
  dsimp only at hres
  split_ifs at hres with heq h1 h2
  · -- parallel, strictly above: f unchanged, ξ = +∞
    rw [Option.some.injEq, Prod.mk.injEq] at hres
    obtain ⟨hgf, hxi⟩ := hres
    subst hgf
    have hlt : ∀ x : ℚ, last.eval x < other.eval x := by
      intro x
      have hd := parallel_diff heq x last.start_x
      rw [eval_self] at hd
      linarith
    refine ⟨?_, ?_⟩
    · intro x _
      have hfle : evalP f.pieces x ≤ last.eval x :=
        evalP_min hSRel x last hlastmem
      rw [min_eq_left (le_of_lt (lt_of_le_of_lt hfle (hlt x)))]
    · intro xq hxq
      exact absurd (hxi.trans hxq).symm WithTop.coe_ne_top
  · -- parallel, equal at last.start_x: the two lines coincide
    rw [Option.some.injEq, Prod.mk.injEq] at hres
    obtain ⟨hgf, hxi⟩ := hres
    subst hgf
    have hline : ∀ x : ℚ, other.eval x = last.eval x := by
      intro x
      have hd := parallel_diff heq x last.start_x
      rw [eval_self] at hd
      linarith
    refine ⟨?_, ?_⟩
    · intro x _
      rw [hline x, min_eq_left (evalP_min hSRel x last hlastmem)]
    · intro xq hxq
      have hxq' : last.start_x = xq := WithTop.coe_inj.mp (hxi.trans hxq)
      subst hxq'
      refine ⟨?_, ?_, ?_⟩
      · intro x hx
        rw [hline x]
        exact evalP_last hinv.1 hlastq hx
      · intro x _ _
        rfl
      · intro x hx0 hx
        rw [hline x]
        exact evalP_lt_lastline hinv hstrict hrev hx0 hx
  · -- parallel, strictly below: last piece is popped first
    rw [Option.some.injEq, Prod.mk.injEq] at hres
    obtain ⟨hg, hxi⟩ := hres
    have hgp : g.pieces = (PlefPiece.mk (infLoop other rest 0).2
        (other.eval (infLoop other rest 0).2) other.slope ::
          (infLoop other rest 0).1).reverse := by
      rw [← hg]
    have hylt : other.eval last.start_x < last.start_y :=
      lt_of_le_of_ne (not_lt.mp h1) h2
    have hPlt : ∀ x : ℚ, other.eval x < last.eval x := by
      intro x
      have hd := parallel_diff heq x last.start_x
      rw [eval_self] at hd
      linarith
    have hslt_rest : ∀ p ∈ rest, other.slope < p.slope := by
      intro p hp
      rw [heq]
      exact hrestslope p hp
    have hchainRest : List.Chain' RRel rest :=
      (List.chain'_cons'.mp hchainRevL).2
    have hsuf_rest : rest <:+ f.pieces.reverse := by
      rw [hrev]
      exact List.suffix_cons _ _
    cases hr1 : (infLoop other rest 0).1 with
    | cons b rest'' =>
      obtain ⟨hright, hleft, hatxi⟩ :=
        infPush_eval_break hchainRest hslt_rest hr1
      obtain ⟨l1, hdecomp, hbxi2, hstarts, hdom, hPeqb⟩ :=
        infPush_min_break hchainRest hslt_rest hr1
      have hbrest : b ∈ rest := by
        rw [hdecomp]
        exact List.mem_append.mpr (Or.inr (List.mem_cons_self _ _))
      have hbs : other.slope < b.slope := hslt_rest b hbrest
      have hxilast : (infLoop other rest 0).2 < last.start_x := by
        cases l1 with
        | nil =>
          have hrestform : rest = b :: rest'' := by
            rw [hdecomp]
            rfl
          have hlb : RRel last b := by
            rw [hrestform] at hchainRevL
            exact (List.chain'_cons.mp hchainRevL).1
          have hcont : last.start_y = b.eval last.start_x := hlb.2.2
          by_contra hc
          push_neg at hc
          simp only [PlefPiece.eval] at hPeqb hcont hylt
          nlinarith [mul_nonneg (sub_nonneg.mpr hbs.le) (sub_nonneg.mpr hc)]
        | cons d l1' =>
          have hdrest : d ∈ rest := by
            rw [hdecomp]
            exact List.mem_append.mpr (Or.inl (List.mem_cons_self _ _))
          have h3 := hstarts d (List.mem_cons_self _ _)
          have h4 := hxdesc d hdrest
          linarith
      have hrestrevne : rest.reverse ≠ [] := by
        rw [hdecomp]
        simp
      have hfrest : ∀ x : ℚ, x < last.start_x →
          evalP f.pieces x = evalP rest.reverse x := by
        intro x hx
        rw [hpieces]
        refine evalP_append_lt _ _ _ hrestrevne ?_
        intro r hr
        rcases List.mem_singleton.mp hr with rfl
        exact hx
      have hPle : ∀ x : ℚ, (infLoop other rest 0).2 ≤ x →
          other.eval x ≤ evalP f.pieces x := by
        intro x hx
        rcases lt_or_le x last.start_x with hxl | hxl
        · rw [hfrest x hxl]
          exact (hright x hx).2
        · rw [evalP_last hinv.1 hlastq hxl]
          exact le_of_lt (hPlt x)
      refine ⟨?_, ?_⟩
      · intro x _
        rcases le_or_lt (infLoop other rest 0).2 x with hxge | hxlt
        · rw [hgp, hr1, min_eq_right (hPle x hxge)]
          exact (hright x hxge).1
        · have hxl : x < last.start_x := lt_trans hxlt hxilast
          rw [hgp, hr1, hfrest x hxl,
            min_eq_left (le_of_lt (hleft x hxlt).2)]
          exact (hleft x hxlt).1
      · intro xq hxq
        have hxq' : (infLoop other rest 0).2 = xq :=
          WithTop.coe_inj.mp (hxi.trans hxq)
        subst hxq'
        refine ⟨?_, ?_, ?_⟩
        · intro x hx
          rw [hgp, hr1]
          exact (hright x hx).1
        · intro x _ hxle
          rcases lt_or_eq_of_le hxle with hxlt | hxeq
          · rw [hgp, hr1, hfrest x (lt_trans hxlt hxilast)]
            exact (hleft x hxlt).1
          · subst hxeq
            rw [hgp, hr1, hfrest _ hxilast]
            rw [(hright _ (le_refl _)).1]
            exact le_antisymm ((hright _ (le_refl _)).2) hatxi
        · intro x _ hxlt
          rw [hfrest x (lt_trans hxlt hxilast)]
          exact (hleft x hxlt).2
    | nil =>
      have hxi0 : (infLoop other rest 0).2 = 0 :=
        infLoop_xi_zero hinv hsuf_rest hslt_rest h0 hr1
      have hpopall := infLoop_popall hr1
      have hgP : ∀ x : ℚ, evalP g.pieces x = other.eval x := by
        intro x
        rw [hgp, hr1, List.reverse_singleton]
        exact new_eval _ other x
      have hPle : ∀ x : ℚ, 0 ≤ x → other.eval x ≤ evalP f.pieces x := by
        intro x hx0
        obtain ⟨r, hrmem, hre, hrc⟩ := evalP_attained_le f.pieces hne x
        have hrx : r.start_x ≤ x := by
          rcases hrc with h | hhead
          · exact h
          · rw [head_start_x_zero hinv hhead]
            exact hx0
        rw [hre]
        have hrmem' := hrmem
        rw [hpieces] at hrmem'
        rcases List.mem_append.mp hrmem' with hr | hr
        · have hrrest : r ∈ rest := List.mem_reverse.mp hr
          exact cross_ge (hslt_rest r hrrest)
            (le_trans (hpopall r hrrest) hrx)
        · rcases List.mem_singleton.mp hr with rfl
          exact le_of_lt (hPlt x)
      refine ⟨?_, ?_⟩
      · intro x hx0
        rw [hgP x, min_eq_right (hPle x hx0)]
      · intro xq hxq
        have hxq' : (infLoop other rest 0).2 = xq :=
          WithTop.coe_inj.mp (hxi.trans hxq)
        subst hxq'
        refine ⟨?_, ?_, ?_⟩
        · intro x _
          exact hgP x
        · intro x hx0 hxle
          rw [hxi0] at hxle
          have hx0' : x = 0 := le_antisymm hxle hx0
          subst hx0'
          obtain ⟨hd, hq⟩ : ∃ hd, f.pieces.head? = some hd := by
            cases hp : f.pieces with
            | nil => exact absurd hp hne
            | cons a t => exact ⟨a, rfl⟩
          rw [hgP 0, evalP_at_zero hinv hq]
          exact le_antisymm
            (by rw [← evalP_at_zero hinv hq]; exact hPle 0 (le_refl 0))
            (h0 hd hq)
        · intro x hx0 hxlt
          rw [hxi0] at hxlt
          exact absurd (lt_of_le_of_lt hx0 hxlt) (lt_irrefl 0)
  · -- generic branch: slopes differ
    rw [Option.some.injEq, Prod.mk.injEq] at hres
    obtain ⟨hg, hxi⟩ := hres
    have hgp : g.pieces = (PlefPiece.mk (infLoop other (last :: rest) 0).2
        (other.eval (infLoop other (last :: rest) 0).2) other.slope ::
          (infLoop other (last :: rest) 0).1).reverse := by
      rw [← hg]
    have hslt_all : ∀ p ∈ last :: rest, other.slope < p.slope := by
      intro p hp
      rcases List.mem_cons.mp hp with rfl | hp'
      · exact lt_of_le_of_ne (hsl p hlastmem) heq
      · exact lt_of_le_of_lt (hsl last hlastmem) (hrestslope p hp')
    have hLrev_eq : (last :: rest).reverse = f.pieces := by
      rw [← hrev, List.reverse_reverse]
    have hsuf_all : (last :: rest) <:+ f.pieces.reverse := by
      rw [hrev]
    cases hr1 : (infLoop other (last :: rest) 0).1 with
    | cons b rest'' =>
      obtain ⟨hright, hleft, hatxi⟩ :=
        infPush_eval_break hchainRevL hslt_all hr1
      simp only [hLrev_eq] at hright hleft hatxi
      refine ⟨?_, ?_⟩
      · intro x _
        rcases le_or_lt (infLoop other (last :: rest) 0).2 x with hxge | hxlt
        · rw [hgp, hr1, min_eq_right (hright x hxge).2]
          exact (hright x hxge).1
        · rw [hgp, hr1, min_eq_left (le_of_lt (hleft x hxlt).2)]
          exact (hleft x hxlt).1
      · intro xq hxq
        have hxq' : (infLoop other (last :: rest) 0).2 = xq :=
          WithTop.coe_inj.mp (hxi.trans hxq)
        subst hxq'
        refine ⟨?_, ?_, ?_⟩
        · intro x hx
          rw [hgp, hr1]
          exact (hright x hx).1
        · intro x _ hxle
          rcases lt_or_eq_of_le hxle with hxlt | hxeq
          · rw [hgp, hr1]
            exact (hleft x hxlt).1
          · subst hxeq
            rw [hgp, hr1, (hright _ (le_refl _)).1]
            exact le_antisymm ((hright _ (le_refl _)).2) hatxi
        · intro x _ hxlt
          exact (hleft x hxlt).2
    | nil =>
      have hxi0 : (infLoop other (last :: rest) 0).2 = 0 :=
        infLoop_xi_zero hinv hsuf_all hslt_all h0 hr1
      have hpopall := infLoop_popall hr1
      have hgP : ∀ x : ℚ, evalP g.pieces x = other.eval x := by
        intro x
        rw [hgp, hr1, List.reverse_singleton]
        exact new_eval _ other x
      have hPle : ∀ x : ℚ, 0 ≤ x → other.eval x ≤ evalP f.pieces x := by
        intro x hx0
        obtain ⟨r, hrmem, hre, hrc⟩ := evalP_attained_le f.pieces hne x
        have hrx : r.start_x ≤ x := by
          rcases hrc with h | hhead
          · exact h
          · rw [head_start_x_zero hinv hhead]
            exact hx0
        rw [hre]
        have hrL : r ∈ last :: rest := by
          rw [← hrev]
          exact List.mem_reverse.mpr hrmem
        exact cross_ge (hslt_all r hrL) (le_trans (hpopall r hrL) hrx)
      refine ⟨?_, ?_⟩
      · intro x hx0
        rw [hgP x, min_eq_right (hPle x hx0)]
      · intro xq hxq
        have hxq' : (infLoop other (last :: rest) 0).2 = xq :=
          WithTop.coe_inj.mp (hxi.trans hxq)
        subst hxq'
        refine ⟨?_, ?_, ?_⟩
        · intro x _
          exact hgP x
        · intro x hx0 hxle
          rw [hxi0] at hxle
          have hx0' : x = 0 := le_antisymm hxle hx0
          subst hx0'
          obtain ⟨hd, hq⟩ : ∃ hd, f.pieces.head? = some hd := by
            cases hp : f.pieces with
            | nil => exact absurd hp hne
            | cons a t => exact ⟨a, rfl⟩
          rw [hgP 0, evalP_at_zero hinv hq]
          exact le_antisymm
            (by rw [← evalP_at_zero hinv hq]; exact hPle 0 (le_refl 0))
            (h0 hd hq)
        · intro x hx0 hxlt
          rw [hxi0] at hxlt
          exact absurd (lt_of_le_of_lt hx0 hxlt) (lt_irrefl 0)

/-- Witness for C1: the general minimum statement instantiated at the
specification's first example, evaluated at `λ = 2`. -/
theorem spec_c1_witness :
    evalP ([⟨0, 0, 5⟩, ⟨4/5, 4, 0⟩] : List PlefPiece) 2 =
      min (evalP ([⟨0, 0, 5⟩, ⟨2, 10, 1⟩] : List PlefPiece) 2)
        ((⟨0, 4, 0⟩ : PlefPiece).eval 2) := by
  have hinv : PlefInv ([⟨0, 0, 5⟩, ⟨2, 10, 1⟩] : List PlefPiece) := by
    refine ⟨List.chain'_cons.mpr ⟨by norm_num, List.chain'_singleton _⟩, rfl,
      List.chain'_cons.mpr ⟨by norm_num, List.chain'_singleton _⟩,
      List.chain'_cons.mpr ⟨by norm_num [PlefPiece.eval],
        List.chain'_singleton _⟩⟩
  have hstrict : List.Chain' (fun p q : PlefPiece => q.slope < p.slope)
      ([⟨0, 0, 5⟩, ⟨2, 10, 1⟩] : List PlefPiece) :=
    List.chain'_cons.mpr ⟨by norm_num, List.chain'_singleton _⟩
  have hsl : ∀ p ∈ ([⟨0, 0, 5⟩, ⟨2, 10, 1⟩] : List PlefPiece),
      (⟨0, 4, 0⟩ : PlefPiece).slope ≤ p.slope := by
    intro p hp
    simp only [List.mem_cons, List.not_mem_nil, or_false] at hp
    rcases hp with rfl | rfl <;> norm_num
  have h0 : ∀ q : PlefPiece,
      ([⟨0, 0, 5⟩, ⟨2, 10, 1⟩] : List PlefPiece).head? = some q →
      q.start_y ≤ (⟨0, 4, 0⟩ : PlefPiece).eval 0 := by
    intro q hq
    rw [List.head?_cons, Option.some.injEq] at hq
    subst hq
    norm_num [PlefPiece.eval]
  exact (spec_c1_infimum_min.2 ⟨[⟨0, 0, 5⟩, ⟨2, 10, 1⟩]⟩ ⟨0, 4, 0⟩
    ⟨[⟨0, 0, 5⟩, ⟨4/5, 4, 0⟩]⟩ ((4/5 : ℚ) : WithTop ℚ) hinv hstrict
    (by simp) rfl hsl h0 spec_c1_infimum_min.1.1).1 2 (by norm_num)
